import Mathlib

/-! RSA key generation and PKCS#1 v1.5-style encryption (`alexrsa`)

A shallow embedding of `src/alexrsa/alexrsa.go`.

* `*big.Int` values are `Int` (key fields) or `Nat` (values that are non-negative by
  construction: results of `SetBytes`, of `Exp` on a non-negative base, of `ModInverse`).
* `[]byte` is `List Byte` with `Byte = Fin 256`.
* The two uses of `crypto/rand` are explicit streams of draw outcomes: the `i`-th call of
  `rand.Prime` / `rand.Read` on the shared reader yields the `i`-th element of the stream.
* A call has one of three results (`Res`): a value, a returned `error`, or a run-time panic.
  Loops whose termination depends on the environment take a fuel argument and return
  `none` when the fuel does not suffice.
-/

set_option maxRecDepth 100000

namespace alexrsa

/-- One octet of a Go byte slice. -/
abbrev Byte := Fin 256

/-- The error values the package returns. -/
inductive Error where
  /-- Returned by `rand.Prime` when it is asked for fewer than two bits. -/
  | primeSize
  /-- The random reader failed; the code identifies the failure. -/
  | source (code : Nat)
  /-- Returned by `EncryptRSA`: the message of length `len` is too long. -/
  | messageTooLong (len : Nat)
  /-- Returned by `DecryptRSA`: the ciphertext has `len` bytes, `keyLen` were expected. -/
  | lengthMismatch (len keyLen : Nat)
  /-- Returned by `DecryptRSA`: the block starts with `m0`, `m1`, expected 0x00, 0x02. -/
  | paddingSignature (m0 m1 : Byte)
  /-- Returned by `DecryptRSA`: end of padding not found. -/
  | noTerminator
  deriving DecidableEq

/-- The ways a call can abort the process. -/
inductive Panic where
  /-- The panic of `GenerateKeys`: retried too many times. -/
  | retriedTooManyTimes
  /-- An index expression `s[i]` with `i` outside `0 .. len(s)-1`. -/
  | indexOutOfRange
  /-- A slice expression `s[i:]` with `i` outside `0 .. len(s)`. -/
  | sliceBounds
  deriving DecidableEq

/-- Result of a call: a returned value, a returned error, or a panic. -/
inductive Res (α : Type) where
  | ok (a : α)
  | error (e : Error)
  | panic (p : Panic)
  deriving DecidableEq

/-- Outcome of one request to the random reader. -/
inductive Draw (α : Type) where
  | value (a : α)
  | fail (code : Nat)
  deriving DecidableEq

/-- A place to store the public key. -/
structure PublicKey where
  N : Int
  E : Int
  deriving DecidableEq

/-- A place to store the corresponding private key. -/
structure PrivateKey where
  N : Int
  D : Int
  deriving DecidableEq

/-! ## `math/big` -/

namespace big

/-- Number of binary digits of `n`, by repeated halving (`fuel` bounds the number of steps). -/
def bitLenAux : Nat → Nat → Nat
  | 0, _ => 0
  | fuel + 1, n => if n = 0 then 0 else bitLenAux fuel (n / 2) + 1

/-- Method `(*Int).BitLen`: the length of the absolute value of `z` in bits; the bit length of 0 is 0. -/
def BitLen (z : Int) : Nat := bitLenAux z.natAbs z.natAbs

/-- Big-endian base-256 digits of `n` pushed in front of `acc`, without leading zeros. -/
def bytesAux : Nat → Nat → List Byte → List Byte
  | 0, _, acc => acc
  | fuel + 1, n, acc =>
    if n = 0 then acc
    else bytesAux fuel (n / 256) (⟨n % 256, Nat.mod_lt n (by decide)⟩ :: acc)

/-- Method `(*Int).Bytes`: the absolute value of `z` as a big-endian byte slice (empty for 0). -/
def Bytes (z : Int) : List Byte := bytesAux z.natAbs z.natAbs []

/-- Method `(*Int).SetBytes`: `buf` read as a big-endian unsigned integer. -/
def SetBytes (buf : List Byte) : Nat := buf.foldl (fun acc b => acc * 256 + b.val) 0

/-- Square-and-multiply evaluation of `x ^ y % m` (`fuel` bounds the number of halvings). -/
def powModAux : Nat → Nat → Nat → Nat → Nat
  | 0, _, _, m => 1 % m
  | fuel + 1, x, y, m =>
    if y = 0 then 1 % m
    else
      let h := powModAux fuel (x * x % m) (y / 2) m
      if y % 2 = 1 then x * h % m else h

/-- Modular power `x ^ y mod m` for `m ≠ 0`. -/
def powMod (x y m : Nat) : Nat := powModAux y x y m

/-- Extended Euclid on `(r0, r1)` with the cofactor of the first argument: returns the last
non-zero remainder and its cofactor. -/
def invAux : Nat → Nat → Nat → Int → Int → Nat × Int
  | 0, r0, _, s0, _ => (r0, s0)
  | fuel + 1, r0, r1, s0, s1 =>
    if r1 = 0 then (r0, s0)
    else invAux fuel r1 (r0 % r1) s1 (s0 - (r0 / r1 : Nat) * s1)

/-- Method `(*Int).ModInverse(g, n)` for `g ≥ 0`: the multiplicative inverse of `g` in the ring ℤ/|n|ℤ,
in the range `0 ≤ z < |n|`; `none` (Go: `nil`) when `g` and `n` are not relatively prime. -/
def ModInverse (g : Nat) (n : Int) : Option Nat :=
  let r := invAux (n.natAbs + 1) g n.natAbs 1 0
  if r.1 ≠ 1 then none else some (r.2 % (n.natAbs : Int)).toNat

/-- Method `(*Int).Exp(x, y, m)` for a base `x ≥ 0`: `x ^ y mod |m|`; for `m = 0` it is `x ^ y`, or `1`
when `y ≤ 0`; for `y < 0` and `m ≠ 0` it is `(x⁻¹) ^ |y| mod |m|`, and `none` (Go: `nil`, the
receiver is left unchanged) when `x` has no inverse modulo `m`. -/
def Exp (x : Nat) (y m : Int) : Option Nat :=
  if y < 0 then
    if m = 0 then some 1
    else
      match ModInverse x m with
      | none => none
      | some inv => some (powMod inv y.natAbs m.natAbs)
  else if m = 0 then some (x ^ y.toNat)
  else some (powMod x y.toNat m.natAbs)

end big

/-! ## `crypto/rand` -/

/-- Function `rand.Prime(rand.Reader, bits)`: an error if `bits < 2`, otherwise the next draw of the
prime stream. Returns the result and the position of the stream after the call. -/
def randPrime (src : Nat → Draw Nat) (pos : Nat) (bits : Int) : Res Nat × Nat :=
  if bits < 2 then (.error .primeSize, pos)
  else
    match src pos with
    | .value p => (.ok p, pos + 1)
    | .fail code => (.error (.source code), pos + 1)

/-! ## Slice helpers -/

/-- Statement `copy(dst[k:], src)` for `k ≤ len(dst)`: overwrites `dst` from index `k` with as many
bytes of `src` as fit. -/
def copyInto (dst : List Byte) (k : Nat) (src : List Byte) : List Byte :=
  dst.take k ++ src.take (dst.length - k) ++ dst.drop (k + src.length)

/-- The loop `for i := 0; i < n; i++` that sets `eb[i] = 0x00`. -/
def zeroFill (eb : List Byte) : Nat → List Byte
  | 0 => eb
  | n + 1 => (zeroFill eb n).set n 0

/-- Function `bytes.IndexByte(b, c)`: the index of the first instance of `c` in `b`, or `-1`. -/
def IndexByte : List Byte → Byte → Int
  | [], _ => -1
  | x :: xs, c =>
    if x = c then 0
    else
      let r := IndexByte xs c
      if r < 0 then -1 else r + 1

/-! ## Key generation -/

/-- The loop of `GenerateKeys`; `numRetries` is the counter of the source, `pos` the number of
primes drawn so far. Returns the result of the call and the final position of the prime stream. -/
def GenerateKeysLoop (bitlen : Int) (src : Nat → Draw Nat) :
    Nat → Nat → Nat → Option (Res (PublicKey × PrivateKey) × Nat)
  | 0, _, _ => none
  | fuel + 1, numRetries, pos =>
    let numRetries := numRetries + 1
    if numRetries = 10 then some (.panic .retriedTooManyTimes, pos)
    else
      match randPrime src pos (bitlen.tdiv 2) with
      | (.error err, pos) => some (.error err, pos)
      | (.panic p, pos) => some (.panic p, pos)
      | (.ok p, pos) =>
        match randPrime src pos (bitlen.tdiv 2) with
        | (.error err, pos) => some (.error err, pos)
        | (.panic p, pos) => some (.panic p, pos)
        | (.ok q, pos) =>
          -- compute n = pq
          let n : Int := (p : Int) * (q : Int)
          if (big.BitLen n : Int) ≠ bitlen then
            -- n is the wrong length. Try again!
            GenerateKeysLoop bitlen src fuel numRetries pos
          else
            -- the totient phi(n) = (p-1)(q-1)
            let phin : Int := ((p : Int) - 1) * ((q : Int) - 1)
            let e : Nat := 65537
            match big.ModInverse e phin with
            | none => GenerateKeysLoop bitlen src fuel numRetries pos
            | some d => some (.ok (⟨n, e⟩, ⟨n, d⟩), pos)

/-- Function `GenerateKeys(bitlen)`: generate a public/private key pair for RSA. Ten units of fuel
cover every run of the loop (`GenerateKeys_returns`). -/
def GenerateKeys (bitlen : Int) (src : Nat → Draw Nat) :
    Option (Res (PublicKey × PrivateKey) × Nat) :=
  GenerateKeysLoop bitlen src 10 0 0

/-! ## Encryption and decryption -/

/-- Function `encrypt`: `c = m^e (mod n)`. The receiver `c` starts as 0 and keeps that value when `Exp`
returns `nil`. -/
def encrypt (pub : PublicKey) (m : Nat) : Nat := (big.Exp m pub.E pub.N).getD 0

/-- Function `decrypt`: `m = c^d (mod n)`. -/
def decrypt (priv : PrivateKey) (c : Nat) : Nat := (big.Exp c priv.D priv.N).getD 0

/-- The padding loop of `EncryptRSA`: `for i := 2; i < stop;` with `stop = 2+paddingLen`.
Every iteration reads one byte of the random stream into `eb[i]` and advances `i` only if the
byte is non-zero. `fuel` bounds the number of iterations. -/
def fillPadding (rnd : Nat → Draw Byte) (stop : Nat) :
    Nat → List Byte → Nat → Nat → Option (Res (List Byte) × Nat)
  | 0, eb, i, pos => if i < stop then none else some (.ok eb, pos)
  | fuel + 1, eb, i, pos =>
    if i < stop then
      match rnd pos with
      | .fail code => some (.error (.source code), pos + 1)
      | .value b =>
        let eb := eb.set i b
        if b ≠ 0 then fillPadding rnd stop fuel eb (i + 1) (pos + 1)
        else fillPadding rnd stop fuel eb i (pos + 1)
    else some (.ok eb, pos)

/-- The encryption block of `EncryptRSA` (source lines 113-141) for an accepted message:
`eb[0] = 0x00`, `eb[1] = 0x02`, the padding loop, the terminator, the copy of the message. -/
def encodingBlock (keyLen : Nat) (m : List Byte) (rnd : Nat → Draw Byte) (fuel : Nat) :
    Option (Res (List Byte) × Nat) :=
  let paddingLen := keyLen - m.length - 3
  let eb : List Byte := List.replicate keyLen 0
  let eb := eb.set 0 0x00
  let eb := eb.set 1 0x02
  match fillPadding rnd (2 + paddingLen) fuel eb 2 0 with
  | none => none
  | some (.error err, pos) => some (.error err, pos)
  | some (.panic p, pos) => some (.panic p, pos)
  | some (.ok eb, pos) =>
    let eb := eb.set (2 + paddingLen) 0x00
    some (.ok (copyInto eb (3 + paddingLen) m), pos)

/-- Function `EncryptRSA(pub, m)`; `rnd` is the stream of bytes read from `rand.Reader` and
`fuel` bounds the number of iterations of the padding loop. -/
def EncryptRSA (pub : PublicKey) (m : List Byte) (rnd : Nat → Draw Byte) (fuel : Nat) :
    Option (Res (List Byte)) :=
  let keyLen := (big.BitLen pub.N + 7) / 8
  if (m.length : Int) > (keyLen : Int) - 11 then some (.error (.messageTooLong m.length))
  else
    match encodingBlock keyLen m rnd fuel with
    | none => none
    | some (.error err, _) => some (.error err)
    | some (.panic p, _) => some (.panic p)
    | some (.ok eb, _) =>
      let mnum := big.SetBytes eb
      let c := encrypt pub mnum
      let cb := big.Bytes c
      -- cypherPadLen := keyLen - len(c.Bytes())
      let eb := zeroFill eb (keyLen - cb.length)
      if keyLen < cb.length then some (.panic .sliceBounds)
      else some (.ok (copyInto eb (keyLen - cb.length) cb))

/-- Validation and unpadding of the decrypted block `m` (source lines 173-185): the check for
the 0x00 0x02 signature, the search for the end of the padding, the slice after it. Both
`m[0]` and `m[1]` are read on every path: by the condition when `m[0] == 0x00`, and as arguments
of the error message otherwise. -/
def unpad (m : List Byte) : Res (List Byte) :=
  match m[0]?, m[1]? with
  | some m0, some m1 =>
    if m0 ≠ 0x00 ∨ m1 ≠ 0x02 then .error (.paddingSignature m0 m1)
    else
      let endPad := IndexByte (m.drop 2) 0x00 + 2
      if endPad < 2 then .error .noTerminator
      else .ok (m.drop (endPad + 1).toNat)
  | _, _ => .panic .indexOutOfRange

/-- Function `DecryptRSA(priv, c)`. -/
def DecryptRSA (priv : PrivateKey) (c : List Byte) : Res (List Byte) :=
  let keyLen := (big.BitLen priv.N + 7) / 8
  if c.length ≠ keyLen then .error (.lengthMismatch c.length keyLen)
  else
    let cnum := big.SetBytes c
    let mnum := decrypt priv cnum
    let mb := big.Bytes mnum
    -- write the bytes of mnum into m, left-padding if needed
    let m : List Byte := List.replicate keyLen 0
    if keyLen < mb.length then .panic .sliceBounds
    else unpad (copyInto m (keyLen - mb.length) mb)

/-! ## Specification-side definitions -/

/-- The non-zero bytes among the `n` draws `rnd pos, .., rnd (pos+n-1)`, in order. -/
def nonzeroDraws (rnd : Nat → Draw Byte) : Nat → Nat → List Byte
  | _, 0 => []
  | pos, n + 1 =>
    match rnd pos with
    | .value b => if b ≠ 0 then b :: nonzeroDraws rnd (pos + 1) n else nonzeroDraws rnd (pos + 1) n
    | .fail _ => nonzeroDraws rnd (pos + 1) n

/-- The length in bytes of a modulus: `keyLen = ⌈bitlen(N) / 8⌉`. -/
def keyLen (N : Int) : Nat := (big.BitLen N + 7) / 8

/-- The string `l` left-padded with zero bytes to `k` bytes (the fixed-width big-endian encoding). -/
def leftPad (k : Nat) (l : List Byte) : List Byte := List.replicate (k - l.length) 0 ++ l

/-- The PKCS#1 v1.5 encryption block `0x00 || 0x02 || PS || 0x00 || M`. -/
def pkcs1Block (PS M : List Byte) : List Byte := 0x00 :: 0x02 :: (PS ++ 0x00 :: M)

/-- A standard PKCS#1 v1.5 encryptor (RFC 8017, RSAES-PKCS1-v1_5): the block
`0x00 || 0x02 || PS || 0x00 || M` as a number, raised to `E` modulo `N`, written as `k` bytes. -/
def pkcs1Encrypt (N E : Nat) (k : Nat) (PS M : List Byte) : List Byte :=
  leftPad k (big.Bytes ((big.SetBytes (pkcs1Block PS M) ^ E % N : Nat) : Int))

/-- A 64-bit prime, `2^59 * 27 + 1`. -/
def P64 : Nat := 15564440312192434177

/-- A 64-bit prime, `2^2 * 3^39 + 1`. -/
def Q64 : Nat := 16210220612075905069

/-- A prime stream that delivers `P64` and then `Q64` forever. -/
def srcPQ : Nat → Draw Nat := fun i => if i = 0 then .value P64 else .value Q64

/-- A prime stream that delivers the same prime `P64` at every draw. -/
def srcPP : Nat → Draw Nat := fun _ => .value P64

/-- A prime stream whose first attempt is rejected (37 * 37 has 11 bits) and whose second
attempt is 61, 53. -/
def srcSmall : Nat → Draw Nat := fun i =>
  if i < 2 then .value 37 else if i = 2 then .value 61 else .value 53

/-- A byte stream without failures: draw `i` is `37 * i mod 256` (draw 0 is a zero byte). -/
def rndDemo : Nat → Draw Byte := fun i => .value ⟨(i * 37) % 256, Nat.mod_lt _ (by decide)⟩

/-- An attempt of `GenerateKeys` with the draws `p`, `q` is accepted: the product has the
requested bit length and 65537 is invertible modulo `(p-1)(q-1)`. -/
def accepts (bitlen : Int) (p q : Nat) : Bool :=
  decide ((big.BitLen ((p : Int) * (q : Int)) : Int) = bitlen) &&
    (big.ModInverse 65537 (((p : Int) - 1) * ((q : Int) - 1))).isSome

/-- The key pair built from the draws `p`, `q` of an accepted attempt. -/
def keyPairOf (p q : Nat) : PublicKey × PrivateKey :=
  (⟨(p : Int) * (q : Int), ((65537 : Nat) : Int)⟩,
   ⟨(p : Int) * (q : Int),
    (((big.ModInverse 65537 (((p : Int) - 1) * ((q : Int) - 1))).getD 0 : Nat) : Int)⟩)

/-- A prime stream that never fails, given as a sequence of `(p, q)` draws: draw `2k` is the
first and draw `2k+1` the second component of pair `k`. -/
def srcOfPairs (pairs : Nat → Nat × Nat) : Nat → Draw Nat := fun i =>
  .value (if i % 2 = 0 then (pairs (i / 2)).1 else (pairs (i / 2)).2)

/-- A prime stream that delivers the 20-bit prime `917519 = 14 * 65537 + 1` at every draw. -/
def srcStuck : Nat → Draw Nat := fun _ => .value 917519

/-- A prime stream that delivers the 6-bit prime 37 at every draw (37 * 37 has 11 bits). -/
def srcShort : Nat → Draw Nat := fun _ => .value 37

/-- A prime stream whose first attempt is rejected and whose third draw fails with code 5. -/
def srcBroken : Nat → Draw Nat := fun i => if i < 2 then .value 37 else .fail 5

/-- A byte stream that fails with code 7 at draw 4, after a zero byte and three non-zero bytes. -/
def rndBroken : Nat → Draw Byte := fun i =>
  if i = 4 then .fail 7 else .value ⟨(i * 37) % 256, Nat.mod_lt _ (by decide)⟩

/-- A sequence of `(p, q)` draws: three pairs rejected for `bitlen = 12`, then `(61, 53)`. -/
def pairsDemo : Nat → Nat × Nat := fun k => if k < 3 then (37, 41) else (61, 53)

/-- A prime stream of 6-bit primes: 61 at the even draws, 53 at the odd draws. -/
def srcSixBit : Nat → Draw Nat := fun i => if i % 2 = 0 then .value 61 else .value 53

/-- A prime stream whose values have one bit: the value 1 at every draw. -/
def srcOneBit : Nat → Draw Nat := fun _ => .value 1

/-! # Theorems -/

namespace big

/-! ### Bit length -/

theorem bitLenAux_spec : ∀ (fuel n : Nat), n ≤ fuel →
    n < 2 ^ bitLenAux fuel n ∧ (n ≠ 0 → 2 ^ (bitLenAux fuel n - 1) ≤ n)
  | 0, n, h => by
    have h0 : n = 0 := by omega
    subst h0
    simp [bitLenAux]
  | fuel + 1, n, h => by
    unfold bitLenAux
    by_cases hn : n = 0
    · simp [hn]
    · rw [if_neg hn]
      have ih := bitLenAux_spec fuel (n / 2) (by omega)
      refine ⟨?_, fun _ => ?_⟩
      · have h1 := ih.1
        rw [pow_succ]
        omega
      · simp only [Nat.add_sub_cancel]
        by_cases h2 : n / 2 = 0
        · have hb : bitLenAux fuel (n / 2) = 0 := by
            rw [h2]; cases fuel <;> simp [bitLenAux]
          rw [hb]
          simp
          omega
        · have h3 := ih.2 h2
          have h4 : bitLenAux fuel (n / 2) = (bitLenAux fuel (n / 2) - 1) + 1 := by
            have : bitLenAux fuel (n / 2) ≠ 0 := by
              intro h0
              have := ih.1
              rw [h0] at this
              omega
            omega
          rw [h4, pow_succ]
          omega

theorem BitLen_natCast (n : Nat) : BitLen (n : Int) = bitLenAux n n := by
  simp [BitLen]

theorem lt_two_pow_BitLen (n : Nat) : n < 2 ^ BitLen (n : Int) := by
  rw [BitLen_natCast]
  exact (bitLenAux_spec n n le_rfl).1

theorem two_pow_BitLen_le (n : Nat) (hn : n ≠ 0) : 2 ^ (BitLen (n : Int) - 1) ≤ n := by
  rw [BitLen_natCast]
  exact (bitLenAux_spec n n le_rfl).2 hn

theorem BitLen_eq_zero_iff (n : Nat) : BitLen (n : Int) = 0 ↔ n = 0 := by
  constructor
  · intro h
    have := lt_two_pow_BitLen n
    rw [h] at this
    omega
  · intro h
    subst h
    rfl

theorem BitLen_neg (z : Int) : BitLen (-z) = BitLen z := by
  simp [BitLen]

theorem BitLen_natAbs (z : Int) : BitLen (z.natAbs : Int) = BitLen z := by
  simp only [BitLen, Int.natAbs_ofNat]

/-- The bit length is the unique `k` with `2^(k-1) ≤ n < 2^k`. -/
theorem BitLen_eq_iff (n k : Nat) (hn : n ≠ 0) :
    BitLen (n : Int) = k ↔ 2 ^ (k - 1) ≤ n ∧ n < 2 ^ k ∧ k ≠ 0 := by
  have h1 := lt_two_pow_BitLen n
  have h2 := two_pow_BitLen_le n hn
  have h0 : BitLen (n : Int) ≠ 0 := fun h => hn ((BitLen_eq_zero_iff n).1 h)
  constructor
  · intro h
    subst h
    exact ⟨h2, h1, h0⟩
  · rintro ⟨h3, h4, h5⟩
    by_contra hne
    rcases Nat.lt_or_gt_of_ne hne with hlt | hgt
    · have : 2 ^ BitLen (n : Int) ≤ 2 ^ (k - 1) :=
        Nat.pow_le_pow_right (by decide) (by omega)
      omega
    · have : 2 ^ k ≤ 2 ^ (BitLen (n : Int) - 1) :=
        Nat.pow_le_pow_right (by decide) (by omega)
      omega

/-- With `keyLen = ⌈BitLen n / 8⌉`, `n` fits in `keyLen` bytes. -/
theorem lt_pow_keyLen (n : Nat) : n < 256 ^ ((BitLen (n : Int) + 7) / 8) := by
  have h1 := lt_two_pow_BitLen n
  have h2 : (256 : Nat) ^ ((BitLen (n : Int) + 7) / 8) = 2 ^ (8 * ((BitLen (n : Int) + 7) / 8)) := by
    rw [pow_mul]; norm_num
  rw [h2]
  have : 2 ^ BitLen (n : Int) ≤ 2 ^ (8 * ((BitLen (n : Int) + 7) / 8)) :=
    Nat.pow_le_pow_right (by decide) (by omega)
  omega

/-- With `keyLen = ⌈BitLen n / 8⌉`, `n` needs all of its `keyLen` bytes. -/
theorem pow_keyLen_pred_le (n : Nat) (hn : n ≠ 0) :
    256 ^ ((BitLen (n : Int) + 7) / 8 - 1) ≤ n := by
  have h1 := two_pow_BitLen_le n hn
  have h2 : (256 : Nat) ^ ((BitLen (n : Int) + 7) / 8 - 1)
      = 2 ^ (8 * ((BitLen (n : Int) + 7) / 8 - 1)) := by
    rw [pow_mul]; norm_num
  rw [h2]
  have : 2 ^ (8 * ((BitLen (n : Int) + 7) / 8 - 1)) ≤ 2 ^ (BitLen (n : Int) - 1) :=
    Nat.pow_le_pow_right (by decide) (by omega)
  omega

/-! ### Modular power -/

theorem powModAux_eq : ∀ (fuel x y m : Nat), y ≤ fuel → powModAux fuel x y m = x ^ y % m
  | 0, x, y, m, h => by
    have h0 : y = 0 := by omega
    subst h0
    simp [powModAux]
  | fuel + 1, x, y, m, h => by
    unfold powModAux
    by_cases hy : y = 0
    · simp [hy]
    · rw [if_neg hy]
      have ih := powModAux_eq fuel (x * x % m) (y / 2) m (by omega)
      have hsq : (x * x % m) ^ (y / 2) % m = x ^ (2 * (y / 2)) % m := by
        rw [← Nat.pow_mod, pow_mul, pow_two]
      simp only [ih, hsq]
      by_cases hodd : y % 2 = 1
      · rw [if_pos hodd, Nat.mul_mod_mod]
        have : y = 2 * (y / 2) + 1 := by omega
        conv_rhs => rw [this, pow_succ, mul_comm]
      · rw [if_neg hodd]
        have : y = 2 * (y / 2) := by omega
        conv_rhs => rw [this]

theorem powMod_eq (x y m : Nat) : powMod x y m = x ^ y % m :=
  powModAux_eq y x y m le_rfl

theorem powMod_lt (x y m : Nat) (hm : m ≠ 0) : powMod x y m < m := by
  rw [powMod_eq]
  exact Nat.mod_lt _ (Nat.pos_of_ne_zero hm)

/-! ### Byte strings and numbers -/

theorem foldl_setBytes (l : List Byte) (a : Nat) :
    l.foldl (fun acc b => acc * 256 + b.val) a = a * 256 ^ l.length + SetBytes l := by
  induction l generalizing a with
  | nil => simp [SetBytes]
  | cons b l ih =>
    have h1 := ih (a * 256 + b.val)
    have h2 := ih (0 * 256 + b.val)
    simp only [SetBytes, List.foldl_cons, List.length_cons] at h1 h2 ⊢
    rw [h1, h2, pow_succ]
    ring

theorem SetBytes_nil : SetBytes [] = 0 := rfl

theorem SetBytes_cons (b : Byte) (l : List Byte) :
    SetBytes (b :: l) = b.val * 256 ^ l.length + SetBytes l := by
  have h := foldl_setBytes l (0 * 256 + b.val)
  simp only [SetBytes, List.foldl_cons] at h ⊢
  rw [h]
  simp [SetBytes]

theorem SetBytes_append (l1 l2 : List Byte) :
    SetBytes (l1 ++ l2) = SetBytes l1 * 256 ^ l2.length + SetBytes l2 := by
  unfold SetBytes
  rw [List.foldl_append, foldl_setBytes]
  rfl

theorem SetBytes_lt (l : List Byte) : SetBytes l < 256 ^ l.length := by
  induction l with
  | nil => simp [SetBytes]
  | cons b l ih =>
    rw [SetBytes_cons, List.length_cons, pow_succ]
    have hb := b.isLt
    have : b.val * 256 ^ l.length ≤ 255 * 256 ^ l.length := Nat.mul_le_mul_right _ (by omega)
    omega

theorem SetBytes_replicate_zero (j : Nat) : SetBytes (List.replicate j (0 : Byte)) = 0 := by
  induction j with
  | zero => rfl
  | succ j ih => rw [List.replicate_succ, SetBytes_cons, ih]; simp

theorem SetBytes_zeros_append (j : Nat) (l : List Byte) :
    SetBytes (List.replicate j (0 : Byte) ++ l) = SetBytes l := by
  rw [SetBytes_append, SetBytes_replicate_zero]
  simp

/-- Two byte strings of the same length that encode the same number are equal. -/
theorem SetBytes_inj : ∀ (l1 l2 : List Byte), l1.length = l2.length →
    SetBytes l1 = SetBytes l2 → l1 = l2
  | [], [], _, _ => rfl
  | [], _ :: _, h, _ => by simp at h
  | _ :: _, [], h, _ => by simp at h
  | a :: l1, b :: l2, h, hs => by
    have hlen : l1.length = l2.length := by simpa using h
    rw [SetBytes_cons, SetBytes_cons, hlen] at hs
    have h1 := SetBytes_lt l1
    have h2 := SetBytes_lt l2
    rw [hlen] at h1
    have hpos : 0 < 256 ^ l2.length := by positivity
    have hab : a.val = b.val := by
      by_contra hne
      rcases Nat.lt_or_gt_of_ne hne with hlt | hgt
      · have : (a.val + 1) * 256 ^ l2.length ≤ b.val * 256 ^ l2.length :=
          Nat.mul_le_mul_right _ hlt
        rw [Nat.add_mul] at this
        omega
      · have : (b.val + 1) * 256 ^ l2.length ≤ a.val * 256 ^ l2.length :=
          Nat.mul_le_mul_right _ hgt
        rw [Nat.add_mul] at this
        omega
    have hrest : SetBytes l1 = SetBytes l2 := by
      rw [hab] at hs
      omega
    rw [Fin.ext hab, SetBytes_inj l1 l2 hlen hrest]

theorem SetBytes_bytesAux : ∀ (fuel n : Nat) (acc : List Byte), n ≤ fuel →
    SetBytes (bytesAux fuel n acc) = n * 256 ^ acc.length + SetBytes acc
  | 0, n, acc, h => by
    have h0 : n = 0 := by omega
    subst h0
    simp [bytesAux]
  | fuel + 1, n, acc, h => by
    unfold bytesAux
    by_cases hn : n = 0
    · simp [hn]
    · rw [if_neg hn, SetBytes_bytesAux fuel (n / 256) _ (by omega), SetBytes_cons,
        List.length_cons, pow_succ]
      have hd : n = n / 256 * 256 + n % 256 := by omega
      conv_rhs => rw [hd]
      simp only
      ring

theorem length_bytesAux_le : ∀ (fuel n k : Nat) (acc : List Byte), n ≤ fuel → n < 256 ^ k →
    (bytesAux fuel n acc).length ≤ k + acc.length
  | 0, n, k, acc, _, _ => by simp [bytesAux]
  | fuel + 1, n, k, acc, h, hk => by
    unfold bytesAux
    by_cases hn : n = 0
    · simp [hn]
    · rw [if_neg hn]
      cases k with
      | zero => simp at hk; omega
      | succ k =>
        rw [pow_succ] at hk
        have := length_bytesAux_le fuel (n / 256) k
          (⟨n % 256, Nat.mod_lt n (by decide)⟩ :: acc) (by omega) (by omega)
        simp only [List.length_cons] at this
        omega

theorem SetBytes_Bytes (n : Nat) : SetBytes (Bytes (n : Int)) = n := by
  have := SetBytes_bytesAux n n [] le_rfl
  simpa [Bytes, SetBytes] using this

theorem length_Bytes_le (n k : Nat) (h : n < 256 ^ k) : (Bytes (n : Int)).length ≤ k := by
  have := length_bytesAux_le n n k [] le_rfl h
  simpa [Bytes] using this

/-- Left-padding the minimal encoding of the number of a `k`-byte string to `k` bytes gives the
string back. -/
theorem zeros_append_Bytes_SetBytes (l : List Byte) :
    List.replicate (l.length - (Bytes (SetBytes l : Int)).length) (0 : Byte)
      ++ Bytes (SetBytes l : Int) = l := by
  have hle := length_Bytes_le (SetBytes l) l.length (SetBytes_lt l)
  apply SetBytes_inj
  · simp only [List.length_append, List.length_replicate]
    omega
  · rw [SetBytes_zeros_append, SetBytes_Bytes]

/-! ### Modular inverse -/

theorem invAux_spec (g : Nat) (n : Int) : ∀ (fuel r0 r1 : Nat) (s0 s1 : Int), r1 < fuel →
    (r0 : Int) ≡ s0 * g [ZMOD n] → (r1 : Int) ≡ s1 * g [ZMOD n] →
    (invAux fuel r0 r1 s0 s1).1 = Nat.gcd r0 r1 ∧
      ((invAux fuel r0 r1 s0 s1).1 : Int) ≡ (invAux fuel r0 r1 s0 s1).2 * g [ZMOD n]
  | 0, _, _, _, _, h, _, _ => by omega
  | fuel + 1, r0, r1, s0, s1, h, h0, h1 => by
    unfold invAux
    by_cases hr : r1 = 0
    · subst hr
      simp [h0]
    · rw [if_neg hr]
      have hlt : r0 % r1 < r1 := Nat.mod_lt _ (Nat.pos_of_ne_zero hr)
      have hc : ((r0 % r1 : Nat) : Int) ≡ (s0 - (r0 / r1 : Nat) * s1) * g [ZMOD n] := by
        have e1 : ((r0 % r1 : Nat) : Int) = (r0 : Int) - ((r0 / r1 : Nat) : Int) * (r1 : Int) := by
          have := Nat.div_add_mod r0 r1
          have e2 : ((r1 * (r0 / r1) + r0 % r1 : Nat) : Int) = (r0 : Int) := by rw [this]
          push_cast at e2 ⊢
          linarith
        have e3 : (s0 - ((r0 / r1 : Nat) : Int) * s1) * g
            = s0 * g - ((r0 / r1 : Nat) : Int) * (s1 * g) := by ring
        rw [e1, e3]
        exact Int.ModEq.sub h0 (Int.ModEq.mul_left _ h1)
      have ih := invAux_spec g n fuel r1 (r0 % r1) s1 _ (by omega) h1 hc
      refine ⟨?_, ih.2⟩
      rw [ih.1, Nat.gcd_comm r1, ← Nat.gcd_rec, Nat.gcd_comm]

theorem invAux_start (g : Nat) (n : Int) :
    (invAux (n.natAbs + 1) g n.natAbs 1 0).1 = Nat.gcd g n.natAbs ∧
    ((invAux (n.natAbs + 1) g n.natAbs 1 0).1 : Int)
      ≡ (invAux (n.natAbs + 1) g n.natAbs 1 0).2 * g [ZMOD n] := by
  apply invAux_spec g n
  · omega
  · simp
  · simp only [zero_mul]
    exact (Int.modEq_zero_iff_dvd).2 (by simp [Int.dvd_natAbs])

theorem ModInverse_eq_none_iff (g : Nat) (n : Int) :
    ModInverse g n = none ↔ Nat.gcd g n.natAbs ≠ 1 := by
  unfold ModInverse
  simp only [(invAux_start g n).1]
  split <;> simp_all

theorem ModInverse_gcd {g : Nat} {n : Int} {d : Nat} (h : ModInverse g n = some d) :
    Nat.gcd g n.natAbs = 1 := by
  by_contra hne
  rw [(ModInverse_eq_none_iff g n).2 hne] at h
  exact Option.noConfusion h

/-- A returned inverse lies in `0 ≤ d < |n|`. -/
theorem ModInverse_lt {g : Nat} {n : Int} {d : Nat} (h : ModInverse g n = some d)
    (hn : n ≠ 0) : d < n.natAbs := by
  unfold ModInverse at h
  simp only at h
  split at h
  · exact Option.noConfusion h
  · have hd := Option.some.inj h
    have hpos : (0 : Int) < (n.natAbs : Int) := by
      have := Int.natAbs_pos.2 hn
      exact_mod_cast this
    have h1 := Int.emod_lt_of_pos (invAux (n.natAbs + 1) g n.natAbs 1 0).2 hpos
    have h2 := Int.emod_nonneg (invAux (n.natAbs + 1) g n.natAbs 1 0).2 (ne_of_gt hpos)
    omega

/-- A returned inverse satisfies `d * g ≡ 1 (mod |n|)`. -/
theorem ModInverse_mul {g : Nat} {n : Int} {d : Nat} (h : ModInverse g n = some d) :
    d * g % n.natAbs = 1 % n.natAbs := by
  by_cases hn0 : n = 0
  · subst hn0
    simp only [ModInverse, Int.natAbs_zero, invAux] at h
    by_cases hg1 : g = 1
    · subst hg1
      simp at h
      subst h
      rfl
    · simp [hg1] at h
  · have hg := ModInverse_gcd h
    have hs := invAux_start g n
    have hn : n.natAbs ≠ 0 := fun h0 => hn0 (Int.natAbs_eq_zero.1 h0)
    unfold ModInverse at h
    simp only at h
    split at h
    · exact Option.noConfusion h
    · have hd := Option.some.inj h
      rw [hs.1, hg] at hs
      have hcong := hs.2
      have hpos : (0 : Int) < (n.natAbs : Int) := by
        exact_mod_cast Nat.pos_of_ne_zero hn
      have h2 := Int.emod_nonneg (invAux (n.natAbs + 1) g n.natAbs 1 0).2 (ne_of_gt hpos)
      have hdz : (d : Int) = (invAux (n.natAbs + 1) g n.natAbs 1 0).2 % (n.natAbs : Int) := by
        rw [← hd, Int.toNat_of_nonneg h2]
      have hc3 : ((1 : Nat) : Int) ≡ (invAux (n.natAbs + 1) g n.natAbs 1 0).2 * g
          [ZMOD (n.natAbs : Int)] :=
        (Int.modEq_iff_dvd).2 ((Int.natAbs_dvd).2 ((Int.modEq_iff_dvd).1 hcong))
      have hc2 : ((d * g : Nat) : Int) ≡ ((1 : Nat) : Int) [ZMOD (n.natAbs : Int)] := by
        rw [Nat.cast_mul, hdz]
        exact ((Int.mod_modEq _ _).mul_right _).trans hc3.symm
      exact (Int.natCast_modEq_iff).1 hc2

/-! ### Exponentiation -/

theorem Exp_of_nonneg (x : Nat) {y m : Int} (hy : 0 ≤ y) (hm : m ≠ 0) :
    Exp x y m = some (x ^ y.toNat % m.natAbs) := by
  unfold Exp
  rw [if_neg (by omega), if_neg hm, powMod_eq]

/-- For a non-zero modulus the value left in the receiver of `Exp` is below `|m|`. -/
theorem Exp_getD_lt (x : Nat) (y m : Int) (hm : m ≠ 0) : (Exp x y m).getD 0 < m.natAbs := by
  have hpos : 0 < m.natAbs := Int.natAbs_pos.2 hm
  have hne : m.natAbs ≠ 0 := by omega
  unfold Exp
  by_cases hy : y < 0
  · rw [if_pos hy, if_neg hm]
    cases ModInverse x m with
    | none => simpa using hpos
    | some inv => simpa using powMod_lt _ _ _ hne
  · rw [if_neg hy, if_neg hm]
    simpa using powMod_lt _ _ _ hne

end big

open big

/-! ### The RSA identity -/

/-- Fermat: an exponent that is 1 modulo `p - 1` fixes every residue modulo a prime `p`. -/
theorem pow_modEq_self_of_prime {p : Nat} (hp : p.Prime) (x k : Nat) :
    x ^ (1 + k * (p - 1)) ≡ x [MOD p] := by
  by_cases hdvd : p ∣ x
  · have h0 : x ≡ 0 [MOD p] := (Nat.modEq_zero_iff_dvd).2 hdvd
    have h1 : x ^ (1 + k * (p - 1)) ≡ 0 ^ (1 + k * (p - 1)) [MOD p] := h0.pow _
    rw [zero_pow (by omega)] at h1
    exact h1.trans h0.symm
  · have hcop : Nat.Coprime x p := ((Nat.Prime.coprime_iff_not_dvd hp).2 hdvd).symm
    have hf : x ^ (p - 1) ≡ 1 [MOD p] := by
      have := Nat.ModEq.pow_totient hcop
      rwa [Nat.totient_prime hp] at this
    have h2 : (x ^ (p - 1)) ^ k ≡ 1 ^ k [MOD p] := hf.pow k
    rw [one_pow] at h2
    have h3 : x ^ (1 + k * (p - 1)) = x * (x ^ (p - 1)) ^ k := by
      rw [pow_add, pow_one, mul_comm k, pow_mul]
    rw [h3]
    simpa using Nat.ModEq.mul_left x h2

/-- RSA correctness for a modulus of two distinct primes: exponents that are inverse modulo
`(p-1)(q-1)` undo each other on every residue, coprime to the modulus or not. -/
theorem rsa_identity {p q : Nat} (hp : p.Prime) (hq : q.Prime) (hpq : p ≠ q) (e d x : Nat)
    (hed : e * d % ((p - 1) * (q - 1)) = 1 % ((p - 1) * (q - 1))) :
    x ^ (e * d) % (p * q) = x % (p * q) := by
  have hp2 := hp.two_le
  have hq2 := hq.two_le
  have hphi : 2 ≤ (p - 1) * (q - 1) := by
    rcases Nat.lt_or_gt_of_ne hpq with h | h
    · have : 1 * 2 ≤ (p - 1) * (q - 1) := Nat.mul_le_mul (by omega) (by omega)
      omega
    · have : 2 * 1 ≤ (p - 1) * (q - 1) := Nat.mul_le_mul (by omega) (by omega)
      omega
  rw [Nat.mod_eq_of_lt (show 1 < (p - 1) * (q - 1) by omega)] at hed
  have hk : e * d = 1 + (e * d / ((p - 1) * (q - 1))) * ((p - 1) * (q - 1)) := by
    have := Nat.div_add_mod (e * d) ((p - 1) * (q - 1))
    rw [hed] at this
    rw [mul_comm] at this
    omega
  have hmp : x ^ (e * d) ≡ x [MOD p] := by
    have := pow_modEq_self_of_prime hp x ((e * d / ((p - 1) * (q - 1))) * (q - 1))
    have e1 : e * d / ((p - 1) * (q - 1)) * (q - 1) * (p - 1)
        = e * d / ((p - 1) * (q - 1)) * ((p - 1) * (q - 1)) := by ring
    rw [e1, ← hk] at this
    exact this
  have hmq : x ^ (e * d) ≡ x [MOD q] := by
    have := pow_modEq_self_of_prime hq x ((e * d / ((p - 1) * (q - 1))) * (p - 1))
    have e1 : e * d / ((p - 1) * (q - 1)) * (p - 1) * (q - 1)
        = e * d / ((p - 1) * (q - 1)) * ((p - 1) * (q - 1)) := by ring
    rw [e1, ← hk] at this
    exact this
  have hcop : Nat.Coprime p q := (Nat.coprime_primes hp hq).2 hpq
  exact (Nat.modEq_and_modEq_iff_modEq_mul hcop).1 ⟨hmp, hmq⟩

/-! ### Primality certificates -/

/-- Lucas test for a number `p` with `p - 1 = 2^i * 3^j`, with the powers evaluated by
`big.powMod`. -/
theorem prime_of_lucas (p a i j : Nat) (hp2 : 2 ≤ p) (hfac : p - 1 = 2 ^ i * 3 ^ j)
    (h1 : big.powMod a (p - 1) p = 1)
    (h2 : big.powMod a ((p - 1) / 2) p ≠ 1)
    (h3 : big.powMod a ((p - 1) / 3) p ≠ 1) : p.Prime := by
  have hone : (1 : Nat) % p = 1 := Nat.mod_eq_of_lt (by omega)
  have cast_pow_eq : ∀ k : Nat, ((a : ZMod p)) ^ k = 1 ↔ big.powMod a k p = 1 := by
    intro k
    rw [big.powMod_eq]
    have : ((a : ZMod p)) ^ k = ((a ^ k : Nat) : ZMod p) := by push_cast; rfl
    rw [this]
    have h1' : (1 : ZMod p) = ((1 : Nat) : ZMod p) := by simp
    rw [h1', ZMod.natCast_eq_natCast_iff', hone]
  apply lucas_primality p (a : ZMod p)
  · exact (cast_pow_eq _).2 h1
  · intro q hq hdvd
    rw [hfac] at hdvd
    have hq23 : q = 2 ∨ q = 3 := by
      rcases (Nat.Prime.dvd_mul hq).1 hdvd with h | h
      · left
        exact (Nat.prime_dvd_prime_iff_eq hq Nat.prime_two).1 (hq.dvd_of_dvd_pow h)
      · right
        exact (Nat.prime_dvd_prime_iff_eq hq Nat.prime_three).1 (hq.dvd_of_dvd_pow h)
    rcases hq23 with rfl | rfl
    · exact fun h => h2 ((cast_pow_eq _).1 h)
    · exact fun h => h3 ((cast_pow_eq _).1 h)

theorem P64_prime : Nat.Prime P64 :=
  prime_of_lucas P64 5 59 3 (by decide) (by decide) (by decide) (by decide) (by decide)

theorem Q64_prime : Nat.Prime Q64 :=
  prime_of_lucas Q64 10 2 39 (by decide) (by decide) (by decide) (by decide) (by decide)

/-! ### Slices -/

theorem copyInto_append (pre rest src : List Byte) :
    copyInto (pre ++ rest) pre.length src
      = pre ++ src.take rest.length ++ rest.drop src.length := by
  unfold copyInto
  rw [List.take_left' rfl, List.drop_append, List.length_append, Nat.add_sub_cancel_left]

theorem copyInto_zeros (j : Nat) (src : List Byte) :
    copyInto (List.replicate (j + src.length) (0 : Byte)) j src
      = List.replicate j 0 ++ src := by
  have h := copyInto_append (List.replicate j (0 : Byte)) (List.replicate src.length 0) src
  rw [List.length_replicate] at h
  rw [List.replicate_add, h]
  simp

theorem zeroFill_eq : ∀ (n : Nat) (eb : List Byte), n ≤ eb.length →
    zeroFill eb n = List.replicate n 0 ++ eb.drop n
  | 0, eb, _ => by simp [zeroFill]
  | n + 1, eb, h => by
    have hlt : n < eb.length := by omega
    rw [zeroFill, zeroFill_eq n eb (by omega),
      List.set_append_right _ _ (by simp), List.length_replicate, Nat.sub_self,
      List.drop_eq_getElem_cons hlt, List.set_cons_zero, List.replicate_succ',
      List.append_assoc]
    rfl

theorem length_zeroFill (n : Nat) (eb : List Byte) : (zeroFill eb n).length = eb.length := by
  induction n with
  | zero => rfl
  | succ n ih => simp [zeroFill, ih]

/-- The two last statements of `EncryptRSA`: the ciphertext is the left-padded encoding. -/
theorem copyInto_zeroFill (eb cb : List Byte) (h : cb.length ≤ eb.length) :
    copyInto (zeroFill eb (eb.length - cb.length)) (eb.length - cb.length) cb
      = leftPad eb.length cb := by
  rw [zeroFill_eq _ _ (by omega)]
  have h1 := copyInto_append (List.replicate (eb.length - cb.length) (0 : Byte))
    (eb.drop (eb.length - cb.length)) cb
  rw [List.length_replicate] at h1
  rw [h1, leftPad]
  have h2 : (eb.drop (eb.length - cb.length)).length = cb.length := by
    rw [List.length_drop]; omega
  rw [h2, List.take_length, List.drop_of_length_le (by omega)]
  simp

theorem length_leftPad (k : Nat) (l : List Byte) (h : l.length ≤ k) :
    (leftPad k l).length = k := by
  simp only [leftPad, List.length_append, List.length_replicate]
  omega

theorem SetBytes_leftPad (k : Nat) (l : List Byte) : SetBytes (leftPad k l) = SetBytes l :=
  SetBytes_zeros_append _ _

/-- The fixed-width encoding of the number of a `k`-byte string is the string itself. -/
theorem leftPad_Bytes_SetBytes (l : List Byte) :
    leftPad l.length (Bytes (SetBytes l : Int)) = l :=
  zeros_append_Bytes_SetBytes l

theorem take_set_self (l : List Byte) (i : Nat) (b : Byte) :
    (l.set i b).take i = l.take i := by
  rw [List.set_eq_take_append_cons_drop]
  split
  · rw [List.take_left' (by simp; omega)]
  · rfl

theorem take_succ_set (l : List Byte) (i : Nat) (b : Byte) (h : i < l.length) :
    (l.set i b).take (i + 1) = l.take i ++ [b] := by
  rw [List.set_eq_take_append_cons_drop, if_pos h]
  have e : l.take i ++ b :: l.drop (i + 1) = (l.take i ++ [b]) ++ l.drop (i + 1) := by simp
  rw [e, List.take_left' (by simp; omega)]

/-! ### Searching the terminator -/

theorem IndexByte_append (c : Byte) : ∀ (ps rest : List Byte), (∀ b ∈ ps, b ≠ c) →
    IndexByte (ps ++ c :: rest) c = ps.length
  | [], rest, _ => by simp [IndexByte]
  | b :: ps, rest, h => by
    have hb : b ≠ c := h b (by simp)
    have ih := IndexByte_append c ps rest (fun x hx => h x (by simp [hx]))
    rw [List.cons_append, IndexByte, if_neg hb]
    simp only [ih]
    rw [if_neg (by omega)]
    simp

theorem IndexByte_of_not_mem (c : Byte) : ∀ (l : List Byte), (∀ b ∈ l, b ≠ c) →
    IndexByte l c = -1
  | [], _ => rfl
  | b :: l, h => by
    have hb : b ≠ c := h b (by simp)
    have ih := IndexByte_of_not_mem c l (fun x hx => h x (by simp [hx]))
    simp [IndexByte, if_neg hb, ih]

/-- Unpadding a well-formed block returns the message. -/
theorem unpad_pkcs1Block (PS M : List Byte) (hPS : ∀ b ∈ PS, b ≠ 0) :
    unpad (pkcs1Block PS M) = .ok M := by
  have hidx := IndexByte_append 0 PS M hPS
  simp only [unpad, pkcs1Block, List.getElem?_cons_zero, List.getElem?_cons_succ, List.drop_succ_cons,
    List.drop_zero, hidx]
  rw [if_neg (by simp), if_neg (by omega)]
  have h3 : ((PS.length : Int) + 2 + 1).toNat = PS.length + 3 := by omega
  rw [h3]
  simp [List.drop_append]

/-! ### The padding loop -/

theorem nonzeroDraws_ne_zero (rnd : Nat → Draw Byte) : ∀ (n pos : Nat),
    ∀ b ∈ nonzeroDraws rnd pos n, b ≠ 0
  | 0, _, b, hb => by simp [nonzeroDraws] at hb
  | n + 1, pos, b, hb => by
    unfold nonzeroDraws at hb
    split at hb
    · split at hb
      · rcases List.mem_cons.1 hb with h | h
        · subst h; assumption
        · exact nonzeroDraws_ne_zero rnd n _ b h
      · exact nonzeroDraws_ne_zero rnd n _ b hb
    · exact nonzeroDraws_ne_zero rnd n _ b hb

theorem nonzeroDraws_succ (rnd : Nat → Draw Byte) (pos n : Nat) :
    nonzeroDraws rnd pos (n + 1) =
      match rnd pos with
      | .value b =>
        if b ≠ 0 then b :: nonzeroDraws rnd (pos + 1) n else nonzeroDraws rnd (pos + 1) n
      | .fail _ => nonzeroDraws rnd (pos + 1) n := rfl

theorem nonzeroDraws_add (rnd : Nat → Draw Byte) : ∀ (a b pos : Nat),
    nonzeroDraws rnd pos (a + b) = nonzeroDraws rnd pos a ++ nonzeroDraws rnd (pos + a) b
  | 0, b, pos => by simp [nonzeroDraws]
  | a + 1, b, pos => by
    have ih := nonzeroDraws_add rnd a b (pos + 1)
    have e1 : a + 1 + b = (a + b) + 1 := by omega
    have e2 : pos + (a + 1) = pos + 1 + a := by omega
    rw [e1, e2, nonzeroDraws_succ, nonzeroDraws_succ, ih]
    cases rnd pos with
    | fail code => rfl
    | value x => by_cases hx : x ≠ 0 <;> simp [hx]

/-- What a completed run of the padding loop leaves behind: positions `i .. stop-1` hold the
non-zero bytes drawn, in order, the rest of the buffer is untouched, and no draw failed. -/
theorem fillPadding_ok (rnd : Nat → Draw Byte) (stop : Nat) : ∀ (fuel : Nat) (eb : List Byte)
    (i pos : Nat) (eb' : List Byte) (pos' : Nat),
    fillPadding rnd stop fuel eb i pos = some (.ok eb', pos') → i ≤ stop → stop ≤ eb.length →
    pos ≤ pos' ∧ pos' ≤ pos + fuel ∧ (∀ j, pos ≤ j → j < pos' → ∃ b, rnd j = .value b) ∧
      (nonzeroDraws rnd pos (pos' - pos)).length = stop - i ∧
      eb' = eb.take i ++ nonzeroDraws rnd pos (pos' - pos) ++ eb.drop stop
  | 0, eb, i, pos, eb', pos', h, hi, hs => by
    unfold fillPadding at h
    split at h
    · exact Option.noConfusion h
    · simp only [Option.some.injEq, Prod.mk.injEq, Res.ok.injEq] at h
      obtain ⟨rfl, rfl⟩ := h
      have : i = stop := by omega
      subst this
      refine ⟨le_rfl, le_rfl, fun j h1 h2 => by omega, by simp [nonzeroDraws], ?_⟩
      simp [nonzeroDraws]
  | fuel + 1, eb, i, pos, eb', pos', h, hi, hs => by
    unfold fillPadding at h
    by_cases hlt : i < stop
    · rw [if_pos hlt] at h
      cases hr : rnd pos with
      | fail code => rw [hr] at h; simp at h
      | value b =>
        rw [hr] at h
        simp only at h
        by_cases hb : b ≠ 0
        · rw [if_pos hb] at h
          have ih := fillPadding_ok rnd stop fuel (eb.set i b) (i + 1) (pos + 1) eb' pos' h
            (by omega) (by simpa using hs)
          obtain ⟨h1, h1', h2, h3, h4⟩ := ih
          have hsplit : pos' - pos = (pos' - (pos + 1)) + 1 := by omega
          have hnz : nonzeroDraws rnd pos (pos' - pos)
              = b :: nonzeroDraws rnd (pos + 1) (pos' - (pos + 1)) := by
            rw [hsplit, nonzeroDraws, hr]
            simp [hb]
          refine ⟨by omega, by omega, ?_, ?_, ?_⟩
          · intro j hj1 hj2
            by_cases hj : j = pos
            · exact ⟨b, hj ▸ hr⟩
            · exact h2 j (by omega) hj2
          · rw [hnz, List.length_cons, h3]; omega
          · rw [h4, hnz, List.drop_set_of_lt _ _ hlt, take_succ_set _ _ _ (by omega)]
            simp
        · rw [if_neg hb] at h
          have ih := fillPadding_ok rnd stop fuel (eb.set i b) i (pos + 1) eb' pos' h
            hi (by simpa using hs)
          obtain ⟨h1, h1', h2, h3, h4⟩ := ih
          have hsplit : pos' - pos = (pos' - (pos + 1)) + 1 := by omega
          have hnz : nonzeroDraws rnd pos (pos' - pos)
              = nonzeroDraws rnd (pos + 1) (pos' - (pos + 1)) := by
            rw [hsplit, nonzeroDraws, hr]
            simp [hb]
          refine ⟨by omega, by omega, ?_, ?_, ?_⟩
          · intro j hj1 hj2
            by_cases hj : j = pos
            · exact ⟨b, hj ▸ hr⟩
            · exact h2 j (by omega) hj2
          · rw [hnz, h3]
          · rw [h4, hnz, List.drop_set_of_lt _ _ hlt, take_set_self]
    · rw [if_neg hlt] at h
      simp only [Option.some.injEq, Prod.mk.injEq, Res.ok.injEq] at h
      obtain ⟨rfl, rfl⟩ := h
      have : i = stop := by omega
      subst this
      refine ⟨le_rfl, by omega, fun j h1 h2 => by omega, by simp [nonzeroDraws], ?_⟩
      simp [nonzeroDraws]

/-! ### The encryption block -/

/-- The block built by `EncryptRSA` for an accepted message is `0x00 || 0x02 || PS || 0x00 || m`,
where `PS` consists of the non-zero bytes among the `pos` draws consumed, none of which failed. -/
theorem encodingBlock_ok {kl : Nat} {m : List Byte} {rnd : Nat → Draw Byte} {fuel : Nat}
    {eb : List Byte} {pos : Nat} (hlen : m.length + 11 ≤ kl)
    (h : encodingBlock kl m rnd fuel = some (.ok eb, pos)) :
    pos ≤ fuel ∧ (∀ j, j < pos → ∃ b, rnd j = .value b) ∧
      (nonzeroDraws rnd 0 pos).length = kl - m.length - 3 ∧
      eb = pkcs1Block (nonzeroDraws rnd 0 pos) m := by
  obtain ⟨pl, rfl⟩ : ∃ pl, kl = m.length + 3 + pl := ⟨kl - m.length - 3, by omega⟩
  have hpl : m.length + 3 + pl - m.length - 3 = pl := by omega
  unfold encodingBlock at h
  simp only [hpl] at h
  have heb0 : ((List.replicate (m.length + 3 + pl) (0 : Byte)).set 0 0x00).set 1 0x02
      = [0x00, 0x02] ++ List.replicate (pl + (m.length + 1)) 0 := by
    have e : m.length + 3 + pl = (pl + (m.length + 1)) + 1 + 1 := by omega
    rw [e]
    simp [List.replicate_succ]
  rw [heb0] at h
  cases hf : fillPadding rnd (2 + pl) fuel ([0x00, 0x02] ++ List.replicate (pl + (m.length + 1)) 0)
      2 0 with
  | none => rw [hf] at h; exact Option.noConfusion h
  | some r =>
    obtain ⟨r1, pos1⟩ := r
    cases r1 with
    | error e => rw [hf] at h; simp at h
    | panic p => rw [hf] at h; simp at h
    | ok eb1 =>
      rw [hf] at h
      simp only [Option.some.injEq, Prod.mk.injEq, Res.ok.injEq] at h
      obtain ⟨h1, rfl⟩ := h
      have hfp := fillPadding_ok rnd (2 + pl) fuel _ 2 0 eb1 pos1 hf (by omega)
        (by simp; omega)
      obtain ⟨_, hfuel, hnofail, hlenps, heb1⟩ := hfp
      simp only [Nat.sub_zero, Nat.add_sub_cancel_left] at hlenps heb1
      refine ⟨by omega, fun j hj => hnofail j (Nat.zero_le _) hj, by omega, ?_⟩
      have htake : List.take 2 ([0x00, 0x02] ++ List.replicate (pl + (m.length + 1)) (0 : Byte))
          = [0x00, 0x02] := List.take_left' rfl
      have hdrop : List.drop (2 + pl) ([0x00, 0x02] ++ List.replicate (pl + (m.length + 1)) (0 : Byte))
          = (0 : Byte) :: List.replicate m.length 0 := by
        have := @List.drop_append _ [(0x00 : Byte), 0x02]
          (List.replicate (pl + (m.length + 1)) (0 : Byte)) pl
        simp only [List.length_cons, List.length_nil] at this
        rw [show 2 + pl = 0 + 1 + 1 + pl by omega, this, List.drop_replicate,
          Nat.add_sub_cancel_left, List.replicate_succ]
      rw [htake, hdrop] at heb1
      subst heb1
      rw [← h1]
      have e1 : [(0x00 : Byte), 0x02] ++ nonzeroDraws rnd 0 pos1 ++ (0 : Byte) :: List.replicate m.length 0
          = ([(0x00 : Byte), 0x02] ++ nonzeroDraws rnd 0 pos1) ++ (0 : Byte) :: List.replicate m.length 0 := by
        simp
      have hlen1 : ([(0x00 : Byte), 0x02] ++ nonzeroDraws rnd 0 pos1).length = 2 + pl := by
        simp [hlenps]; omega
      rw [e1, List.set_append_right _ _ (by omega), hlen1, Nat.sub_self, List.set_cons_zero]
      have e2 : ([(0x00 : Byte), 0x02] ++ nonzeroDraws rnd 0 pos1) ++ (0 : Byte) :: List.replicate m.length 0
          = ([(0x00 : Byte), 0x02] ++ nonzeroDraws rnd 0 pos1 ++ [0]) ++ List.replicate m.length 0 := by
        simp
      have hlen2 : ([(0x00 : Byte), 0x02] ++ nonzeroDraws rnd 0 pos1 ++ [0]).length = 3 + pl := by
        simp [hlenps]; omega
      rw [e2, ← hlen2, copyInto_append]
      simp [pkcs1Block]

/-- The padding loop returns once the stream has delivered enough non-zero bytes without a
failure. -/
theorem fillPadding_returns (rnd : Nat → Draw Byte) (stop : Nat) : ∀ (fuel : Nat) (eb : List Byte)
    (i pos : Nat), (∀ j, pos ≤ j → j < pos + fuel → ∃ b, rnd j = .value b) →
    stop - i ≤ (nonzeroDraws rnd pos fuel).length →
    ∃ eb' pos', fillPadding rnd stop fuel eb i pos = some (.ok eb', pos')
  | 0, eb, i, pos, _, hnz => by
    simp only [nonzeroDraws, List.length_nil] at hnz
    exact ⟨eb, pos, by rw [fillPadding, if_neg (by omega)]⟩
  | fuel + 1, eb, i, pos, hok, hnz => by
    unfold fillPadding
    by_cases hlt : i < stop
    · rw [if_pos hlt]
      obtain ⟨b, hb⟩ := hok pos le_rfl (by omega)
      rw [nonzeroDraws_succ, hb] at hnz
      rw [hb]
      simp only at hnz ⊢
      by_cases hb0 : b ≠ 0
      · rw [if_pos hb0] at hnz ⊢
        exact fillPadding_returns rnd stop fuel _ _ _ (fun j h1 h2 => hok j (by omega) (by omega))
          (by simp only [List.length_cons] at hnz; omega)
      · rw [if_neg hb0] at hnz ⊢
        exact fillPadding_returns rnd stop fuel _ _ _ (fun j h1 h2 => hok j (by omega) (by omega))
          hnz
    · rw [if_neg hlt]
      exact ⟨eb, pos, rfl⟩

/-! ### The transform -/

theorem encrypt_lt (pub : PublicKey) (x : Nat) (hN : pub.N ≠ 0) :
    encrypt pub x < pub.N.natAbs := Exp_getD_lt x pub.E pub.N hN

theorem decrypt_lt (priv : PrivateKey) (x : Nat) (hN : priv.N ≠ 0) :
    decrypt priv x < priv.N.natAbs := Exp_getD_lt x priv.D priv.N hN

theorem keyLen_natAbs (N : Int) : keyLen (N.natAbs : Int) = keyLen N := by
  simp only [keyLen, BitLen_natAbs]

/-- A number below `|N|` fits in `keyLen N` bytes. -/
theorem length_Bytes_le_keyLen (N : Int) (x : Nat) (hx : x < N.natAbs) :
    (Bytes (x : Int)).length ≤ keyLen N := by
  apply length_Bytes_le
  have := lt_pow_keyLen N.natAbs
  rw [BitLen_natAbs] at this
  exact lt_trans hx this

theorem encrypt_eq_pow (pub : PublicKey) (x : Nat) (hN : pub.N ≠ 0) (hE : 0 ≤ pub.E) :
    encrypt pub x = x ^ pub.E.toNat % pub.N.natAbs := by
  rw [encrypt, Exp_of_nonneg x hE hN]
  rfl

theorem decrypt_eq_pow (priv : PrivateKey) (x : Nat) (hN : priv.N ≠ 0) (hD : 0 ≤ priv.D) :
    decrypt priv x = x ^ priv.D.toNat % priv.N.natAbs := by
  rw [decrypt, Exp_of_nonneg x hD hN]
  rfl

/-- The raw transforms of a key pair of two distinct primes undo each other. -/
theorem decrypt_encrypt_of_primes {p q : Nat} (hp : p.Prime) (hq : q.Prime) (hpq : p ≠ q)
    (e d : Nat) (hed : d * e % ((p - 1) * (q - 1)) = 1 % ((p - 1) * (q - 1)))
    (x : Nat) (hx : x < p * q) :
    decrypt ⟨(p : Int) * (q : Int), (d : Int)⟩ (encrypt ⟨(p : Int) * (q : Int), (e : Int)⟩ x)
      = x := by
  have hN : (p : Int) * (q : Int) ≠ 0 := by
    have := hp.pos
    have := hq.pos
    positivity
  have habs : ((p : Int) * (q : Int)).natAbs = p * q := by
    rw [Int.natAbs_mul, Int.natAbs_ofNat, Int.natAbs_ofNat]
  rw [encrypt_eq_pow _ _ hN (by simp), decrypt_eq_pow _ _ hN (by simp)]
  simp only [habs, Int.toNat_ofNat]
  rw [← Nat.pow_mod, ← pow_mul, rsa_identity hp hq hpq e d x (by rwa [mul_comm e d]),
    Nat.mod_eq_of_lt hx]

/-! ### `DecryptRSA` and `EncryptRSA` in terms of the fixed-width encoding -/

theorem DecryptRSA_eq_unpad (priv : PrivateKey) (c : List Byte) (hN : priv.N ≠ 0)
    (hc : c.length = keyLen priv.N) :
    DecryptRSA priv c
      = unpad (leftPad (keyLen priv.N) (Bytes (decrypt priv (SetBytes c) : Int))) := by
  have hle := length_Bytes_le_keyLen priv.N _ (decrypt_lt priv (SetBytes c) hN)
  unfold keyLen at hc hle ⊢
  unfold DecryptRSA
  simp only
  rw [if_neg (by simp [hc]), if_neg (by omega)]
  congr 1
  have e : (BitLen priv.N + 7) / 8
      = ((BitLen priv.N + 7) / 8 - (Bytes (decrypt priv (SetBytes c) : Int)).length)
        + (Bytes (decrypt priv (SetBytes c) : Int)).length := by omega
  conv_lhs => rw [e]; arg 2; rw [Nat.add_sub_cancel]
  rw [copyInto_zeros]
  rfl

/-- If the ciphertext decrypts to the number of a block of `keyLen` bytes, `DecryptRSA` is the
unpadding of that block. -/
theorem DecryptRSA_of_block (priv : PrivateKey) (c block : List Byte) (hN : priv.N ≠ 0)
    (hc : c.length = keyLen priv.N) (hb : block.length = keyLen priv.N)
    (hdec : decrypt priv (SetBytes c) = SetBytes block) :
    DecryptRSA priv c = unpad block := by
  rw [DecryptRSA_eq_unpad priv c hN hc, hdec, ← hb, leftPad_Bytes_SetBytes]

theorem keyLen_pos_ne_zero {N : Int} (h : 0 < keyLen N) : N ≠ 0 := by
  rintro rfl
  simp [keyLen, BitLen, bitLenAux] at h

/-- What a successful call of `EncryptRSA` returns. -/
theorem EncryptRSA_ok {pub : PublicKey} {m : List Byte} {rnd : Nat → Draw Byte} {fuel : Nat}
    {c : List Byte} (h : EncryptRSA pub m rnd fuel = some (.ok c)) :
    m.length + 11 ≤ keyLen pub.N ∧ pub.N ≠ 0 ∧
    ∃ pos, pos ≤ fuel ∧ (∀ j, j < pos → ∃ b, rnd j = .value b) ∧
      (nonzeroDraws rnd 0 pos).length = keyLen pub.N - m.length - 3 ∧
      c = leftPad (keyLen pub.N)
        (Bytes (encrypt pub (SetBytes (pkcs1Block (nonzeroDraws rnd 0 pos) m)) : Int)) := by
  unfold EncryptRSA at h
  simp only at h
  by_cases hlong : (m.length : Int) > (((big.BitLen pub.N + 7) / 8 : Nat) : Int) - 11
  · rw [if_pos hlong] at h
    simp at h
  · rw [if_neg hlong] at h
    have hlen : m.length + 11 ≤ keyLen pub.N := by unfold keyLen; omega
    have hN : pub.N ≠ 0 := keyLen_pos_ne_zero (by omega)
    refine ⟨hlen, hN, ?_⟩
    cases hblk : encodingBlock ((big.BitLen pub.N + 7) / 8) m rnd fuel with
    | none => rw [hblk] at h; exact Option.noConfusion h
    | some r =>
      obtain ⟨r1, pos⟩ := r
      cases r1 with
      | error e => rw [hblk] at h; simp at h
      | panic p => rw [hblk] at h; simp at h
      | ok eb =>
        rw [hblk] at h
        simp only at h
        obtain ⟨hfuel, hnofail, hps, heb⟩ := encodingBlock_ok hlen hblk
        have hle := length_Bytes_le_keyLen pub.N _ (encrypt_lt pub (SetBytes eb) hN)
        unfold keyLen at hle
        rw [if_neg (by omega)] at h
        simp only [Option.some.injEq, Res.ok.injEq] at h
        have heblen : eb.length = (big.BitLen pub.N + 7) / 8 := by
          rw [heb]
          simp only [pkcs1Block, List.length_cons, List.length_append]
          unfold keyLen at hps hlen
          omega
        refine ⟨pos, hfuel, hnofail, hps, ?_⟩
        rw [← h, ← heb]
        unfold keyLen
        rw [← heblen, copyInto_zeroFill _ _ (by omega)]

/-! ### Key generation -/

theorem randPrime_ok {src : Nat → Draw Nat} {pos : Nat} {bits : Int} {p pos' : Nat}
    (h : randPrime src pos bits = (.ok p, pos')) :
    2 ≤ bits ∧ src pos = .value p ∧ pos' = pos + 1 := by
  unfold randPrime at h
  by_cases hb : bits < 2
  · rw [if_pos hb] at h
    simp at h
  · rw [if_neg hb] at h
    cases hs : src pos with
    | value v =>
      rw [hs] at h
      simp only [Prod.mk.injEq, Res.ok.injEq] at h
      exact ⟨by omega, by rw [h.1], h.2.symm⟩
    | fail code =>
      rw [hs] at h
      simp at h

/-- One iteration of the loop of `GenerateKeys`, as an equation. -/
theorem GenerateKeysLoop_succ (bitlen : Int) (src : Nat → Draw Nat) (fuel numRetries pos : Nat) :
    GenerateKeysLoop bitlen src (fuel + 1) numRetries pos =
      if numRetries + 1 = 10 then some (.panic .retriedTooManyTimes, pos)
      else
        match randPrime src pos (bitlen.tdiv 2) with
        | (.error err, pos) => some (.error err, pos)
        | (.panic p, pos) => some (.panic p, pos)
        | (.ok p, pos) =>
          match randPrime src pos (bitlen.tdiv 2) with
          | (.error err, pos) => some (.error err, pos)
          | (.panic p, pos) => some (.panic p, pos)
          | (.ok q, pos) =>
            if (big.BitLen ((p : Int) * (q : Int)) : Int) ≠ bitlen then
              GenerateKeysLoop bitlen src fuel (numRetries + 1) pos
            else
              match big.ModInverse 65537 (((p : Int) - 1) * ((q : Int) - 1)) with
              | none => GenerateKeysLoop bitlen src fuel (numRetries + 1) pos
              | some d =>
                some (.ok (⟨(p : Int) * (q : Int), ((65537 : Nat) : Int)⟩,
                  ⟨(p : Int) * (q : Int), (d : Int)⟩), pos) := rfl

/-- A returned key pair comes from the last two primes drawn: their product has the requested
bit length and `D` is the inverse of 65537 modulo `(p-1)(q-1)` computed by `ModInverse`. -/
theorem GenerateKeysLoop_ok (bitlen : Int) (src : Nat → Draw Nat) :
    ∀ (fuel numRetries pos : Nat) (pub : PublicKey) (priv : PrivateKey) (pos' : Nat),
    GenerateKeysLoop bitlen src fuel numRetries pos = some (.ok (pub, priv), pos') →
    ∃ p q d : Nat, pos + 2 ≤ pos' ∧ src (pos' - 2) = .value p ∧ src (pos' - 1) = .value q ∧
      2 ≤ bitlen.tdiv 2 ∧ (big.BitLen ((p : Int) * (q : Int)) : Int) = bitlen ∧
      big.ModInverse 65537 (((p : Int) - 1) * ((q : Int) - 1)) = some d ∧
      pub = ⟨(p : Int) * (q : Int), 65537⟩ ∧ priv = ⟨(p : Int) * (q : Int), (d : Int)⟩
  | 0, _, _, _, _, _, h => by simp [GenerateKeysLoop] at h
  | fuel + 1, numRetries, pos, pub, priv, pos', h => by
    rw [GenerateKeysLoop_succ] at h
    split at h
    · simp at h
    · cases hr1 : randPrime src pos (bitlen.tdiv 2) with
      | mk r1 pos1 =>
        cases r1 with
        | error e => rw [hr1] at h; simp at h
        | panic e => rw [hr1] at h; simp at h
        | ok p =>
          rw [hr1] at h
          simp only at h
          obtain ⟨hbits, hp, rfl⟩ := randPrime_ok hr1
          cases hr2 : randPrime src (pos + 1) (bitlen.tdiv 2) with
          | mk r2 pos2 =>
            cases r2 with
            | error e => rw [hr2] at h; simp at h
            | panic e => rw [hr2] at h; simp at h
            | ok q =>
              rw [hr2] at h
              simp only at h
              obtain ⟨_, hq, rfl⟩ := randPrime_ok hr2
              have hrec : ∀ (r : Option (Res (PublicKey × PrivateKey) × Nat)),
                  r = GenerateKeysLoop bitlen src fuel (numRetries + 1) (pos + 1 + 1) →
                  r = some (.ok (pub, priv), pos') →
                  ∃ p q d : Nat, pos + 2 ≤ pos' ∧ src (pos' - 2) = .value p ∧
                    src (pos' - 1) = .value q ∧
                    2 ≤ bitlen.tdiv 2 ∧ (big.BitLen ((p : Int) * (q : Int)) : Int) = bitlen ∧
                    big.ModInverse 65537 (((p : Int) - 1) * ((q : Int) - 1)) = some d ∧
                    pub = ⟨(p : Int) * (q : Int), 65537⟩ ∧
                    priv = ⟨(p : Int) * (q : Int), (d : Int)⟩ := by
                intro r hr hr'
                rw [hr] at hr'
                obtain ⟨p', q', d', h1, h2⟩ :=
                  GenerateKeysLoop_ok bitlen src fuel _ _ pub priv pos' hr'
                exact ⟨p', q', d', by omega, h2⟩
              by_cases hbl : (big.BitLen ((p : Int) * (q : Int)) : Int) ≠ bitlen
              · rw [if_pos hbl] at h
                exact hrec _ rfl h
              · rw [if_neg hbl] at h
                cases hd : big.ModInverse 65537 (((p : Int) - 1) * ((q : Int) - 1)) with
                | none =>
                  rw [hd] at h
                  exact hrec _ rfl h
                | some d =>
                  rw [hd] at h
                  simp only [Option.some.injEq, Prod.mk.injEq, Res.ok.injEq] at h
                  obtain ⟨⟨rfl, rfl⟩, rfl⟩ := h
                  refine ⟨p, q, d, by omega, ?_, ?_, hbits, not_not.1 hbl, hd, rfl, rfl⟩
                  · rw [show pos + 1 + 1 - 2 = pos by omega]; exact hp
                  · rw [show pos + 1 + 1 - 1 = pos + 1 by omega]; exact hq

theorem GenerateKeys_ok {bitlen : Int} {src : Nat → Draw Nat} {pub : PublicKey}
    {priv : PrivateKey} {pos : Nat}
    (h : GenerateKeys bitlen src = some (.ok (pub, priv), pos)) :
    ∃ p q d : Nat, 2 ≤ pos ∧ src (pos - 2) = .value p ∧ src (pos - 1) = .value q ∧
      2 ≤ bitlen.tdiv 2 ∧ (big.BitLen ((p : Int) * (q : Int)) : Int) = bitlen ∧
      big.ModInverse 65537 (((p : Int) - 1) * ((q : Int) - 1)) = some d ∧
      pub = ⟨(p : Int) * (q : Int), 65537⟩ ∧ priv = ⟨(p : Int) * (q : Int), (d : Int)⟩ := by
  obtain ⟨p, q, d, h1, h2⟩ := GenerateKeysLoop_ok bitlen src 10 0 0 pub priv pos h
  exact ⟨p, q, d, by omega, h2⟩

/-- The loop decides within `10 - numRetries` iterations. -/
theorem GenerateKeysLoop_isSome (bitlen : Int) (src : Nat → Draw Nat) :
    ∀ (fuel numRetries pos : Nat), 10 ≤ numRetries + fuel → numRetries < 10 →
    (GenerateKeysLoop bitlen src fuel numRetries pos).isSome = true
  | 0, numRetries, pos, h1, h2 => by omega
  | fuel + 1, numRetries, pos, h1, h2 => by
    rw [GenerateKeysLoop_succ]
    by_cases h10 : numRetries + 1 = 10
    · rw [if_pos h10]; rfl
    · rw [if_neg h10]
      have ih := GenerateKeysLoop_isSome bitlen src fuel (numRetries + 1)
      cases randPrime src pos (bitlen.tdiv 2) with
      | mk r1 pos1 =>
        cases r1 with
        | error e => rfl
        | panic e => rfl
        | ok p =>
          simp only
          cases randPrime src pos1 (bitlen.tdiv 2) with
          | mk r2 pos2 =>
            cases r2 with
            | error e => rfl
            | panic e => rfl
            | ok q =>
              simp only
              split
              · exact ih _ (by omega) (by omega)
              · split
                · exact ih _ (by omega) (by omega)
                · rfl

/-- Termination: `GenerateKeys` always comes to a result: a key pair, an error or the panic. -/
theorem GenerateKeys_returns (bitlen : Int) (src : Nat → Draw Nat) :
    ∃ r, GenerateKeys bitlen src = some r :=
  Option.isSome_iff_exists.1 (GenerateKeysLoop_isSome bitlen src 10 0 0 (by omega) (by omega))

theorem four_le_of_tdiv_two {L : Int} (h : 2 ≤ L.tdiv 2) : 4 ≤ L := by
  rcases lt_or_le L 0 with hneg | hnn
  · have h1 : L.tdiv 2 = -((-L).tdiv 2) := by rw [Int.neg_tdiv, neg_neg]
    have h2 := Int.tdiv_nonneg (a := -L) (b := 2) (by omega) (by omega)
    omega
  · rw [Int.tdiv_eq_ediv hnn (by omega)] at h
    omega

/-- In an accepted attempt both draws are at least 2 and the totient is at least 2. -/
theorem totient_ge_two_of_accepted {bitlen : Int} {p q d : Nat} (hbits : 2 ≤ bitlen.tdiv 2)
    (hbl : (big.BitLen ((p : Int) * (q : Int)) : Int) = bitlen)
    (hd : big.ModInverse 65537 (((p : Int) - 1) * ((q : Int) - 1)) = some d) :
    2 ≤ p ∧ 2 ≤ q ∧ 2 ≤ (p - 1) * (q - 1) ∧
      (((p : Int) - 1) * ((q : Int) - 1)).natAbs = (p - 1) * (q - 1) := by
  have hL : 4 ≤ bitlen := four_le_of_tdiv_two hbits
  have hcast : (p : Int) * (q : Int) = ((p * q : Nat) : Int) := by push_cast; rfl
  rw [hcast] at hbl
  have hlen : 4 ≤ big.BitLen ((p * q : Nat) : Int) := by omega
  have hne : p * q ≠ 0 := by
    intro h0
    rw [h0] at hlen
    simp [BitLen, bitLenAux] at hlen
  have h8 : 8 ≤ p * q := by
    have h1 := two_pow_BitLen_le (p * q) hne
    have h2 : 2 ^ 3 ≤ 2 ^ (big.BitLen ((p * q : Nat) : Int) - 1) :=
      Nat.pow_le_pow_right (by decide) (by omega)
    omega
  have hp0 : p ≠ 0 := fun h => hne (by rw [h, Nat.zero_mul])
  have hq0 : q ≠ 0 := fun h => hne (by rw [h, Nat.mul_zero])
  have hg := ModInverse_gcd hd
  have hp1 : p ≠ 1 := by
    intro h
    subst h
    simp at hg
  have hq1 : q ≠ 1 := by
    intro h
    subst h
    simp at hg
  have habs : (((p : Int) - 1) * ((q : Int) - 1)).natAbs = (p - 1) * (q - 1) := by
    have e1 : (p : Int) - 1 = ((p - 1 : Nat) : Int) := by omega
    have e2 : (q : Int) - 1 = ((q - 1 : Nat) : Int) := by omega
    rw [e1, e2, Int.natAbs_mul, Int.natAbs_ofNat, Int.natAbs_ofNat]
  refine ⟨by omega, by omega, ?_, habs⟩
  by_cases hp2 : p = 2
  · subst hp2
    have : 1 * 2 ≤ (2 - 1) * (q - 1) := Nat.mul_le_mul (by omega) (by omega)
    omega
  · have : 2 * 1 ≤ (p - 1) * (q - 1) := Nat.mul_le_mul (by omega) (by omega)
    omega

/-! ### Round trip -/

theorem length_pkcs1Block (PS M : List Byte) : (pkcs1Block PS M).length = PS.length + M.length + 3 := by
  simp only [pkcs1Block, List.length_cons, List.length_append]
  omega

/-- A block that starts with a zero byte and fills the key length is a number below `N`. -/
theorem SetBytes_pkcs1Block_lt (PS M : List Byte) (N : Nat) (hN : N ≠ 0)
    (hlen : (pkcs1Block PS M).length = keyLen (N : Int)) : SetBytes (pkcs1Block PS M) < N := by
  have h1 : SetBytes (pkcs1Block PS M) = SetBytes ((0x02 : Byte) :: (PS ++ 0x00 :: M)) := by
    rw [pkcs1Block, SetBytes_cons]
    simp
  have h2 := SetBytes_lt ((0x02 : Byte) :: (PS ++ 0x00 :: M))
  have h3 : ((0x02 : Byte) :: (PS ++ 0x00 :: M)).length = keyLen (N : Int) - 1 := by
    rw [← hlen]
    simp [pkcs1Block]
  rw [h3] at h2
  have h4 := pow_keyLen_pred_le N hN
  unfold keyLen at h2
  omega

/-- Decryption of the fixed-width encoding of `block^e mod N` under a key pair of two distinct
primes is the unpadding of the block. -/
theorem DecryptRSA_leftPad_encrypt {p q : Nat} (hp : p.Prime) (hq : q.Prime) (hpq : p ≠ q)
    (e d : Nat) (hed : d * e % ((p - 1) * (q - 1)) = 1 % ((p - 1) * (q - 1)))
    (PS M : List Byte) (hPS : ∀ b ∈ PS, b ≠ 0)
    (hlen : (pkcs1Block PS M).length = keyLen ((p : Int) * (q : Int))) :
    DecryptRSA ⟨(p : Int) * (q : Int), (d : Int)⟩
      (leftPad (keyLen ((p : Int) * (q : Int)))
        (Bytes (encrypt ⟨(p : Int) * (q : Int), (e : Int)⟩ (SetBytes (pkcs1Block PS M)) : Int)))
      = .ok M := by
  have hpos : 0 < p * q := Nat.mul_pos hp.pos hq.pos
  have hcast : (p : Int) * (q : Int) = ((p * q : Nat) : Int) := by push_cast; rfl
  have hN : (p : Int) * (q : Int) ≠ 0 := by rw [hcast]; exact_mod_cast (by omega : p * q ≠ 0)
  have hlt : SetBytes (pkcs1Block PS M) < p * q :=
    SetBytes_pkcs1Block_lt PS M (p * q) (by omega) (by rw [← hcast]; exact hlen)
  have hle := length_Bytes_le_keyLen ((p : Int) * (q : Int)) _
    (encrypt_lt ⟨(p : Int) * (q : Int), (e : Int)⟩ (SetBytes (pkcs1Block PS M)) hN)
  rw [DecryptRSA_of_block ⟨(p : Int) * (q : Int), (d : Int)⟩ _ (pkcs1Block PS M) hN
    (length_leftPad _ _ hle) hlen ?_]
  · exact unpad_pkcs1Block PS M hPS
  · rw [SetBytes_leftPad, SetBytes_Bytes]
    exact decrypt_encrypt_of_primes hp hq hpq e d hed _ hlt

/-- Round trip for a key pair of two distinct primes: whatever `EncryptRSA` returns decrypts to
the message. -/
theorem DecryptRSA_EncryptRSA {p q : Nat} (hp : p.Prime) (hq : q.Prime) (hpq : p ≠ q)
    (e d : Nat) (hed : d * e % ((p - 1) * (q - 1)) = 1 % ((p - 1) * (q - 1)))
    {m : List Byte} {rnd : Nat → Draw Byte} {fuel : Nat} {c : List Byte}
    (h : EncryptRSA ⟨(p : Int) * (q : Int), (e : Int)⟩ m rnd fuel = some (.ok c)) :
    DecryptRSA ⟨(p : Int) * (q : Int), (d : Int)⟩ c = .ok m := by
  obtain ⟨hlen, _, pos, _, _, hps, hc⟩ := EncryptRSA_ok h
  simp only at hlen hps hc
  rw [hc]
  apply DecryptRSA_leftPad_encrypt hp hq hpq e d hed _ _ (nonzeroDraws_ne_zero rnd pos 0)
  rw [length_pkcs1Block, hps]
  omega

/-- Round trip for the key pairs `GenerateKeys` builds from two distinct primes. -/
theorem roundTrip_of_distinct_primes {L : Int} {src : Nat → Draw Nat} {pub : PublicKey}
    {priv : PrivateKey} {pos : Nat} (hgen : GenerateKeys L src = some (.ok (pub, priv), pos))
    (hprime : ∀ i v, src i = .value v → v.Prime)
    (hne : src (pos - 2) ≠ src (pos - 1))
    {m : List Byte} {rnd : Nat → Draw Byte} {fuel : Nat} {c : List Byte}
    (h : EncryptRSA pub m rnd fuel = some (.ok c)) :
    DecryptRSA priv c = .ok m := by
  obtain ⟨p, q, d, _, hp, hq, hbits, hbl, hd, rfl, rfl⟩ := GenerateKeys_ok hgen
  have hpq : p ≠ q := by
    intro heq
    apply hne
    rw [hp, hq, heq]
  obtain ⟨_, _, _, habs⟩ := totient_ge_two_of_accepted hbits hbl hd
  have hmul := ModInverse_mul hd
  rw [habs] at hmul
  exact DecryptRSA_EncryptRSA (hprime _ _ hp) (hprime _ _ hq) hpq 65537 d hmul h

/-! ### Failures of `EncryptRSA` -/

/-- A run of the padding loop that ends in an error ends at the first failed draw, and never
panics. -/
theorem fillPadding_not_ok (rnd : Nat → Draw Byte) (stop : Nat) : ∀ (fuel : Nat) (eb : List Byte)
    (i pos : Nat) (r : Res (List Byte)) (pos' : Nat),
    fillPadding rnd stop fuel eb i pos = some (r, pos') → (∀ eb', r ≠ .ok eb') →
    ∃ code, r = .error (.source code) ∧ pos < pos' ∧ rnd (pos' - 1) = .fail code ∧
      ∀ j, pos ≤ j → j < pos' - 1 → ∃ b, rnd j = .value b
  | 0, eb, i, pos, r, pos', h, hr => by
    unfold fillPadding at h
    split at h
    · exact Option.noConfusion h
    · simp only [Option.some.injEq, Prod.mk.injEq] at h
      exact absurd h.1.symm (hr eb)
  | fuel + 1, eb, i, pos, r, pos', h, hr => by
    unfold fillPadding at h
    by_cases hlt : i < stop
    · rw [if_pos hlt] at h
      cases hd : rnd pos with
      | fail code =>
        rw [hd] at h
        simp only [Option.some.injEq, Prod.mk.injEq] at h
        obtain ⟨rfl, rfl⟩ := h
        exact ⟨code, rfl, by omega, by simpa using hd, fun j h1 h2 => by omega⟩
      | value b =>
        rw [hd] at h
        simp only at h
        have key : ∀ i', fillPadding rnd stop fuel (eb.set i b) i' (pos + 1) = some (r, pos') →
            ∃ code, r = .error (.source code) ∧ pos < pos' ∧ rnd (pos' - 1) = .fail code ∧
              ∀ j, pos ≤ j → j < pos' - 1 → ∃ b, rnd j = .value b := by
          intro i' h'
          obtain ⟨code, h1, h2, h3, h4⟩ := fillPadding_not_ok rnd stop fuel _ i' _ r pos' h' hr
          refine ⟨code, h1, by omega, h3, fun j hj1 hj2 => ?_⟩
          by_cases hj : j = pos
          · exact ⟨b, hj ▸ hd⟩
          · exact h4 j (by omega) hj2
        split at h
        · exact key _ h
        · exact key _ h
    · rw [if_neg hlt] at h
      simp only [Option.some.injEq, Prod.mk.injEq] at h
      exact absurd h.1.symm (hr eb)

theorem encodingBlock_not_ok {kl : Nat} {m : List Byte} {rnd : Nat → Draw Byte} {fuel : Nat}
    {r : Res (List Byte)} {pos : Nat} (h : encodingBlock kl m rnd fuel = some (r, pos))
    (hr : ∀ eb, r ≠ .ok eb) :
    ∃ code, r = .error (.source code) ∧ 0 < pos ∧ rnd (pos - 1) = .fail code ∧
      ∀ j, j < pos - 1 → ∃ b, rnd j = .value b := by
  unfold encodingBlock at h
  simp only at h
  split at h
  · exact Option.noConfusion h
  · rename_i err pos1 hf
    simp only [Option.some.injEq, Prod.mk.injEq] at h
    obtain ⟨rfl, rfl⟩ := h
    obtain ⟨code, h1, h2, h3, h4⟩ := fillPadding_not_ok rnd _ fuel _ _ _ _ _ hf (by simp)
    exact ⟨code, h1, h2, h3, fun j hj => h4 j (Nat.zero_le _) hj⟩
  · rename_i p pos1 hf
    obtain ⟨code, h1, _⟩ := fillPadding_not_ok rnd _ fuel _ _ _ _ _ hf (by simp)
    simp at h1
  · simp only [Option.some.injEq, Prod.mk.injEq] at h
    exact absurd h.1.symm (hr _)

/-- The results of `EncryptRSA`, by cases: the message is too long and the call returns the
message-too-long error; or the message is accepted and the call returns a ciphertext, or
returns the error of the first failed draw, or has not finished the padding within the fuel. -/
theorem EncryptRSA_cases (pub : PublicKey) (m : List Byte) (rnd : Nat → Draw Byte) (fuel : Nat) :
    ((keyLen pub.N : Int) - 11 < m.length ∧
      EncryptRSA pub m rnd fuel = some (.error (.messageTooLong m.length))) ∨
    (m.length + 11 ≤ keyLen pub.N ∧
      ((∃ c, EncryptRSA pub m rnd fuel = some (.ok c)) ∨
       (∃ code j, rnd j = .fail code ∧
          EncryptRSA pub m rnd fuel = some (.error (.source code))) ∨
       EncryptRSA pub m rnd fuel = none)) := by
  by_cases hlong : (m.length : Int) > (keyLen pub.N : Int) - 11
  · left
    refine ⟨hlong, ?_⟩
    unfold EncryptRSA
    unfold keyLen at hlong
    simp only
    rw [if_pos hlong]
  · right
    have hlen : m.length + 11 ≤ keyLen pub.N := by omega
    have hN : pub.N ≠ 0 := keyLen_pos_ne_zero (by omega)
    refine ⟨hlen, ?_⟩
    unfold keyLen at hlong
    unfold EncryptRSA
    simp only
    rw [if_neg hlong]
    cases hblk : encodingBlock ((big.BitLen pub.N + 7) / 8) m rnd fuel with
    | none => right; right; rfl
    | some r =>
      obtain ⟨r1, pos⟩ := r
      cases r1 with
      | error e =>
        obtain ⟨code, h1, _, h3, _⟩ := encodingBlock_not_ok hblk (by simp)
        simp only [Res.error.injEq] at h1
        subst h1
        right; left
        exact ⟨code, pos - 1, h3, rfl⟩
      | panic p =>
        obtain ⟨code, h1, _⟩ := encodingBlock_not_ok hblk (by simp)
        simp at h1
      | ok eb =>
        left
        simp only
        have hle := length_Bytes_le_keyLen pub.N _ (encrypt_lt pub (SetBytes eb) hN)
        unfold keyLen at hle
        rw [if_neg (by omega)]
        exact ⟨_, rfl⟩

/-- Termination: `EncryptRSA` returns a ciphertext for an accepted message once the stream delivers enough
non-zero bytes within the fuel without failing. -/
theorem EncryptRSA_returns (pub : PublicKey) (m : List Byte) (rnd : Nat → Draw Byte) (fuel : Nat)
    (hlen : m.length + 11 ≤ keyLen pub.N)
    (hok : ∀ j, j < fuel → ∃ b, rnd j = .value b)
    (hnz : keyLen pub.N - m.length - 3 ≤ (nonzeroDraws rnd 0 fuel).length) :
    ∃ c, EncryptRSA pub m rnd fuel = some (.ok c) := by
  have hN : pub.N ≠ 0 := keyLen_pos_ne_zero (by omega)
  obtain ⟨eb', pos', hf⟩ := fillPadding_returns rnd (2 + (keyLen pub.N - m.length - 3)) fuel
    (((List.replicate (keyLen pub.N) (0 : Byte)).set 0 0x00).set 1 0x02) 2 0
    (fun j _ h2 => hok j (by omega)) (by omega)
  have hblk : encodingBlock (keyLen pub.N) m rnd fuel
      = some (.ok (copyInto (eb'.set (2 + (keyLen pub.N - m.length - 3)) 0x00)
          (3 + (keyLen pub.N - m.length - 3)) m), pos') := by
    unfold encodingBlock
    simp only
    rw [hf]
  unfold keyLen at hblk hlen
  unfold EncryptRSA
  simp only
  rw [if_neg (by omega), hblk]
  simp only
  have hle := length_Bytes_le_keyLen pub.N _ (encrypt_lt pub
    (SetBytes (copyInto (eb'.set (2 + ((big.BitLen pub.N + 7) / 8 - m.length - 3)) 0x00)
          (3 + ((big.BitLen pub.N + 7) / 8 - m.length - 3)) m)) hN)
  unfold keyLen at hle
  rw [if_neg (by omega)]
  exact ⟨_, rfl⟩

/-! ## The claims -/

/-- C1 (the round-trip law fails on a key pair `GenerateKeys` can return): when the prime source
delivers the same prime `P64` for `p` and for `q`, `GenerateKeys 128` accepts the attempt and
returns the key pair with `N = P64^2`; `EncryptRSA` accepts the three-byte message `68 69 00`
under that public key and returns a ciphertext, and `DecryptRSA` rejects that ciphertext with the
padding-signature error instead of returning the message. -/
theorem C1_roundTrip_fails_on_coinciding_primes :
    Nat.Prime P64 ∧
    GenerateKeys 128 srcPP
      = some (.ok (⟨242251802231800917867847717360477667329, 65537⟩,
          ⟨242251802231800917867847717360477667329,
            230948172049997551696299131794777636865⟩), 2) ∧
    (([0x68, 0x69, 0x00] : List Byte).length : Int)
      ≤ (keyLen 242251802231800917867847717360477667329 : Int) - 11 ∧
    EncryptRSA ⟨242251802231800917867847717360477667329, 65537⟩ [0x68, 0x69, 0x00] rndDemo 20
      = some (.ok [70, 180, 91, 100, 235, 90, 123, 151, 131, 101, 186, 38, 119, 17, 171, 5]) ∧
    DecryptRSA ⟨242251802231800917867847717360477667329,
        230948172049997551696299131794777636865⟩
        [70, 180, 91, 100, 235, 90, 123, 151, 131, 101, 186, 38, 119, 17, 171, 5]
      = .error (.paddingSignature 90 223) :=
  ⟨P64_prime, by decide, by decide, by decide, by decide⟩

/-- C2: for distinct primes `p ≠ q`, `n = p*q`, `e = 65537` and `d = ModInverse(e, (p-1)(q-1))`,
and for every `x` with `0 ≤ x < n` (coprime to `n` or not), `encrypt` computes `x^e mod n`,
`decrypt` of it computes `(x^e mod n)^d mod n`, and that value is `x`. -/
theorem C2_raw_transform_identity {p q d : Nat} (hp : p.Prime) (hq : q.Prime) (hpq : p ≠ q)
    (hd : big.ModInverse 65537 (((p : Int) - 1) * ((q : Int) - 1)) = some d)
    (x : Nat) (hx : x < p * q) :
    encrypt ⟨(p : Int) * (q : Int), ((65537 : Nat) : Int)⟩ x = x ^ 65537 % (p * q) ∧
    decrypt ⟨(p : Int) * (q : Int), (d : Int)⟩
        (encrypt ⟨(p : Int) * (q : Int), ((65537 : Nat) : Int)⟩ x)
      = (x ^ 65537 % (p * q)) ^ d % (p * q) ∧
    decrypt ⟨(p : Int) * (q : Int), (d : Int)⟩
        (encrypt ⟨(p : Int) * (q : Int), ((65537 : Nat) : Int)⟩ x) = x := by
  have hN : (p : Int) * (q : Int) ≠ 0 := by
    have := hp.pos
    have := hq.pos
    positivity
  have habsN : ((p : Int) * (q : Int)).natAbs = p * q := by
    rw [Int.natAbs_mul, Int.natAbs_ofNat, Int.natAbs_ofNat]
  have habs : (((p : Int) - 1) * ((q : Int) - 1)).natAbs = (p - 1) * (q - 1) := by
    have h1 := hp.two_le
    have h2 := hq.two_le
    have e1 : (p : Int) - 1 = ((p - 1 : Nat) : Int) := by omega
    have e2 : (q : Int) - 1 = ((q - 1 : Nat) : Int) := by omega
    rw [e1, e2, Int.natAbs_mul, Int.natAbs_ofNat, Int.natAbs_ofNat]
  have hmul := ModInverse_mul hd
  rw [habs] at hmul
  have henc : encrypt ⟨(p : Int) * (q : Int), ((65537 : Nat) : Int)⟩ x = x ^ 65537 % (p * q) := by
    rw [encrypt_eq_pow _ _ hN (by simp)]
    simp only [habsN, Int.toNat_ofNat]
  refine ⟨henc, ?_, decrypt_encrypt_of_primes hp hq hpq 65537 d hmul x hx⟩
  rw [henc, decrypt_eq_pow _ _ hN (by simp)]
  simp only [habsN, Int.toNat_ofNat]

/-- Instance of C2: the key pair of the primes `P64`, `Q64` and the residue `3 * P64`, which is not
coprime to the modulus. -/
theorem C2_witness :
    Nat.Prime P64 ∧ Nat.Prime Q64 ∧ P64 ≠ Q64 ∧
    big.ModInverse 65537 (((P64 : Int) - 1) * ((Q64 : Int) - 1))
      = some 236888493308546660101927446133625257985 ∧
    3 * P64 < P64 * Q64 ∧
    decrypt ⟨(P64 : Int) * (Q64 : Int), ((236888493308546660101927446133625257985 : Nat) : Int)⟩
        (encrypt ⟨(P64 : Int) * (Q64 : Int), ((65537 : Nat) : Int)⟩ (3 * P64)) = 3 * P64 :=
  ⟨P64_prime, Q64_prime, by decide, by decide, by decide,
    (C2_raw_transform_identity P64_prime Q64_prime (by decide) (by decide)
      (3 * P64) (by decide)).2.2⟩

/-- C3: whenever `GenerateKeys(L)` returns a key pair, the modulus of the public key and the
modulus of the private key have exactly `L` bits. -/
theorem C3_modulus_bit_length {L : Int} {src : Nat → Draw Nat} {pub : PublicKey}
    {priv : PrivateKey} {pos : Nat}
    (h : GenerateKeys L src = some (.ok (pub, priv), pos)) :
    (big.BitLen pub.N : Int) = L ∧ (big.BitLen priv.N : Int) = L := by
  obtain ⟨p, q, d, _, _, _, _, hbl, _, rfl, rfl⟩ := GenerateKeys_ok h
  exact ⟨hbl, hbl⟩

/-- Instance of C3: `GenerateKeys 128` on the prime stream `P64`, `Q64`. -/
theorem C3_witness :
    GenerateKeys 128 srcPQ
      = some (.ok (⟨252303011164126931322302004581483143213, 65537⟩,
          ⟨252303011164126931322302004581483143213,
            236888493308546660101927446133625257985⟩), 2) ∧
    (big.BitLen (252303011164126931322302004581483143213 : Int) : Int) = 128 :=
  ⟨by decide, (@C3_modulus_bit_length 128 srcPQ
    ⟨252303011164126931322302004581483143213, 65537⟩
    ⟨252303011164126931322302004581483143213, 236888493308546660101927446133625257985⟩
    2 (by decide)).1⟩

/-- C4: whenever `GenerateKeys` returns a key pair, the last two draws of the prime stream are the
`p` and `q` of the accepted attempt and `(priv.D * pub.E) mod ((p-1)*(q-1)) = 1`, with `p` and
`q` the values as drawn. -/
theorem C4_private_exponent_inverse {L : Int} {src : Nat → Draw Nat} {pub : PublicKey}
    {priv : PrivateKey} {pos : Nat}
    (h : GenerateKeys L src = some (.ok (pub, priv), pos)) :
    ∃ p q : Nat, 2 ≤ pos ∧ src (pos - 2) = .value p ∧ src (pos - 1) = .value q ∧
      (priv.D * pub.E) % (((p : Int) - 1) * ((q : Int) - 1)) = 1 := by
  obtain ⟨p, q, d, hpos, hp, hq, hbits, hbl, hd, rfl, rfl⟩ := GenerateKeys_ok h
  refine ⟨p, q, hpos, hp, hq, ?_⟩
  obtain ⟨hp2, hq2, hphi, habs⟩ := totient_ge_two_of_accepted hbits hbl hd
  have hmul := ModInverse_mul hd
  rw [habs, Nat.mod_eq_of_lt (show 1 < (p - 1) * (q - 1) by omega)] at hmul
  have e1 : (p : Int) - 1 = ((p - 1 : Nat) : Int) := by omega
  have e2 : (q : Int) - 1 = ((q - 1 : Nat) : Int) := by omega
  have hcast : ((d * 65537 % ((p - 1) * (q - 1)) : Nat) : Int) = ((1 : Nat) : Int) := by
    rw [hmul]
  push_cast at hcast
  rw [e1, e2]
  exact hcast

/-- Instance of C4: `GenerateKeys 12` on a stream whose first attempt `37, 37` is rejected and whose
second attempt is `61, 53`. -/
theorem C4_witness :
    GenerateKeys 12 srcSmall = some (.ok (⟨3233, 65537⟩, ⟨3233, 2753⟩), 4) ∧
    ∃ p q : Nat, 2 ≤ 4 ∧ srcSmall (4 - 2) = .value p ∧ srcSmall (4 - 1) = .value q ∧
      ((2753 : Int) * 65537) % (((p : Int) - 1) * ((q : Int) - 1)) = 1 :=
  ⟨by decide, @C4_private_exponent_inverse 12 srcSmall ⟨3233, 65537⟩ ⟨3233, 2753⟩ 4 (by decide)⟩

/-- C5: whenever `GenerateKeys` returns a key pair, both keys hold the same modulus, the modulus
is the product `p*q` of the two values drawn in the accepted attempt (and differs from the
product of the decremented values), and the public exponent is 65537. -/
theorem C5_key_pair_fields {L : Int} {src : Nat → Draw Nat} {pub : PublicKey}
    {priv : PrivateKey} {pos : Nat}
    (h : GenerateKeys L src = some (.ok (pub, priv), pos)) :
    pub.N = priv.N ∧ pub.E = 65537 ∧
    ∃ p q : Nat, 2 ≤ pos ∧ src (pos - 2) = .value p ∧ src (pos - 1) = .value q ∧
      pub.N = (p : Int) * (q : Int) ∧ pub.N ≠ ((p : Int) - 1) * ((q : Int) - 1) := by
  obtain ⟨p, q, d, hpos, hp, hq, hbits, hbl, hd, rfl, rfl⟩ := GenerateKeys_ok h
  refine ⟨rfl, rfl, p, q, hpos, hp, hq, rfl, ?_⟩
  obtain ⟨hp2, hq2, _, _⟩ := totient_ge_two_of_accepted hbits hbl hd
  have e : ((p : Int) - 1) * ((q : Int) - 1) = (p : Int) * (q : Int) - p - q + 1 := by ring
  simp only
  rw [e]
  intro hcontra
  have h1 : (2 : Int) ≤ p := by exact_mod_cast hp2
  have h2 : (2 : Int) ≤ q := by exact_mod_cast hq2
  linarith

/-- Instance of C5: `GenerateKeys 12` on the prime stream `61, 53`. -/
theorem C5_witness :
    GenerateKeys 12 (fun i => if i = 0 then .value 61 else .value 53)
      = some (.ok (⟨3233, 65537⟩, ⟨3233, 2753⟩), 2) ∧
    (3233 : Int) = 3233 ∧ (65537 : Int) = 65537 ∧
    ∃ p q : Nat, 2 ≤ 2 ∧
      (fun i => if i = 0 then Draw.value 61 else Draw.value 53) (2 - 2) = .value p ∧
      (fun i => if i = 0 then Draw.value 61 else Draw.value 53) (2 - 1) = .value q ∧
      (3233 : Int) = (p : Int) * (q : Int) ∧ (3233 : Int) ≠ ((p : Int) - 1) * ((q : Int) - 1) :=
  ⟨by decide, @C5_key_pair_fields 12 (fun i => if i = 0 then .value 61 else .value 53)
    ⟨3233, 65537⟩ ⟨3233, 2753⟩ 2 (by decide)⟩

/-- C6: every ciphertext returned by `EncryptRSA` has exactly `keyLen = ⌈bitlen(N)/8⌉` bytes,
whatever the random padding was; in particular 128 bytes for a 1024-bit modulus. (A key with
`N = 0` accepts no message, so the bound `N ≥ 1` is not needed as a hypothesis.) -/
theorem C6_ciphertext_length {pub : PublicKey} {m : List Byte} {rnd : Nat → Draw Byte}
    {fuel : Nat} {c : List Byte} (h : EncryptRSA pub m rnd fuel = some (.ok c)) :
    c.length = (big.BitLen pub.N + 7) / 8 ∧ (big.BitLen pub.N = 1024 → c.length = 128) := by
  obtain ⟨_, hN, pos, _, _, _, hc⟩ := EncryptRSA_ok h
  have hle := length_Bytes_le_keyLen pub.N _
    (encrypt_lt pub (SetBytes (pkcs1Block (nonzeroDraws rnd 0 pos) m)) hN)
  have hlen : c.length = (big.BitLen pub.N + 7) / 8 := by
    rw [hc, length_leftPad _ _ hle]
    rfl
  refine ⟨hlen, fun h1024 => ?_⟩
  rw [hlen, h1024]

/-- Instance of C6: a 16-byte ciphertext under a 128-bit modulus. -/
theorem C6_witness :
    EncryptRSA ⟨252303011164126931322302004581483143213, 65537⟩ [0x68, 0x69, 0x00] rndDemo 20
      = some (.ok [170, 191, 220, 192, 192, 147, 60, 127, 41, 248, 26, 147, 77, 217, 172, 23]) ∧
    ([170, 191, 220, 192, 192, 147, 60, 127, 41, 248, 26, 147, 77, 217, 172, 23] :
      List Byte).length = (big.BitLen 252303011164126931322302004581483143213 + 7) / 8 :=
  ⟨by decide, (@C6_ciphertext_length ⟨252303011164126931322302004581483143213, 65537⟩
    [0x68, 0x69, 0x00] rndDemo 20
    [170, 191, 220, 192, 192, 147, 60, 127, 41, 248, 26, 147, 77, 217, 172, 23] (by decide)).1⟩

/-- C7: `EncryptRSA` returns the message-too-long error if and only if `len(m) > keyLen - 11`,
and then returns no ciphertext; in particular it rejects `len(m) = keyLen - 10` and every message
when `keyLen < 11`; a message with `len(m) ≤ keyLen - 11` (so also `len(m) = keyLen - 11`) is
never answered with that error, and is answered with a ciphertext once the random stream
delivers `keyLen - len(m) - 3` non-zero bytes without failing. -/
theorem C7_message_too_long (pub : PublicKey) (m : List Byte) (rnd : Nat → Draw Byte)
    (fuel : Nat) :
    ((∃ n, EncryptRSA pub m rnd fuel = some (.error (.messageTooLong n)))
      ↔ (keyLen pub.N : Int) - 11 < m.length) ∧
    ((keyLen pub.N : Int) - 11 < m.length →
      EncryptRSA pub m rnd fuel = some (.error (.messageTooLong m.length)) ∧
      ∀ c, EncryptRSA pub m rnd fuel ≠ some (.ok c)) ∧
    (m.length + 10 = keyLen pub.N →
      EncryptRSA pub m rnd fuel = some (.error (.messageTooLong m.length))) ∧
    (keyLen pub.N < 11 →
      EncryptRSA pub m rnd fuel = some (.error (.messageTooLong m.length))) ∧
    (m.length + 11 ≤ keyLen pub.N → (∀ j, j < fuel → ∃ b, rnd j = .value b) →
      keyLen pub.N - m.length - 3 ≤ (nonzeroDraws rnd 0 fuel).length →
      ∃ c, EncryptRSA pub m rnd fuel = some (.ok c)) := by
  have hrej : (keyLen pub.N : Int) - 11 < m.length →
      EncryptRSA pub m rnd fuel = some (.error (.messageTooLong m.length)) := by
    intro hlong
    rcases EncryptRSA_cases pub m rnd fuel with ⟨_, h⟩ | ⟨hlen, _⟩
    · exact h
    · omega
  refine ⟨⟨?_, fun h => ⟨_, hrej h⟩⟩, fun h => ⟨hrej h, fun c hc => ?_⟩,
    fun h => hrej (by omega), fun h => hrej (by omega),
    fun h1 h2 h3 => EncryptRSA_returns pub m rnd fuel h1 h2 h3⟩
  · rintro ⟨n, hn⟩
    rcases EncryptRSA_cases pub m rnd fuel with ⟨h, _⟩ | ⟨_, ⟨c, hc⟩ | ⟨code, j, _, hc⟩ | hc⟩
    · exact h
    · rw [hc] at hn; simp at hn
    · rw [hc] at hn; simp at hn
    · rw [hc] at hn; simp at hn
  · rw [hrej h] at hc
    simp at hc

/-- Instance of C7 under a 128-bit modulus (`keyLen = 16`): a 6-byte message is rejected, a 5-byte
message yields a ciphertext. -/
theorem C7_witness :
    ((([0x68, 0x69, 0x00, 0x01, 0x02, 0x03] : List Byte).length + 10
        = keyLen 252303011164126931322302004581483143213) ∧
      EncryptRSA ⟨252303011164126931322302004581483143213, 65537⟩
        [0x68, 0x69, 0x00, 0x01, 0x02, 0x03] rndDemo 20 = some (.error (.messageTooLong 6))) ∧
    ((([0x68, 0x69, 0x00, 0x01, 0x02] : List Byte).length + 11
        ≤ keyLen 252303011164126931322302004581483143213) ∧
      (∀ j, j < 20 → ∃ b, rndDemo j = .value b) ∧
      keyLen 252303011164126931322302004581483143213
          - ([0x68, 0x69, 0x00, 0x01, 0x02] : List Byte).length - 3
        ≤ (nonzeroDraws rndDemo 0 20).length ∧
      ∃ c, EncryptRSA ⟨252303011164126931322302004581483143213, 65537⟩
        [0x68, 0x69, 0x00, 0x01, 0x02] rndDemo 20 = some (.ok c)) :=
  ⟨⟨by decide, (C7_message_too_long ⟨252303011164126931322302004581483143213, 65537⟩
      [0x68, 0x69, 0x00, 0x01, 0x02, 0x03] rndDemo 20).2.2.1 (by decide)⟩,
   ⟨by decide, fun j _ => ⟨_, rfl⟩, by decide,
    (C7_message_too_long ⟨252303011164126931322302004581483143213, 65537⟩
      [0x68, 0x69, 0x00, 0x01, 0x02] rndDemo 20).2.2.2.2 (by decide) (fun j _ => ⟨_, rfl⟩)
      (by decide)⟩⟩

/-- C8: the ciphertext returned by `EncryptRSA` under a key with `N > 0` and `E ≥ 0`, read as a
big-endian unsigned integer, equals `block^E mod N`, where `block` is the `keyLen`-byte string
`0x00 || 0x02 || PS || 0x00 || m`, `PS` has `keyLen - len(m) - 3` bytes and consists of the
non-zero bytes among the draws consumed from the random stream; the number `block` is strictly
less than `N`. -/
theorem C8_ciphertext_value {pub : PublicKey} {m : List Byte} {rnd : Nat → Draw Byte}
    {fuel : Nat} {c : List Byte} (hN : 0 < pub.N) (hE : 0 ≤ pub.E)
    (h : EncryptRSA pub m rnd fuel = some (.ok c)) :
    ∃ pos, pos ≤ fuel ∧ (∀ j, j < pos → ∃ b, rnd j = .value b) ∧
      (nonzeroDraws rnd 0 pos).length = keyLen pub.N - m.length - 3 ∧
      (pkcs1Block (nonzeroDraws rnd 0 pos) m).length = keyLen pub.N ∧
      (big.SetBytes c : Int)
        = (big.SetBytes (pkcs1Block (nonzeroDraws rnd 0 pos) m) : Int) ^ pub.E.toNat % pub.N ∧
      (big.SetBytes (pkcs1Block (nonzeroDraws rnd 0 pos) m) : Int) < pub.N := by
  obtain ⟨hlen, hN0, pos, hfuel, hnofail, hps, hc⟩ := EncryptRSA_ok h
  have hblen : (pkcs1Block (nonzeroDraws rnd 0 pos) m).length = keyLen pub.N := by
    rw [length_pkcs1Block, hps]
    omega
  have habs : (pub.N.natAbs : Int) = pub.N := Int.natAbs_of_nonneg (le_of_lt hN)
  refine ⟨pos, hfuel, hnofail, hps, hblen, ?_, ?_⟩
  · rw [hc, SetBytes_leftPad, SetBytes_Bytes, encrypt_eq_pow pub _ hN0 hE]
    rw [Int.natCast_mod, Nat.cast_pow, habs]
  · have hlt := SetBytes_pkcs1Block_lt (nonzeroDraws rnd 0 pos) m pub.N.natAbs
      (by omega) (by rw [keyLen_natAbs]; exact hblen)
    omega

/-- Instance of C8: the ciphertext of the message `68 69` under the public key of `P64`, `Q64`. -/
theorem C8_witness :
    (0 : Int) < 252303011164126931322302004581483143213 ∧ (0 : Int) ≤ 65537 ∧
    EncryptRSA ⟨252303011164126931322302004581483143213, 65537⟩ [0x68, 0x69] rndDemo 20
      = some (.ok [139, 131, 72, 101, 188, 46, 175, 225, 139, 233, 110, 183, 157, 156, 104, 4]) ∧
    ∃ pos, pos ≤ 20 ∧ (∀ j, j < pos → ∃ b, rndDemo j = .value b) ∧
      (nonzeroDraws rndDemo 0 pos).length
        = keyLen 252303011164126931322302004581483143213 - ([0x68, 0x69] : List Byte).length - 3 ∧
      (pkcs1Block (nonzeroDraws rndDemo 0 pos) [0x68, 0x69]).length
        = keyLen 252303011164126931322302004581483143213 ∧
      (big.SetBytes [139, 131, 72, 101, 188, 46, 175, 225, 139, 233, 110, 183, 157, 156, 104, 4] : Int)
        = (big.SetBytes (pkcs1Block (nonzeroDraws rndDemo 0 pos) [0x68, 0x69]) : Int)
            ^ (65537 : Int).toNat % 252303011164126931322302004581483143213 ∧
      (big.SetBytes (pkcs1Block (nonzeroDraws rndDemo 0 pos) [0x68, 0x69]) : Int)
        < 252303011164126931322302004581483143213 :=
  ⟨by decide, by decide, by decide,
    @C8_ciphertext_value ⟨252303011164126931322302004581483143213, 65537⟩ [0x68, 0x69]
      rndDemo 20 [139, 131, 72, 101, 188, 46, 175, 225, 139, 233, 110, 183, 157, 156, 104, 4]
      (by decide) (by decide) (by decide)⟩

/-- C9: in the encryption block `EncryptRSA` builds for an accepted message, the padding region
(indices `2 .. 2+paddingLen-1`) holds no 0x00 byte and is at least 8 bytes long; it consists of
the first `paddingLen` non-zero bytes delivered by the random stream, in order, none of the draws
consumed having failed; index `2+paddingLen` holds 0x00 and is the first 0x00 at an index `≥ 2`
(the position `bytes.IndexByte` finds). -/
theorem C9_padding_region {kl : Nat} {m : List Byte} {rnd : Nat → Draw Byte} {fuel : Nat}
    {eb : List Byte} {pos : Nat} (hlen : m.length + 11 ≤ kl)
    (h : encodingBlock kl m rnd fuel = some (.ok eb, pos)) :
    ∃ PS : List Byte, eb = pkcs1Block PS m ∧ PS.length = kl - m.length - 3 ∧ 8 ≤ PS.length ∧
      (∀ b ∈ PS, b ≠ 0) ∧
      (∀ j, j < pos → ∃ b, rnd j = .value b) ∧
      (∀ n, pos ≤ n → (nonzeroDraws rnd 0 n).take (kl - m.length - 3) = PS) ∧
      (∀ i, 2 ≤ i → i < 2 + (kl - m.length - 3) → ∃ b, eb[i]? = some b ∧ b ≠ 0) ∧
      eb[2 + (kl - m.length - 3)]? = some 0 ∧
      IndexByte (eb.drop 2) 0 + 2 = ((2 + (kl - m.length - 3) : Nat) : Int) := by
  obtain ⟨_, hnofail, hps, heb⟩ := encodingBlock_ok hlen h
  have hnz := nonzeroDraws_ne_zero rnd pos 0
  refine ⟨nonzeroDraws rnd 0 pos, heb, hps, by omega, hnz, hnofail, ?_, ?_, ?_, ?_⟩
  · intro n hn
    obtain ⟨k, rfl⟩ : ∃ k, n = pos + k := ⟨n - pos, by omega⟩
    rw [nonzeroDraws_add, List.take_left' hps]
  · intro i hi1 hi2
    obtain ⟨k, rfl⟩ : ∃ k, i = k + 2 := ⟨i - 2, by omega⟩
    have hk : k < (nonzeroDraws rnd 0 pos).length := by omega
    refine ⟨(nonzeroDraws rnd 0 pos)[k], ?_, hnz _ (List.getElem_mem _)⟩
    rw [heb]
    simp only [pkcs1Block, List.getElem?_cons_succ]
    rw [List.getElem?_append_left hk, List.getElem?_eq_getElem hk]
  · rw [heb, ← hps]
    simp only [pkcs1Block]
    rw [show 2 + (nonzeroDraws rnd 0 pos).length = (nonzeroDraws rnd 0 pos).length + 1 + 1 by omega]
    simp only [List.getElem?_cons_succ]
    rw [List.getElem?_append_right (le_refl _)]
    simp
  · rw [heb, ← hps]
    simp only [pkcs1Block, List.drop_succ_cons, List.drop_zero]
    rw [IndexByte_append 0 _ _ hnz]
    push_cast
    omega

/-- Instance of C9: the block built for the message `68 69 00` and `keyLen = 16`; the zero byte at
draw 0 is skipped. -/
theorem C9_witness :
    ([0x68, 0x69, 0x00] : List Byte).length + 11 ≤ 16 ∧
    encodingBlock 16 [0x68, 0x69, 0x00] rndDemo 20
      = some (.ok [0, 2, 37, 74, 111, 148, 185, 222, 3, 40, 77, 114, 0, 104, 105, 0], 11) ∧
    ∃ PS : List Byte,
      ([0, 2, 37, 74, 111, 148, 185, 222, 3, 40, 77, 114, 0, 104, 105, 0] : List Byte)
        = pkcs1Block PS [0x68, 0x69, 0x00] ∧
      PS.length = 16 - ([0x68, 0x69, 0x00] : List Byte).length - 3 ∧ 8 ≤ PS.length ∧
      (∀ b ∈ PS, b ≠ 0) ∧
      (∀ j, j < 11 → ∃ b, rndDemo j = .value b) ∧
      (∀ n, 11 ≤ n →
        (nonzeroDraws rndDemo 0 n).take (16 - ([0x68, 0x69, 0x00] : List Byte).length - 3) = PS) ∧
      (∀ i, 2 ≤ i → i < 2 + (16 - ([0x68, 0x69, 0x00] : List Byte).length - 3) →
        ∃ b, ([0, 2, 37, 74, 111, 148, 185, 222, 3, 40, 77, 114, 0, 104, 105, 0] :
          List Byte)[i]? = some b ∧ b ≠ 0) ∧
      ([0, 2, 37, 74, 111, 148, 185, 222, 3, 40, 77, 114, 0, 104, 105, 0] :
          List Byte)[2 + (16 - ([0x68, 0x69, 0x00] : List Byte).length - 3)]? = some 0 ∧
      IndexByte (([0, 2, 37, 74, 111, 148, 185, 222, 3, 40, 77, 114, 0, 104, 105, 0] :
          List Byte).drop 2) 0 + 2
        = ((2 + (16 - ([0x68, 0x69, 0x00] : List Byte).length - 3) : Nat) : Int) :=
  ⟨by decide, by decide,
    @C9_padding_region 16 [0x68, 0x69, 0x00] rndDemo 20
      [0, 2, 37, 74, 111, 148, 185, 222, 3, 40, 77, 114, 0, 104, 105, 0] 11
      (by decide) (by decide)⟩

/-- C10: for a key pair of two distinct primes `p`, `q` (`N = p*q`, `D` the inverse of `E`
modulo `(p-1)(q-1)`) and a standard PKCS#1 v1.5 encryption block `0x00 || 0x02 || PS || 0x00 || M`
of `keyLen` bytes with `PS` free of zero bytes and at least 8 bytes long, `DecryptRSA` applied to
the `keyLen`-byte big-endian encoding of `block^E mod N` (the output of a standard encryptor)
returns exactly `M`. -/
theorem C10_decrypts_standard_ciphertext {p q : Nat} (hp : p.Prime) (hq : q.Prime) (hpq : p ≠ q)
    (E D : Nat) (hED : D * E % ((p - 1) * (q - 1)) = 1)
    (PS M : List Byte) (hPS : ∀ b ∈ PS, b ≠ 0) (_h8 : 8 ≤ PS.length)
    (hlen : (pkcs1Block PS M).length = keyLen ((p : Int) * (q : Int))) :
    DecryptRSA ⟨(p : Int) * (q : Int), (D : Int)⟩
      (pkcs1Encrypt (p * q) E (keyLen ((p : Int) * (q : Int))) PS M) = .ok M := by
  have hN : (p : Int) * (q : Int) ≠ 0 := by
    have := hp.pos
    have := hq.pos
    positivity
  have habsN : ((p : Int) * (q : Int)).natAbs = p * q := by
    rw [Int.natAbs_mul, Int.natAbs_ofNat, Int.natAbs_ofNat]
  have hED' : D * E % ((p - 1) * (q - 1)) = 1 % ((p - 1) * (q - 1)) := by
    rw [hED]
    by_cases h1 : (p - 1) * (q - 1) = 1
    · rw [h1, Nat.mod_one] at hED
      omega
    · by_cases h0 : (p - 1) * (q - 1) = 0
      · rw [h0]
      · rw [Nat.mod_eq_of_lt (by omega)]
  have henc : encrypt ⟨(p : Int) * (q : Int), (E : Int)⟩ (SetBytes (pkcs1Block PS M))
      = SetBytes (pkcs1Block PS M) ^ E % (p * q) := by
    rw [encrypt_eq_pow _ _ hN (by simp)]
    simp only [habsN, Int.toNat_ofNat]
  have := DecryptRSA_leftPad_encrypt hp hq hpq E D hED' PS M hPS hlen
  rw [henc] at this
  exact this

/-- Instance of C10: an 8-byte padding string and a 5-byte message with an inner zero byte under
the key pair of `P64`, `Q64`. -/
theorem C10_witness :
    Nat.Prime P64 ∧ Nat.Prime Q64 ∧ P64 ≠ Q64 ∧
    236888493308546660101927446133625257985 * 65537 % ((P64 - 1) * (Q64 - 1)) = 1 ∧
    (∀ b ∈ ([37, 74, 111, 148, 185, 222, 3, 40] : List Byte), b ≠ 0) ∧
    8 ≤ ([37, 74, 111, 148, 185, 222, 3, 40] : List Byte).length ∧
    (pkcs1Block [37, 74, 111, 148, 185, 222, 3, 40] [0x61, 0x00, 0x62, 0x63, 0x64]).length
      = keyLen ((P64 : Int) * (Q64 : Int)) ∧
    DecryptRSA ⟨(P64 : Int) * (Q64 : Int), ((236888493308546660101927446133625257985 : Nat) : Int)⟩
      (pkcs1Encrypt (P64 * Q64) 65537 (keyLen ((P64 : Int) * (Q64 : Int)))
        [37, 74, 111, 148, 185, 222, 3, 40] [0x61, 0x00, 0x62, 0x63, 0x64])
      = .ok [0x61, 0x00, 0x62, 0x63, 0x64] :=
  ⟨P64_prime, Q64_prime, by decide, by decide, by decide, by decide, by decide,
    C10_decrypts_standard_ciphertext P64_prime Q64_prime (by decide) 65537
      236888493308546660101927446133625257985 (by decide)
      [37, 74, 111, 148, 185, 222, 3, 40] [0x61, 0x00, 0x62, 0x63, 0x64]
      (by decide) (by decide) (by decide)⟩

/-! ### The unpadding, by cases -/

theorem unpad_cons_cons (m0 m1 : Byte) (tail : List Byte) :
    unpad (m0 :: m1 :: tail) =
      if m0 ≠ 0x00 ∨ m1 ≠ 0x02 then .error (.paddingSignature m0 m1)
      else if IndexByte tail 0x00 + 2 < 2 then .error .noTerminator
      else .ok ((m0 :: m1 :: tail).drop (IndexByte tail 0x00 + 2 + 1).toNat) := by
  unfold unpad
  simp only [List.getElem?_cons_zero, List.getElem?_cons_succ, List.drop_succ_cons,
    List.drop_zero]

theorem unpad_short (m : List Byte) (h : m.length < 2) : unpad m = .panic .indexOutOfRange := by
  match m, h with
  | [], _ => rfl
  | [_], _ => rfl

/-- A list that contains `c` splits at the first occurrence of `c`. -/
theorem exists_first_occurrence (c : Byte) : ∀ (l : List Byte), c ∈ l →
    ∃ ps rest, l = ps ++ c :: rest ∧ ∀ b ∈ ps, b ≠ c
  | [], h => by simp at h
  | x :: l, h => by
    by_cases hx : x = c
    · exact ⟨[], l, by simp [hx], by simp⟩
    · have hmem : c ∈ l := by
        rcases List.mem_cons.1 h with h1 | h1
        · exact absurd h1.symm hx
        · exact h1
      obtain ⟨ps, rest, hl, hps⟩ := exists_first_occurrence c l hmem
      refine ⟨x :: ps, rest, by simp [hl], ?_⟩
      intro b hb
      rcases List.mem_cons.1 hb with h1 | h1
      · rw [h1]; exact hx
      · exact hps b h1

/-- The block of `DecryptRSA` has `keyLen` bytes. -/
theorem length_decrypted_block (priv : PrivateKey) (x : Nat) (hN : priv.N ≠ 0) :
    (leftPad (keyLen priv.N) (Bytes (decrypt priv x : Int))).length = keyLen priv.N :=
  length_leftPad _ _ (length_Bytes_le_keyLen priv.N _ (decrypt_lt priv x hN))

theorem keyLen_zero : keyLen 0 = 0 := by decide

/-- With a zero modulus `decrypt` yields 0 or 1. -/
theorem decrypt_zero_modulus_le (D : Int) : decrypt ⟨0, D⟩ 0 ≤ 1 := by
  unfold decrypt Exp
  by_cases hD : D < 0
  · simp [hD]
  · simp only [hD, if_false, if_true, Option.getD_some]
    by_cases h0 : D.toNat = 0
    · rw [h0]; simp
    · rw [zero_pow h0]; omega

/-- A block with a two-byte prefix forces a non-zero modulus. -/
theorem ne_zero_of_block_prefix (priv : PrivateKey) (c : List Byte)
    (hc : c.length = keyLen priv.N) {b : Byte}
    (h1 : (leftPad (keyLen priv.N) (Bytes (decrypt priv (SetBytes c) : Int)))[1]? = some b) :
    priv.N ≠ 0 := by
  intro hN
  obtain ⟨N, D⟩ := priv
  simp only at hN hc h1
  subst hN
  rw [keyLen_zero] at hc h1
  have hnil : c = [] := List.length_eq_zero.1 hc
  subst hnil
  have hle : (Bytes (decrypt ⟨0, D⟩ (SetBytes []) : Int)).length ≤ 1 := by
    apply length_Bytes_le
    have := decrypt_zero_modulus_le D
    rw [SetBytes_nil]
    omega
  have hlen : (leftPad 0 (Bytes (decrypt ⟨0, D⟩ (SetBytes []) : Int))).length ≤ 1 := by
    simpa [leftPad] using hle
  have := List.getElem?_eq_none (l := leftPad 0 (Bytes (decrypt ⟨0, D⟩ (SetBytes []) : Int)))
    (n := 1) (by omega)
  rw [this] at h1
  exact Option.noConfusion h1

/-! ### The loop of `GenerateKeys`, attempt by attempt -/

theorem accepts_eq_true_iff (L : Int) (p q : Nat) :
    accepts L p q = true ↔ (big.BitLen ((p : Int) * (q : Int)) : Int) = L ∧
      ∃ d, big.ModInverse 65537 (((p : Int) - 1) * ((q : Int) - 1)) = some d := by
  simp [accepts, Option.isSome_iff_exists]

theorem accepts_eq_false_iff (L : Int) (p q : Nat) :
    accepts L p q = false ↔ (big.BitLen ((p : Int) * (q : Int)) : Int) ≠ L ∨
      big.ModInverse 65537 (((p : Int) - 1) * ((q : Int) - 1)) = none := by
  rw [← Bool.not_eq_true, accepts_eq_true_iff]
  constructor
  · intro h
    by_cases hb : (big.BitLen ((p : Int) * (q : Int)) : Int) = L
    · right
      cases hd : big.ModInverse 65537 (((p : Int) - 1) * ((q : Int) - 1)) with
      | none => rfl
      | some d => exact absurd ⟨hb, d, hd⟩ h
    · left; exact hb
  · rintro (h | h) ⟨hb, d, hd⟩
    · exact h hb
    · rw [h] at hd; exact Option.noConfusion hd

/-- One iteration of the loop in terms of the two draws. -/
theorem GenerateKeysLoop_step (L : Int) (src : Nat → Draw Nat) (fuel numRetries pos : Nat)
    (hn : numRetries + 1 ≠ 10) :
    GenerateKeysLoop L src (fuel + 1) numRetries pos =
      if L.tdiv 2 < 2 then some (.error .primeSize, pos)
      else
        match src pos with
        | .fail code => some (.error (.source code), pos + 1)
        | .value p =>
          match src (pos + 1) with
          | .fail code => some (.error (.source code), pos + 2)
          | .value q =>
            if accepts L p q = true then some (.ok (keyPairOf p q), pos + 2)
            else GenerateKeysLoop L src fuel (numRetries + 1) (pos + 2) := by
  rw [GenerateKeysLoop_succ, if_neg hn]
  unfold randPrime
  by_cases hb : L.tdiv 2 < 2
  · simp only [if_pos hb]
  · simp only [if_neg hb]
    cases hp : src pos with
    | fail code => rfl
    | value p =>
      simp only
      cases hq : src (pos + 1) with
      | fail code => rfl
      | value q =>
        simp only
        by_cases hbl : (big.BitLen ((p : Int) * (q : Int)) : Int) = L
        · cases hd : big.ModInverse 65537 (((p : Int) - 1) * ((q : Int) - 1)) with
          | none =>
            have : accepts L p q = false := (accepts_eq_false_iff L p q).2 (Or.inr hd)
            simp [this, hbl]
          | some d =>
            have : accepts L p q = true := (accepts_eq_true_iff L p q).2 ⟨hbl, d, hd⟩
            simp [this, hbl, keyPairOf, hd]
        · have : accepts L p q = false := (accepts_eq_false_iff L p q).2 (Or.inl hbl)
          simp [this, hbl]

theorem GenerateKeysLoop_tenth (L : Int) (src : Nat → Draw Nat) (fuel pos : Nat) :
    GenerateKeysLoop L src (fuel + 1) 9 pos = some (.panic .retriedTooManyTimes, pos) := by
  rw [GenerateKeysLoop_succ, if_pos rfl]

/-- After `k ≤ 9` rejected attempts the loop stands at iteration `k` with `2k` primes drawn. -/
theorem GenerateKeysLoop_skip (L : Int) (src : Nat → Draw Nat) (hbits : 2 ≤ L.tdiv 2) :
    ∀ k, k ≤ 9 →
    (∀ j, j < k → ∃ p q, src (2 * j) = .value p ∧ src (2 * j + 1) = .value q ∧
      accepts L p q = false) →
    GenerateKeys L src = GenerateKeysLoop L src (10 - k) k (2 * k)
  | 0, _, _ => rfl
  | k + 1, hk, hrej => by
    rw [GenerateKeysLoop_skip L src hbits k (by omega) (fun j hj => hrej j (by omega))]
    obtain ⟨p, q, hp, hq, hacc⟩ := hrej k (by omega)
    have e : 10 - k = (10 - (k + 1)) + 1 := by omega
    rw [e, GenerateKeysLoop_step L src _ k _ (by omega), if_neg (by omega), hp]
    simp only
    rw [hq]
    simp only [hacc]
    rfl

/-- Nine rejected attempts end in the panic, with 18 primes drawn. -/
theorem GenerateKeys_exhausted (L : Int) (src : Nat → Draw Nat) (hbits : 2 ≤ L.tdiv 2)
    (hrej : ∀ j, j < 9 → ∃ p q, src (2 * j) = .value p ∧ src (2 * j + 1) = .value q ∧
      accepts L p q = false) :
    GenerateKeys L src = some (.panic .retriedTooManyTimes, 18) := by
  rw [GenerateKeysLoop_skip L src hbits 9 le_rfl hrej]
  exact GenerateKeysLoop_tenth L src 0 18

/-- The first accepted attempt among the first nine yields the key pair. -/
theorem GenerateKeys_first_accepted (L : Int) (src : Nat → Draw Nat) (hbits : 2 ≤ L.tdiv 2)
    (k : Nat) (hk : k < 9)
    (hrej : ∀ j, j < k → ∃ p q, src (2 * j) = .value p ∧ src (2 * j + 1) = .value q ∧
      accepts L p q = false)
    {p q : Nat} (hp : src (2 * k) = .value p) (hq : src (2 * k + 1) = .value q)
    (hacc : accepts L p q = true) :
    GenerateKeys L src = some (.ok (keyPairOf p q), 2 * (k + 1)) := by
  rw [GenerateKeysLoop_skip L src hbits k (by omega) hrej]
  have e : 10 - k = (10 - (k + 1)) + 1 := by omega
  rw [e, GenerateKeysLoop_step L src _ k _ (by omega), if_neg (by omega), hp]
  simp only
  rw [hq]
  simp only [hacc, if_true]
  rfl

/-- What every run of the loop satisfies: it draws at most two primes per remaining iteration,
every draw but the last one consumed succeeded, and a failed last draw is the error returned. -/
theorem GenerateKeysLoop_run (L : Int) (src : Nat → Draw Nat) :
    ∀ (fuel numRetries pos : Nat) (r : Res (PublicKey × PrivateKey)) (pos' : Nat),
    numRetries ≤ 9 → GenerateKeysLoop L src fuel numRetries pos = some (r, pos') →
    pos ≤ pos' ∧ pos' + 2 * numRetries ≤ pos + 18 ∧
      (∀ j, pos ≤ j → j + 1 < pos' → ∃ v, src j = .value v) ∧
      (∀ code, pos < pos' → src (pos' - 1) = .fail code → r = .error (.source code)) ∧
      (∀ e, r = .error e → (e = .primeSize ∧ L.tdiv 2 < 2 ∧ pos' = pos) ∨
        ∃ code, e = .source code ∧ pos < pos' ∧ src (pos' - 1) = .fail code)
  | 0, _, _, _, _, _, h => by simp [GenerateKeysLoop] at h
  | fuel + 1, numRetries, pos, r, pos', hn, h => by
    by_cases h10 : numRetries + 1 = 10
    · have h9 : numRetries = 9 := by omega
      subst h9
      rw [GenerateKeysLoop_tenth] at h
      simp only [Option.some.injEq, Prod.mk.injEq] at h
      obtain ⟨rfl, rfl⟩ := h
      exact ⟨le_rfl, by omega, fun j h1 h2 => by omega, fun code h1 => by omega,
        fun e he => Res.noConfusion he⟩
    · rw [GenerateKeysLoop_step L src fuel numRetries pos h10] at h
      by_cases hb : L.tdiv 2 < 2
      · rw [if_pos hb] at h
        simp only [Option.some.injEq, Prod.mk.injEq] at h
        obtain ⟨rfl, rfl⟩ := h
        refine ⟨le_rfl, by omega, fun j h1 h2 => by omega, fun code h1 => by omega, ?_⟩
        intro e he
        left
        simp only [Res.error.injEq] at he
        exact ⟨he.symm, hb, rfl⟩
      · rw [if_neg hb] at h
        cases hp : src pos with
        | fail code =>
          rw [hp] at h
          simp only [Option.some.injEq, Prod.mk.injEq] at h
          obtain ⟨rfl, rfl⟩ := h
          refine ⟨by omega, by omega, fun j h1 h2 => by omega, ?_, ?_⟩
          · intro code' _ hc
            simp only [Nat.add_sub_cancel] at hc
            rw [hp] at hc
            simp only [Draw.fail.injEq] at hc
            rw [hc]
          · intro e he
            right
            simp only [Res.error.injEq] at he
            exact ⟨code, he.symm, by omega, by simpa using hp⟩
        | value p =>
          rw [hp] at h
          simp only at h
          cases hq : src (pos + 1) with
          | fail code =>
            rw [hq] at h
            simp only [Option.some.injEq, Prod.mk.injEq] at h
            obtain ⟨rfl, rfl⟩ := h
            refine ⟨by omega, by omega, ?_, ?_, ?_⟩
            · intro j h1 h2
              have : j = pos := by omega
              exact ⟨p, this ▸ hp⟩
            · intro code' _ hc
              rw [show pos + 2 - 1 = pos + 1 by omega, hq] at hc
              simp only [Draw.fail.injEq] at hc
              rw [hc]
            · intro e he
              right
              simp only [Res.error.injEq] at he
              exact ⟨code, he.symm, by omega, by rw [show pos + 2 - 1 = pos + 1 by omega]; exact hq⟩
          | value q =>
            rw [hq] at h
            simp only at h
            by_cases hacc : accepts L p q = true
            · rw [if_pos hacc] at h
              simp only [Option.some.injEq, Prod.mk.injEq] at h
              obtain ⟨rfl, rfl⟩ := h
              refine ⟨by omega, by omega, ?_, ?_, fun e he => Res.noConfusion he⟩
              · intro j h1 h2
                by_cases hj : j = pos
                · exact ⟨p, hj ▸ hp⟩
                · have : j = pos + 1 := by omega
                  exact ⟨q, this ▸ hq⟩
              · intro code _ hc
                rw [show pos + 2 - 1 = pos + 1 by omega, hq] at hc
                exact Draw.noConfusion hc
            · rw [if_neg hacc] at h
              obtain ⟨h1, h2, h3, h4, h5⟩ :=
                GenerateKeysLoop_run L src fuel (numRetries + 1) (pos + 2) r pos' (by omega) h
              refine ⟨by omega, by omega, ?_, ?_, ?_⟩
              · intro j hj1 hj2
                by_cases hj : j = pos
                · exact ⟨p, hj ▸ hp⟩
                · by_cases hj' : j = pos + 1
                  · exact ⟨q, hj' ▸ hq⟩
                  · exact h3 j (by omega) hj2
              · intro code hlt hc
                by_cases hgt : pos + 2 < pos'
                · exact h4 code hgt hc
                · have : pos' = pos + 2 := by omega
                  rw [this, show pos + 2 - 1 = pos + 1 by omega, hq] at hc
                  exact Draw.noConfusion hc
              · intro e he
                rcases h5 e he with ⟨h6, h7, h8⟩ | ⟨code, h6, h7, h8⟩
                · exact absurd h7 hb
                · right
                  exact ⟨code, h6, by omega, h8⟩

/-! ### Failing draws -/

/-- The padding loop returns the error of a failed draw as soon as it reaches it. -/
theorem fillPadding_fails (rnd : Nat → Draw Byte) (stop : Nat) {code : Nat} :
    ∀ (fuel : Nat) (eb : List Byte) (i pos k : Nat),
    (∀ j, pos ≤ j → j < pos + k → ∃ b, rnd j = .value b) → rnd (pos + k) = .fail code →
    (nonzeroDraws rnd pos k).length < stop - i → k < fuel →
    fillPadding rnd stop fuel eb i pos = some (.error (.source code), pos + k + 1)
  | 0, _, _, _, _, _, _, _, hf => by omega
  | fuel + 1, eb, i, pos, k, hok, hfail, hnz, hf => by
    unfold fillPadding
    rw [if_pos (by omega)]
    cases k with
    | zero =>
      rw [Nat.add_zero] at hfail
      rw [hfail]
    | succ k =>
      obtain ⟨b, hb⟩ := hok pos le_rfl (by omega)
      rw [nonzeroDraws_succ, hb] at hnz
      rw [hb]
      simp only at hnz ⊢
      have hok' : ∀ j, pos + 1 ≤ j → j < pos + 1 + k → ∃ b, rnd j = .value b :=
        fun j h1 h2 => hok j (by omega) (by omega)
      have hfail' : rnd (pos + 1 + k) = .fail code := by
        rw [show pos + 1 + k = pos + (k + 1) by omega]; exact hfail
      have e : pos + (k + 1) + 1 = pos + 1 + k + 1 := by omega
      by_cases hb0 : b ≠ 0
      · rw [if_pos hb0] at hnz ⊢
        rw [e]
        exact fillPadding_fails rnd stop fuel _ _ _ k hok' hfail'
          (by simp only [List.length_cons] at hnz; omega) (by omega)
      · rw [if_neg hb0] at hnz ⊢
        rw [e]
        exact fillPadding_fails rnd stop fuel _ _ _ k hok' hfail' hnz (by omega)

/-- On every run of the block construction a failed draw is the last draw consumed and its
error is the result. -/
theorem encodingBlock_fail_last {kl : Nat} {m : List Byte} {rnd : Nat → Draw Byte} {fuel : Nat}
    {r : Res (List Byte)} {pos : Nat} (h : encodingBlock kl m rnd fuel = some (r, pos))
    (hlen : m.length + 11 ≤ kl) {i code : Nat} (hi : i < pos) (hf : rnd i = .fail code) :
    r = .error (.source code) ∧ pos = i + 1 := by
  cases r with
  | ok eb =>
    obtain ⟨_, hnofail, _⟩ := encodingBlock_ok hlen h
    obtain ⟨b, hb⟩ := hnofail i hi
    rw [hb] at hf
    exact Draw.noConfusion hf
  | error e =>
    obtain ⟨code', h1, h2, h3, h4⟩ := encodingBlock_not_ok h (by simp)
    by_cases hlast : i = pos - 1
    · rw [← hlast, hf] at h3
      simp only [Draw.fail.injEq] at h3
      rw [h1, h3]
      exact ⟨rfl, by omega⟩
    · obtain ⟨b, hb⟩ := h4 i (by omega)
      rw [hb] at hf
      exact Draw.noConfusion hf
  | panic p =>
    obtain ⟨code', h1, _⟩ := encodingBlock_not_ok h (by simp)
    exact Res.noConfusion h1

/-- The error of the block construction is the error of `EncryptRSA`. -/
theorem EncryptRSA_of_encodingBlock_error {pub : PublicKey} {m : List Byte}
    {rnd : Nat → Draw Byte} {fuel : Nat} {e : Error} {pos : Nat}
    (hlen : m.length + 11 ≤ keyLen pub.N)
    (h : encodingBlock (keyLen pub.N) m rnd fuel = some (.error e, pos)) :
    EncryptRSA pub m rnd fuel = some (.error e) := by
  unfold keyLen at h hlen
  unfold EncryptRSA
  simp only
  rw [if_neg (by omega), h]

/-- With a failure at draw `i`, reached before the padding is complete, `EncryptRSA` returns the
error of that draw. -/
theorem EncryptRSA_draw_fails (pub : PublicKey) (m : List Byte) (rnd : Nat → Draw Byte)
    (fuel : Nat) {i code : Nat} (hlen : m.length + 11 ≤ keyLen pub.N)
    (hok : ∀ j, j < i → ∃ b, rnd j = .value b) (hf : rnd i = .fail code)
    (hnz : (nonzeroDraws rnd 0 i).length < keyLen pub.N - m.length - 3) (hfuel : i < fuel) :
    EncryptRSA pub m rnd fuel = some (.error (.source code)) := by
  have hfp := @fillPadding_fails rnd (2 + (keyLen pub.N - m.length - 3)) code fuel
    (((List.replicate (keyLen pub.N) (0 : Byte)).set 0 0x00).set 1 0x02) 2 0 i
    (fun j _ h2 => hok j (by omega)) (by simpa using hf) (by omega) hfuel
  apply @EncryptRSA_of_encodingBlock_error pub m rnd fuel (.source code) (0 + i + 1) hlen
  unfold encodingBlock
  simp only
  rw [hfp]

/-- A failure of the first draw of attempt `k`. -/
theorem GenerateKeys_first_draw_fails (L : Int) (src : Nat → Draw Nat) (hbits : 2 ≤ L.tdiv 2)
    (k : Nat) (hk : k < 9)
    (hrej : ∀ j, j < k → ∃ p q, src (2 * j) = .value p ∧ src (2 * j + 1) = .value q ∧
      accepts L p q = false)
    {code : Nat} (hf : src (2 * k) = .fail code) :
    GenerateKeys L src = some (.error (.source code), 2 * k + 1) := by
  rw [GenerateKeysLoop_skip L src hbits k (by omega) hrej]
  have e : 10 - k = (10 - (k + 1)) + 1 := by omega
  rw [e, GenerateKeysLoop_step L src _ k _ (by omega), if_neg (by omega), hf]

/-- A failure of the second draw of attempt `k`. -/
theorem GenerateKeys_second_draw_fails (L : Int) (src : Nat → Draw Nat) (hbits : 2 ≤ L.tdiv 2)
    (k : Nat) (hk : k < 9)
    (hrej : ∀ j, j < k → ∃ p q, src (2 * j) = .value p ∧ src (2 * j + 1) = .value q ∧
      accepts L p q = false)
    {p code : Nat} (hp : src (2 * k) = .value p) (hf : src (2 * k + 1) = .fail code) :
    GenerateKeys L src = some (.error (.source code), 2 * k + 2) := by
  rw [GenerateKeysLoop_skip L src hbits k (by omega) hrej]
  have e : 10 - k = (10 - (k + 1)) + 1 := by omega
  rw [e, GenerateKeysLoop_step L src _ k _ (by omega), if_neg (by omega), hp]
  simp only
  rw [hf]

theorem BitLen_le_of_lt_two_pow (n k : Nat) (h : n < 2 ^ k) : big.BitLen (n : Int) ≤ k := by
  by_cases hn : n = 0
  · subst hn
    simp [BitLen, bitLenAux]
  · have h1 := two_pow_BitLen_le n hn
    by_contra hgt
    have : 2 ^ k ≤ 2 ^ (big.BitLen (n : Int) - 1) := Nat.pow_le_pow_right (by decide) (by omega)
    omega

/-! ### Totality of `DecryptRSA` -/

theorem unpad_no_panic (m : List Byte) (h : 2 ≤ m.length) (p : Panic) : unpad m ≠ .panic p := by
  match m, h with
  | a :: b :: tail, _ =>
    rw [unpad_cons_cons]
    split
    · exact fun h => Res.noConfusion h
    · split <;> exact fun h => Res.noConfusion h

theorem keyLen_eq_zero_iff (N : Int) : keyLen N = 0 ↔ N = 0 := by
  constructor
  · intro h
    by_contra hN
    have h1 : N.natAbs ≠ 0 := fun h0 => hN (Int.natAbs_eq_zero.1 h0)
    have h2 : big.BitLen (N.natAbs : Int) ≠ 0 := fun h0 => h1 ((BitLen_eq_zero_iff _).1 h0)
    rw [BitLen_natAbs] at h2
    unfold keyLen at h
    omega
  · rintro rfl
    rfl

theorem two_le_keyLen_of_ge {N : Int} (h : 256 ≤ N) : 2 ≤ keyLen N := by
  have h1 := lt_two_pow_BitLen N.natAbs
  rw [BitLen_natAbs] at h1
  have h2 : 256 ≤ N.natAbs := by omega
  have h3 : 9 ≤ big.BitLen N := by
    by_contra hlt
    have : 2 ^ big.BitLen N ≤ 2 ^ 8 := Nat.pow_le_pow_right (by decide) (by omega)
    omega
  unfold keyLen
  omega

theorem keyLen_eq_one_of_lt {N : Int} (h1 : 1 ≤ N) (h2 : N < 256) : keyLen N = 1 := by
  have h3 : N.natAbs < 2 ^ 8 := by omega
  have h4 := BitLen_le_of_lt_two_pow N.natAbs 8 h3
  rw [BitLen_natAbs] at h4
  have h5 : keyLen N ≠ 0 := fun h0 => by
    have := (keyLen_eq_zero_iff N).1 h0
    omega
  unfold keyLen at h5 ⊢
  omega

/-- With `keyLen ≥ 2` no call of `DecryptRSA` panics. -/
theorem DecryptRSA_no_panic (priv : PrivateKey) (hk : 2 ≤ keyLen priv.N) (c : List Byte)
    (p : Panic) : DecryptRSA priv c ≠ .panic p := by
  by_cases hc : c.length = keyLen priv.N
  · have hN : priv.N ≠ 0 := keyLen_pos_ne_zero (by omega)
    rw [DecryptRSA_eq_unpad priv c hN hc]
    apply unpad_no_panic
    rw [length_decrypted_block priv _ hN]
    exact hk
  · have : DecryptRSA priv c = .error (.lengthMismatch c.length (keyLen priv.N)) := by
      unfold DecryptRSA
      unfold keyLen at hc
      simp only
      rw [if_pos hc]
      rfl
    rw [this]
    exact fun h => Res.noConfusion h

/-- With `keyLen < 2` every ciphertext of the right length makes `DecryptRSA` panic. -/
theorem DecryptRSA_panics (priv : PrivateKey) (hk : keyLen priv.N < 2) (c : List Byte)
    (hc : c.length = keyLen priv.N) : ∃ p, DecryptRSA priv c = .panic p := by
  by_cases h0 : keyLen priv.N = 0
  · have hN := (keyLen_eq_zero_iff priv.N).1 h0
    obtain ⟨N, D⟩ := priv
    simp only at hN hc h0
    subst hN
    have hnil : c = [] := List.length_eq_zero.1 (by rw [hc, keyLen_zero])
    subst hnil
    have hle : (Bytes (decrypt ⟨0, D⟩ (SetBytes []) : Int)).length ≤ 1 := by
      apply length_Bytes_le
      have := decrypt_zero_modulus_le D
      rw [SetBytes_nil]
      omega
    unfold DecryptRSA
    have hkl : (big.BitLen (0 : Int) + 7) / 8 = 0 := by decide
    simp only [hkl, List.length_nil, ne_eq, not_true_eq_false, if_false]
    by_cases hlen : 0 < (Bytes (decrypt ⟨0, D⟩ (SetBytes []) : Int)).length
    · rw [if_pos hlen]
      exact ⟨_, rfl⟩
    · rw [if_neg hlen]
      have hmb : Bytes (decrypt ⟨0, D⟩ (SetBytes []) : Int) = [] :=
        List.length_eq_zero.1 (by omega)
      rw [hmb]
      exact ⟨_, rfl⟩
  · have hN : priv.N ≠ 0 := fun h => h0 ((keyLen_eq_zero_iff priv.N).2 h)
    rw [DecryptRSA_eq_unpad priv c hN hc]
    exact ⟨_, unpad_short _ (by rw [length_decrypted_block priv _ hN]; exact hk)⟩

/-! ### Congruent ciphertexts -/

theorem ModInverse_congr (g1 g2 : Nat) (n : Int) (hn : 2 ≤ n.natAbs)
    (h : g1 % n.natAbs = g2 % n.natAbs) : ModInverse g1 n = ModInverse g2 n := by
  have hn0 : n ≠ 0 := by
    rintro rfl
    simp at hn
  have hgcd : Nat.gcd g1 n.natAbs = Nat.gcd g2 n.natAbs := by
    rw [Nat.gcd_comm g1, Nat.gcd_comm g2, Nat.gcd_rec n.natAbs g1, Nat.gcd_rec n.natAbs g2, h]
  cases h1 : ModInverse g1 n with
  | none =>
    have := (ModInverse_eq_none_iff g1 n).1 h1
    rw [hgcd] at this
    exact ((ModInverse_eq_none_iff g2 n).2 this).symm
  | some d1 =>
    cases h2 : ModInverse g2 n with
    | none =>
      have := (ModInverse_eq_none_iff g2 n).1 h2
      rw [← hgcd, ModInverse_gcd h1] at this
      exact absurd rfl this
    | some d2 =>
      have m1 : d1 * g1 ≡ 1 [MOD n.natAbs] := ModInverse_mul h1
      have m2 : d2 * g2 ≡ 1 [MOD n.natAbs] := ModInverse_mul h2
      have hg : g1 ≡ g2 [MOD n.natAbs] := h
      have e1 : d1 * (d2 * g2) ≡ d1 * 1 [MOD n.natAbs] := Nat.ModEq.mul_left d1 m2
      have e2 : d2 * (d1 * g1) ≡ d2 * 1 [MOD n.natAbs] := Nat.ModEq.mul_left d2 m1
      have e3 : d2 * (d1 * g1) ≡ d2 * (d1 * g2) [MOD n.natAbs] :=
        Nat.ModEq.mul_left d2 (Nat.ModEq.mul_left d1 hg)
      have e4 : d1 * (d2 * g2) = d2 * (d1 * g2) := by ring
      have hd : d1 ≡ d2 [MOD n.natAbs] := by
        have a1 : d1 ≡ d2 * (d1 * g2) [MOD n.natAbs] := by
          rw [← e4]
          simpa using e1.symm
        have a2 : d2 * (d1 * g2) ≡ d2 [MOD n.natAbs] := by
          simpa using e3.symm.trans e2
        exact a1.trans a2
      have := Nat.ModEq.eq_of_lt_of_lt hd (ModInverse_lt h1 hn0) (ModInverse_lt h2 hn0)
      rw [this]

/-- The raw decryption depends on the ciphertext number only through its residue modulo `N`. -/
theorem decrypt_congr (priv : PrivateKey) (hn : 2 ≤ priv.N.natAbs) (x y : Nat)
    (h : x % priv.N.natAbs = y % priv.N.natAbs) : decrypt priv x = decrypt priv y := by
  have hn0 : priv.N ≠ 0 := by
    intro h0
    rw [h0] at hn
    simp at hn
  unfold decrypt Exp
  by_cases hD : priv.D < 0
  · rw [if_pos hD, if_pos hD, if_neg hn0, if_neg hn0, ModInverse_congr x y priv.N hn h]
  · rw [if_neg hD, if_neg hD, if_neg hn0, if_neg hn0, powMod_eq, powMod_eq,
      Nat.pow_mod x, Nat.pow_mod y, h]

/-- Two zero-free prefixes in front of a zero byte have the same length. -/
theorem length_eq_of_pkcs1Block_eq {PS1 PS2 M1 M2 : List Byte} (h1 : ∀ b ∈ PS1, b ≠ 0)
    (h2 : ∀ b ∈ PS2, b ≠ 0) (h : pkcs1Block PS1 M1 = pkcs1Block PS2 M2) :
    PS1.length = PS2.length := by
  have e : PS1 ++ 0 :: M1 = PS2 ++ 0 :: M2 := by
    simpa [pkcs1Block] using h
  have i1 := IndexByte_append 0 PS1 M1 h1
  have i2 := IndexByte_append 0 PS2 M2 h2
  rw [e, i2] at i1
  exact_mod_cast i1.symm

/-! ## The claims C11 - C20 -/

/-- C11: for every private key and every ciphertext `c` with `len(c) ≠ keyLen`, `DecryptRSA`
returns the length-mismatch error and no message; the result is fixed by `len(c)` and `N` alone
(it is the same for every exponent `D`: the exponentiation plays no part in it); in particular
a ciphertext of the right length with one more leading zero byte is rejected. -/
theorem C11_length_mismatch (priv : PrivateKey) (c : List Byte)
    (h : c.length ≠ keyLen priv.N) :
    DecryptRSA priv c = .error (.lengthMismatch c.length (keyLen priv.N)) ∧
    (∀ m, DecryptRSA priv c ≠ .ok m) ∧
    (∀ D : Int, DecryptRSA ⟨priv.N, D⟩ c = DecryptRSA priv c) ∧
    (∀ c0 : List Byte, c0.length = keyLen priv.N →
      DecryptRSA priv (0x00 :: c0)
        = .error (.lengthMismatch (keyLen priv.N + 1) (keyLen priv.N))) := by
  have key : ∀ (pk : PrivateKey) (x : List Byte), x.length ≠ keyLen pk.N →
      DecryptRSA pk x = .error (.lengthMismatch x.length (keyLen pk.N)) := by
    intro pk x hx
    unfold DecryptRSA
    unfold keyLen at hx
    simp only
    rw [if_pos hx]
    rfl
  refine ⟨key priv c h, ?_, ?_, ?_⟩
  · intro m hm
    rw [key priv c h] at hm
    exact Res.noConfusion hm
  · intro D
    rw [key priv c h, key ⟨priv.N, D⟩ c h]
  · intro c0 hc0
    have := key priv (0x00 :: c0) (by simp [hc0])
    rw [this, List.length_cons, hc0]

/-- Instance of C11: under the 128-bit modulus of `P64`, `Q64` (`keyLen = 16`) a 17-byte
ciphertext is rejected. -/
theorem C11_witness :
    ([0, 170, 191, 220, 192, 192, 147, 60, 127, 41, 248, 26, 147, 77, 217, 172, 23] :
      List Byte).length ≠ keyLen 252303011164126931322302004581483143213 ∧
    DecryptRSA ⟨252303011164126931322302004581483143213,
        236888493308546660101927446133625257985⟩
      [0, 170, 191, 220, 192, 192, 147, 60, 127, 41, 248, 26, 147, 77, 217, 172, 23]
      = .error (.lengthMismatch 17 16) :=
  ⟨by decide, (C11_length_mismatch ⟨252303011164126931322302004581483143213,
        236888493308546660101927446133625257985⟩
      [0, 170, 191, 220, 192, 192, 147, 60, 127, 41, 248, 26, 147, 77, 217, 172, 23]
      (by decide)).1⟩

/-- C12: for every private key with `keyLen ≥ 2` and every ciphertext of length `keyLen`, the
decrypted block (the `keyLen`-byte left-zero-padded encoding of `c^D mod N`) has `keyLen` bytes,
and if its first two bytes `m0`, `m1` are not 0x00, 0x02 (in particular if `m0` is non-zero)
`DecryptRSA` returns the padding-signature error and no message. -/
theorem C12_padding_signature (priv : PrivateKey) (c : List Byte)
    (hk : 2 ≤ keyLen priv.N) (hc : c.length = keyLen priv.N) :
    (0 ≤ priv.D →
      decrypt priv (big.SetBytes c) = big.SetBytes c ^ priv.D.toNat % priv.N.natAbs) ∧
    (leftPad (keyLen priv.N) (big.Bytes (decrypt priv (big.SetBytes c) : Int))).length
      = keyLen priv.N ∧
    ∀ m0 m1 : Byte,
      (leftPad (keyLen priv.N) (big.Bytes (decrypt priv (big.SetBytes c) : Int)))[0]? = some m0 →
      (leftPad (keyLen priv.N) (big.Bytes (decrypt priv (big.SetBytes c) : Int)))[1]? = some m1 →
      (m0 ≠ 0x00 ∨ m1 ≠ 0x02) →
      DecryptRSA priv c = .error (.paddingSignature m0 m1) ∧ ∀ m, DecryptRSA priv c ≠ .ok m := by
  have hN : priv.N ≠ 0 := keyLen_pos_ne_zero (by omega)
  have hlen := length_decrypted_block priv (SetBytes c) hN
  refine ⟨fun hD => decrypt_eq_pow priv _ hN hD, hlen, ?_⟩
  intro m0 m1 h0 h1 hbad
  rw [DecryptRSA_eq_unpad priv c hN hc]
  generalize leftPad (keyLen priv.N) (Bytes (decrypt priv (SetBytes c) : Int)) = blk at h0 h1 hlen
  match blk, h0, h1 with
  | a :: b :: tail, h0, h1 =>
    simp only [List.getElem?_cons_zero, List.getElem?_cons_succ, Option.some.injEq] at h0 h1
    subst h0 h1
    rw [unpad_cons_cons, if_pos hbad]
    exact ⟨rfl, fun m hm => Res.noConfusion hm⟩

/-- Instance of C12: a valid ciphertext with its last byte changed decrypts to a block that
starts with 25, 106. -/
theorem C12_witness :
    2 ≤ keyLen 252303011164126931322302004581483143213 ∧
    ([170, 191, 220, 192, 192, 147, 60, 127, 41, 248, 26, 147, 77, 217, 172, 24] :
      List Byte).length = keyLen 252303011164126931322302004581483143213 ∧
    (leftPad (keyLen 252303011164126931322302004581483143213)
      (big.Bytes (decrypt ⟨252303011164126931322302004581483143213,
          236888493308546660101927446133625257985⟩
        (big.SetBytes [170, 191, 220, 192, 192, 147, 60, 127, 41, 248, 26, 147, 77, 217,
          172, 24]) : Int)))[0]? = some 25 ∧
    (leftPad (keyLen 252303011164126931322302004581483143213)
      (big.Bytes (decrypt ⟨252303011164126931322302004581483143213,
          236888493308546660101927446133625257985⟩
        (big.SetBytes [170, 191, 220, 192, 192, 147, 60, 127, 41, 248, 26, 147, 77, 217,
          172, 24]) : Int)))[1]? = some 106 ∧
    DecryptRSA ⟨252303011164126931322302004581483143213,
        236888493308546660101927446133625257985⟩
        [170, 191, 220, 192, 192, 147, 60, 127, 41, 248, 26, 147, 77, 217, 172, 24]
      = .error (.paddingSignature 25 106) :=
  ⟨by decide, by decide, by decide, by decide,
    ((C12_padding_signature ⟨252303011164126931322302004581483143213,
        236888493308546660101927446133625257985⟩
      [170, 191, 220, 192, 192, 147, 60, 127, 41, 248, 26, 147, 77, 217, 172, 24]
      (by decide) (by decide)).2.2 25 106 (by decide) (by decide) (by decide)).1⟩

/-- C13: for every ciphertext of length `keyLen` whose decrypted `keyLen`-byte block starts with
0x00, 0x02: if the block holds no 0x00 at any index `≥ 2`, `DecryptRSA` returns the
missing-terminator error; otherwise, with `t` the smallest index `≥ 2` that holds 0x00,
`DecryptRSA` returns exactly the bytes of the block after index `t` (none when `t = keyLen-1`). -/
theorem C13_terminator_scan (priv : PrivateKey) (c : List Byte)
    (hc : c.length = keyLen priv.N)
    (h0 : (leftPad (keyLen priv.N) (big.Bytes (decrypt priv (big.SetBytes c) : Int)))[0]?
      = some 0x00)
    (h1 : (leftPad (keyLen priv.N) (big.Bytes (decrypt priv (big.SetBytes c) : Int)))[1]?
      = some 0x02) :
    (leftPad (keyLen priv.N) (big.Bytes (decrypt priv (big.SetBytes c) : Int))).length
      = keyLen priv.N ∧
    ((∀ i, 2 ≤ i →
        (leftPad (keyLen priv.N) (big.Bytes (decrypt priv (big.SetBytes c) : Int)))[i]?
          ≠ some 0x00) →
      DecryptRSA priv c = .error .noTerminator) ∧
    (∀ t, 2 ≤ t →
      (leftPad (keyLen priv.N) (big.Bytes (decrypt priv (big.SetBytes c) : Int)))[t]?
        = some 0x00 →
      (∀ i, 2 ≤ i → i < t →
        (leftPad (keyLen priv.N) (big.Bytes (decrypt priv (big.SetBytes c) : Int)))[i]?
          ≠ some 0x00) →
      DecryptRSA priv c
        = .ok ((leftPad (keyLen priv.N)
            (big.Bytes (decrypt priv (big.SetBytes c) : Int))).drop (t + 1)) ∧
      (t + 1 = keyLen priv.N → DecryptRSA priv c = .ok [])) := by
  have hN : priv.N ≠ 0 := ne_zero_of_block_prefix priv c hc h1
  have hlen := length_decrypted_block priv (SetBytes c) hN
  rw [DecryptRSA_eq_unpad priv c hN hc]
  generalize leftPad (keyLen priv.N) (Bytes (decrypt priv (SetBytes c) : Int)) = blk
    at h0 h1 hlen ⊢
  match blk, h0, h1 with
  | a :: b :: tail, h0, h1 =>
    simp only [List.getElem?_cons_zero, List.getElem?_cons_succ, Option.some.injEq] at h0 h1
    subst h0 h1
    refine ⟨hlen, ?_, ?_⟩
    · intro hno
      have hnz : ∀ x ∈ tail, x ≠ (0 : Byte) := by
        intro x hx hx0
        obtain ⟨j, hj⟩ := List.getElem?_of_mem hx
        apply hno (j + 2) (by omega)
        simp only [List.getElem?_cons_succ]
        rw [hj, hx0]
      rw [unpad_cons_cons, if_neg (by simp), IndexByte_of_not_mem 0 tail hnz, if_pos (by omega)]
    · intro t ht hzero hmin
      obtain ⟨k, rfl⟩ : ∃ k, t = k + 2 := ⟨t - 2, by omega⟩
      simp only [List.getElem?_cons_succ] at hzero
      have hmem : (0 : Byte) ∈ tail := List.getElem?_mem hzero
      obtain ⟨ps, rest, htail, hps⟩ := exists_first_occurrence 0 tail hmem
      have hk : ps.length = k := by
        rcases Nat.lt_trichotomy ps.length k with hlt | heq | hgt
        · exfalso
          apply hmin (ps.length + 2) (by omega) (by omega)
          simp only [List.getElem?_cons_succ]
          rw [htail, List.getElem?_append_right (le_refl _)]
          simp
        · exact heq
        · exfalso
          rw [htail, List.getElem?_append_left hgt] at hzero
          have hm : (0 : Byte) ∈ ps := List.getElem?_mem hzero
          exact hps 0 hm rfl
      have hblock : (0x00 : Byte) :: 0x02 :: tail = pkcs1Block ps rest := by
        rw [htail]; rfl
      have hdrop : ((0x00 : Byte) :: 0x02 :: tail).drop (k + 2 + 1) = rest := by
        rw [htail, ← hk]
        simp only [List.drop_succ_cons]
        rw [List.drop_append 1]
        rfl
      rw [hdrop, hblock, unpad_pkcs1Block ps rest hps]
      refine ⟨rfl, fun hend => ?_⟩
      have hl : (pkcs1Block ps rest).length = k + 2 + 1 := by rw [← hblock, hlen, ← hend]
      rw [length_pkcs1Block] at hl
      have : rest.length = 0 := by omega
      rw [List.length_eq_zero.1 this]

/-- Instance of C13: a block with its terminator at index 10 yields the five bytes after it; a
block without a zero byte after the signature yields the missing-terminator error. -/
theorem C13_witness :
    (leftPad (keyLen 252303011164126931322302004581483143213)
      (big.Bytes (decrypt ⟨252303011164126931322302004581483143213,
          236888493308546660101927446133625257985⟩
        (big.SetBytes [42, 247, 169, 87, 159, 218, 248, 124, 248, 236, 81, 217, 109, 25,
          90, 152]) : Int)))
      = [0, 2, 37, 74, 111, 148, 185, 222, 3, 40, 0, 97, 0, 98, 99, 100] ∧
    DecryptRSA ⟨252303011164126931322302004581483143213,
        236888493308546660101927446133625257985⟩
        [42, 247, 169, 87, 159, 218, 248, 124, 248, 236, 81, 217, 109, 25, 90, 152]
      = .ok (([0, 2, 37, 74, 111, 148, 185, 222, 3, 40, 0, 97, 0, 98, 99, 100] :
          List Byte).drop (10 + 1)) ∧
    (leftPad (keyLen 252303011164126931322302004581483143213)
      (big.Bytes (decrypt ⟨252303011164126931322302004581483143213,
          236888493308546660101927446133625257985⟩
        (big.SetBytes [175, 130, 84, 110, 102, 210, 236, 229, 229, 252, 15, 123, 220, 163,
          211, 139]) : Int)))
      = [0, 2, 1, 2, 3, 4, 5, 6, 7, 8, 9, 10, 11, 12, 13, 14] ∧
    DecryptRSA ⟨252303011164126931322302004581483143213,
        236888493308546660101927446133625257985⟩
        [175, 130, 84, 110, 102, 210, 236, 229, 229, 252, 15, 123, 220, 163, 211, 139]
      = .error .noTerminator := by
  have hb1 : (leftPad (keyLen 252303011164126931322302004581483143213)
      (big.Bytes (decrypt ⟨252303011164126931322302004581483143213,
          236888493308546660101927446133625257985⟩
        (big.SetBytes [42, 247, 169, 87, 159, 218, 248, 124, 248, 236, 81, 217, 109, 25,
          90, 152]) : Int)))
      = [0, 2, 37, 74, 111, 148, 185, 222, 3, 40, 0, 97, 0, 98, 99, 100] := by decide
  have hb2 : (leftPad (keyLen 252303011164126931322302004581483143213)
      (big.Bytes (decrypt ⟨252303011164126931322302004581483143213,
          236888493308546660101927446133625257985⟩
        (big.SetBytes [175, 130, 84, 110, 102, 210, 236, 229, 229, 252, 15, 123, 220, 163,
          211, 139]) : Int)))
      = [0, 2, 1, 2, 3, 4, 5, 6, 7, 8, 9, 10, 11, 12, 13, 14] := by decide
  have t1 := (C13_terminator_scan ⟨252303011164126931322302004581483143213,
        236888493308546660101927446133625257985⟩
      [42, 247, 169, 87, 159, 218, 248, 124, 248, 236, 81, 217, 109, 25, 90, 152]
      (by decide) (by rw [hb1]; rfl) (by rw [hb1]; rfl)).2.2 10 (by decide)
      (by rw [hb1]; rfl)
      (fun i h1 h2 => by rw [hb1]; interval_cases i <;> decide)
  have t2 := (C13_terminator_scan ⟨252303011164126931322302004581483143213,
        236888493308546660101927446133625257985⟩
      [175, 130, 84, 110, 102, 210, 236, 229, 229, 252, 15, 123, 220, 163, 211, 139]
      (by decide) (by rw [hb2]; rfl) (by rw [hb2]; rfl)).2.1
      (fun i h1 => by
        rw [hb2]
        by_cases hi : i < 16
        · interval_cases i <;> decide
        · rw [List.getElem?_eq_none (by simp; omega)]
          exact fun h => Option.noConfusion h)
  rw [hb1] at t1
  exact ⟨hb1, t1.1, hb2, t2⟩

/-- C14 (as stated, refuted): with a prime stream that delivers the prime 917519 at every draw,
each of the nine attempts of `GenerateKeys 40` is rejected (65537 divides `p - 1`, so it has no
inverse modulo `(p-1)(q-1)`), and the call ends in the panic after 18 draws: no error value is
returned. -/
theorem C14_exhaustion_is_not_an_error :
    Nat.Prime 917519 ∧
    (∀ j, j < 9 → ∃ p q, srcStuck (2 * j) = .value p ∧ srcStuck (2 * j + 1) = .value q ∧
      big.ModInverse 65537 (((p : Int) - 1) * ((q : Int) - 1)) = none) ∧
    GenerateKeys 40 srcStuck = some (.panic .retriedTooManyTimes, 18) ∧
    ¬ ∃ e pos, GenerateKeys 40 srcStuck = some (.error e, pos) := by
  have hrun : GenerateKeys 40 srcStuck = some (.panic .retriedTooManyTimes, 18) := by decide
  refine ⟨by norm_num, fun j _ => ⟨917519, 917519, rfl, rfl, by decide⟩, hrun, ?_⟩
  rintro ⟨e, pos, h⟩
  rw [hrun] at h
  simp at h

/-- C14 (amended): when `rand.Prime` succeeds on every draw and each of the nine attempts is
rejected (the product has the wrong bit length or 65537 has no inverse modulo `(p-1)(q-1)`),
`GenerateKeys` panics on entering the tenth iteration, after 18 draws; it returns neither a key
pair nor an error value. -/
theorem C14_exhaustion_panics (L : Int) (src : Nat → Draw Nat) (hbits : 2 ≤ L.tdiv 2)
    (hfail : ∀ j, j < 9 → ∃ p q, src (2 * j) = .value p ∧ src (2 * j + 1) = .value q ∧
      ((big.BitLen ((p : Int) * (q : Int)) : Int) ≠ L ∨
        big.ModInverse 65537 (((p : Int) - 1) * ((q : Int) - 1)) = none)) :
    GenerateKeys L src = some (.panic .retriedTooManyTimes, 18) ∧
    (∀ e pos, GenerateKeys L src ≠ some (.error e, pos)) ∧
    (∀ keys pos, GenerateKeys L src ≠ some (.ok keys, pos)) := by
  have hrun : GenerateKeys L src = some (.panic .retriedTooManyTimes, 18) := by
    apply GenerateKeys_exhausted L src hbits
    intro j hj
    obtain ⟨p, q, hp, hq, hrej⟩ := hfail j hj
    exact ⟨p, q, hp, hq, (accepts_eq_false_iff L p q).2 hrej⟩
  refine ⟨hrun, ?_, ?_⟩
  · intro e pos h
    rw [hrun] at h
    simp at h
  · intro keys pos h
    rw [hrun] at h
    simp at h

/-- Instance of C14 (amended): `GenerateKeys 12` on a stream of 6-bit primes whose products have
11 bits. -/
theorem C14_witness :
    (2 : Int) ≤ (12 : Int).tdiv 2 ∧
    (∀ j, j < 9 → ∃ p q, srcShort (2 * j) = .value p ∧ srcShort (2 * j + 1) = .value q ∧
      ((big.BitLen ((p : Int) * (q : Int)) : Int) ≠ 12 ∨
        big.ModInverse 65537 (((p : Int) - 1) * ((q : Int) - 1)) = none)) ∧
    GenerateKeys 12 srcShort = some (.panic .retriedTooManyTimes, 18) :=
  ⟨by decide, fun _ _ => ⟨37, 37, rfl, rfl, Or.inl (by decide)⟩,
    (C14_exhaustion_panics 12 srcShort (by decide)
      (fun _ _ => ⟨37, 37, rfl, rfl, Or.inl (by decide)⟩)).1⟩

/-- C15: a failed draw of the prime stream is the last draw `GenerateKeys` makes and its error is
the result of the call (no keys): this holds on every run, and a failure of the first or of the
second draw of an attempt reached after `k < 9` rejected attempts is returned with `2k+1`
resp. `2k+2` primes drawn. In the same way a failed draw of the byte stream is the last draw of
the padding loop, and `EncryptRSA` returns its error and no ciphertext. -/
theorem C15_source_failure_propagates (L : Int) (src : Nat → Draw Nat) (pub : PublicKey)
    (m : List Byte) (rnd : Nat → Draw Byte) (fuel : Nat) :
    (∀ r pos, GenerateKeys L src = some (r, pos) → ∀ i code, i < pos → src i = .fail code →
      r = .error (.source code) ∧ pos = i + 1) ∧
    (∀ k, k < 9 → 2 ≤ L.tdiv 2 →
      (∀ j, j < k → ∃ p q, src (2 * j) = .value p ∧ src (2 * j + 1) = .value q ∧
        accepts L p q = false) →
      (∀ code, src (2 * k) = .fail code →
        GenerateKeys L src = some (.error (.source code), 2 * k + 1)) ∧
      (∀ p code, src (2 * k) = .value p → src (2 * k + 1) = .fail code →
        GenerateKeys L src = some (.error (.source code), 2 * k + 2))) ∧
    (m.length + 11 ≤ keyLen pub.N →
      (∀ r pos, encodingBlock (keyLen pub.N) m rnd fuel = some (r, pos) →
        ∀ i code, i < pos → rnd i = .fail code →
        r = .error (.source code) ∧ pos = i + 1 ∧
          EncryptRSA pub m rnd fuel = some (.error (.source code))) ∧
      (∀ i code, (∀ j, j < i → ∃ b, rnd j = .value b) → rnd i = .fail code →
        (nonzeroDraws rnd 0 i).length < keyLen pub.N - m.length - 3 → i < fuel →
        EncryptRSA pub m rnd fuel = some (.error (.source code)) ∧
          ∀ c, EncryptRSA pub m rnd fuel ≠ some (.ok c))) := by
  refine ⟨?_, ?_, ?_⟩
  · intro r pos h i code hi hf
    obtain ⟨_, _, h3, h4, _⟩ := GenerateKeysLoop_run L src 10 0 0 r pos (by omega) h
    by_cases hlast : i + 1 < pos
    · obtain ⟨v, hv⟩ := h3 i (Nat.zero_le _) hlast
      rw [hv] at hf
      exact Draw.noConfusion hf
    · have hpos : pos = i + 1 := by omega
      refine ⟨h4 code (by omega) ?_, hpos⟩
      rw [hpos, Nat.add_sub_cancel]
      exact hf
  · intro k hk hbits hrej
    exact ⟨fun code hf => GenerateKeys_first_draw_fails L src hbits k hk hrej hf,
      fun p code hp hf => GenerateKeys_second_draw_fails L src hbits k hk hrej hp hf⟩
  · intro hlen
    refine ⟨?_, ?_⟩
    · intro r pos h i code hi hf
      obtain ⟨h1, h2⟩ := encodingBlock_fail_last h hlen hi hf
      refine ⟨h1, h2, ?_⟩
      rw [h1] at h
      exact EncryptRSA_of_encodingBlock_error hlen h
    · intro i code hok hf hnz hfuel
      have hres := EncryptRSA_draw_fails pub m rnd fuel hlen hok hf hnz hfuel
      refine ⟨hres, fun c hc => ?_⟩
      rw [hres] at hc
      simp at hc

/-- Instance of C15: the third prime draw fails with code 5 after a rejected attempt; the fifth
byte draw fails with code 7 after three padding bytes. -/
theorem C15_witness :
    (GenerateKeys 12 srcBroken = some (.error (.source 5), 3) ∧ srcBroken 2 = .fail 5) ∧
    (([0x68, 0x69] : List Byte).length + 11 ≤ keyLen 252303011164126931322302004581483143213 ∧
      (∀ j, j < 4 → ∃ b, rndBroken j = .value b) ∧ rndBroken 4 = .fail 7 ∧
      (nonzeroDraws rndBroken 0 4).length
        < keyLen 252303011164126931322302004581483143213 - ([0x68, 0x69] : List Byte).length - 3 ∧
      EncryptRSA ⟨252303011164126931322302004581483143213, 65537⟩ [0x68, 0x69] rndBroken 20
        = some (.error (.source 7))) :=
  ⟨⟨((C15_source_failure_propagates 12 srcBroken
        ⟨252303011164126931322302004581483143213, 65537⟩ [0x68, 0x69] rndBroken 20).2.1
        1 (by decide) (by decide)
        (fun j hj => ⟨37, 37, by interval_cases j; rfl, by interval_cases j; rfl,
          by decide⟩)).1 5 rfl, rfl⟩,
   ⟨by decide, fun j hj => by interval_cases j <;> exact ⟨_, rfl⟩, rfl, by decide,
    (((C15_source_failure_propagates 12 srcBroken
        ⟨252303011164126931322302004581483143213, 65537⟩ [0x68, 0x69] rndBroken 20).2.2
        (by decide)).2 4 7 (fun j hj => by interval_cases j <;> exact ⟨_, rfl⟩) rfl
        (by decide) (by decide)).1⟩⟩

/-- C16: with a prime stream given as a never-failing sequence of `(p, q)` draws (and
`rand.Prime` asked for at least two bits), `GenerateKeys` draws at most 9 pairs: it returns the
key pair built from the first pair among the first nine that is accepted (the product has
`bitlen` bits and 65537 is invertible modulo `(p-1)(q-1)`), having drawn exactly the pairs up to
that one; if none of the first nine pairs is accepted it panics on entering the tenth iteration
with exactly 18 primes drawn. -/
theorem C16_retry_bound (L : Int) (pairs : Nat → Nat × Nat) (hbits : 2 ≤ L.tdiv 2) :
    (∀ r pos, GenerateKeys L (srcOfPairs pairs) = some (r, pos) → pos ≤ 2 * 9) ∧
    (∀ k, k < 9 → (∀ j, j < k → accepts L (pairs j).1 (pairs j).2 = false) →
      accepts L (pairs k).1 (pairs k).2 = true →
      GenerateKeys L (srcOfPairs pairs)
        = some (.ok (keyPairOf (pairs k).1 (pairs k).2), 2 * (k + 1))) ∧
    ((∀ j, j < 9 → accepts L (pairs j).1 (pairs j).2 = false) →
      GenerateKeys L (srcOfPairs pairs) = some (.panic .retriedTooManyTimes, 2 * 9)) := by
  have hfst : ∀ j, srcOfPairs pairs (2 * j) = .value (pairs j).1 := by
    intro j
    simp [srcOfPairs]
  have hsnd : ∀ j, srcOfPairs pairs (2 * j + 1) = .value (pairs j).2 := by
    intro j
    have h1 : (2 * j + 1) % 2 = 1 := by omega
    have h2 : (2 * j + 1) / 2 = j := by omega
    simp [srcOfPairs, h1, h2]
  refine ⟨?_, ?_, ?_⟩
  · intro r pos h
    obtain ⟨_, h2, _⟩ := GenerateKeysLoop_run L (srcOfPairs pairs) 10 0 0 r pos (by omega) h
    omega
  · intro k hk hrej hacc
    exact GenerateKeys_first_accepted L (srcOfPairs pairs) hbits k hk
      (fun j hj => ⟨_, _, hfst j, hsnd j, hrej j hj⟩) (hfst k) (hsnd k) hacc
  · intro hrej
    exact GenerateKeys_exhausted L (srcOfPairs pairs) hbits
      (fun j hj => ⟨_, _, hfst j, hsnd j, hrej j hj⟩)

/-- Instance of C16: three rejected pairs `(37, 41)`, then the accepted pair `(61, 53)`: four
pairs are drawn. -/
theorem C16_witness :
    (2 : Int) ≤ (12 : Int).tdiv 2 ∧
    (∀ j, j < 3 → accepts 12 (pairsDemo j).1 (pairsDemo j).2 = false) ∧
    accepts 12 (pairsDemo 3).1 (pairsDemo 3).2 = true ∧
    GenerateKeys 12 (srcOfPairs pairsDemo)
      = some (.ok (keyPairOf (pairsDemo 3).1 (pairsDemo 3).2), 2 * (3 + 1)) :=
  ⟨by decide, fun j hj => by interval_cases j <;> decide, by decide,
    (C16_retry_bound 12 pairsDemo (by decide)).2.1 3 (by decide)
      (fun j hj => by interval_cases j <;> decide) (by decide)⟩

/-- A request for fewer than two bits per prime is refused before any draw. -/
theorem GenerateKeys_refused (L : Int) (src : Nat → Draw Nat) (h : L.tdiv 2 < 2) :
    GenerateKeys L src = some (.error .primeSize, 0) := by
  unfold GenerateKeys
  rw [GenerateKeysLoop_step L src 9 0 0 (by omega), if_pos h]

/-- C17 (as stated, refuted): `bitlen = 3` is odd and the values of the stream have
`3/2 = 1` bit, yet the retry bound is not exhausted: `rand.Prime` refuses a size of one bit and
`GenerateKeys 3` returns that error with no prime drawn, instead of the panic after nine
attempts. -/
theorem C17_retry_bound_not_exhausted :
    (3 : Int) % 2 = 1 ∧
    (∀ i v, srcOneBit i = .value v → (big.BitLen (v : Int) : Int) = (3 : Int).tdiv 2) ∧
    GenerateKeys 3 srcOneBit = some (.error .primeSize, 0) ∧
    GenerateKeys 3 srcOneBit ≠ some (.panic .retriedTooManyTimes, 18) := by
  have hrun : GenerateKeys 3 srcOneBit = some (.error .primeSize, 0) := by decide
  refine ⟨by decide, ?_, hrun, ?_⟩
  · intro i v h
    unfold srcOneBit at h
    cases h
    decide
  · rw [hrun]
    decide

/-- C17 (amended): for every odd `bitlen`, with a prime stream whose values have `bitlen/2` bits
(the contract of `rand.Prime`), `GenerateKeys` never returns a key pair: for positive `bitlen`
every product `p*q` of two drawn values is below `2^(bitlen-1)`, so its bit length is at most
`bitlen - 1`, and every attempt is rejected. For odd `bitlen ≥ 5`, when no draw fails, the call
ends in the panic of the exhausted retry bound, with 18 primes drawn; for odd `bitlen ≤ 3`
`rand.Prime` refuses the size and the call returns that error with no prime drawn. -/
theorem C17_odd_bit_length (L : Int) (src : Nat → Draw Nat) (hodd : L % 2 = 1)
    (hsize : ∀ i v, src i = .value v → (big.BitLen (v : Int) : Int) = L.tdiv 2) :
    (∀ keys pos, GenerateKeys L src ≠ some (.ok keys, pos)) ∧
    (∀ i j p q, src i = .value p → src j = .value q →
      accepts L p q = false ∧
      (0 < L → p * q < 2 ^ (L - 1).toNat ∧ (big.BitLen ((p : Int) * (q : Int)) : Int) ≤ L - 1)) ∧
    (5 ≤ L → (∀ i, i < 18 → ∃ v, src i = .value v) →
      GenerateKeys L src = some (.panic .retriedTooManyTimes, 18)) ∧
    (L ≤ 3 → GenerateKeys L src = some (.error .primeSize, 0)) ∧
    (L ≤ 3 ∨ 5 ≤ L) := by
  have hpair : ∀ i j p q, src i = .value p → src j = .value q →
      accepts L p q = false ∧
      (0 < L → p * q < 2 ^ (L - 1).toNat ∧
        (big.BitLen ((p : Int) * (q : Int)) : Int) ≤ L - 1) := by
    intro i j p q hp hq
    have hbp := hsize i p hp
    have hbq := hsize j q hq
    have hcast : (p : Int) * (q : Int) = ((p * q : Nat) : Int) := by push_cast; rfl
    by_cases hpos : 0 < L
    · have htd : L.tdiv 2 = L / 2 := Int.tdiv_eq_ediv (by omega) (by omega)
      rw [htd] at hbp hbq
      obtain ⟨k, hk⟩ : ∃ k : Nat, L = 2 * (k : Int) + 1 := ⟨(L / 2).toNat, by omega⟩
      have hkp : big.BitLen (p : Int) = k := by omega
      have hkq : big.BitLen (q : Int) = k := by omega
      have hp2 := lt_two_pow_BitLen p
      have hq2 := lt_two_pow_BitLen q
      rw [hkp] at hp2
      rw [hkq] at hq2
      have hprod : p * q < 2 ^ (2 * k) := by
        rw [two_mul, pow_add]
        exact Nat.mul_lt_mul'' hp2 hq2
      have hbl : big.BitLen ((p * q : Nat) : Int) ≤ 2 * k := BitLen_le_of_lt_two_pow _ _ hprod
      have hexp : (L - 1).toNat = 2 * k := by omega
      refine ⟨(accepts_eq_false_iff L p q).2 (Or.inl ?_), fun _ => ⟨by rw [hexp]; exact hprod, ?_⟩⟩
      · rw [hcast]; omega
      · rw [hcast]; omega
    · refine ⟨(accepts_eq_false_iff L p q).2 (Or.inl ?_), fun h => absurd h hpos⟩
      have : L ≠ 0 := by omega
      omega
  refine ⟨?_, hpair, ?_, ?_, by omega⟩
  · intro keys pos h
    obtain ⟨pub, priv⟩ := keys
    obtain ⟨p, q, d, _, hp, hq, _, hbl, hd, _, _⟩ := GenerateKeys_ok h
    have := (hpair _ _ p q hp hq).1
    rw [accepts_eq_false_iff] at this
    rcases this with h1 | h1
    · exact h1 hbl
    · rw [hd] at h1; exact Option.noConfusion h1
  · intro hL hvals
    have hbits : 2 ≤ L.tdiv 2 := by
      rw [Int.tdiv_eq_ediv (by omega) (by omega)]
      omega
    apply GenerateKeys_exhausted L src hbits
    intro j hj
    obtain ⟨p, hp⟩ := hvals (2 * j) (by omega)
    obtain ⟨q, hq⟩ := hvals (2 * j + 1) (by omega)
    exact ⟨p, q, hp, hq, (hpair _ _ p q hp hq).1⟩
  · intro hL
    apply GenerateKeys_refused
    by_contra hge
    have := four_le_of_tdiv_two (L := L) (by omega)
    omega

/-- Instance of C17 (amended): `GenerateKeys 13` on a stream of 6-bit primes. -/
theorem C17_witness :
    (13 : Int) % 2 = 1 ∧
    (∀ i v, srcSixBit i = .value v → (big.BitLen (v : Int) : Int) = (13 : Int).tdiv 2) ∧
    GenerateKeys 13 srcSixBit = some (.panic .retriedTooManyTimes, 18) ∧
    ∀ keys pos, GenerateKeys 13 srcSixBit ≠ some (.ok keys, pos) :=
  have hsize : ∀ i v, srcSixBit i = .value v →
      (big.BitLen (v : Int) : Int) = (13 : Int).tdiv 2 := by
    intro i v h
    unfold srcSixBit at h
    split at h
    · cases h; decide
    · cases h; decide
  ⟨by decide, hsize,
    (C17_odd_bit_length 13 srcSixBit (by decide) hsize).2.2.1 (by decide)
      (fun i _ => by unfold srcSixBit; split <;> exact ⟨_, rfl⟩),
    (C17_odd_bit_length 13 srcSixBit (by decide) hsize).1⟩

/-- C18 (as stated, refuted): the key `N = 77`, `D = 0` lies in `1 ≤ N < 256` with `D ≥ 0`, and
the ciphertext `00` passes the length check, but it decrypts to the block `01`, not `00`
(`0^0 mod 77 = 1`); the call still panics on the read of `m[1]`. -/
theorem C18_block_at_zero_exponent :
    (1 : Int) ≤ 77 ∧ (77 : Int) < 256 ∧
    ([0x00] : List Byte).length = keyLen 77 ∧
    leftPad (keyLen 77) (big.Bytes (decrypt ⟨77, 0⟩ (big.SetBytes [0x00]) : Int)) = [0x01] ∧
    leftPad (keyLen 77) (big.Bytes (decrypt ⟨77, 0⟩ (big.SetBytes [0x00]) : Int)) ≠ [0x00] ∧
    DecryptRSA ⟨77, 0⟩ [0x00] = .panic .indexOutOfRange :=
  ⟨by decide, by decide, by decide, by decide, by decide, by decide⟩

/-- C18 (amended): `DecryptRSA` is free of panics on every ciphertext exactly when `keyLen ≥ 2`.
For a key with `N ≥ 256` (whatever `D`) `keyLen ≥ 2` and every call returns a message or an
error value; for a key with `1 ≤ N < 256` the key length is 1, the ciphertext `00` passes the
length check and the call panics on the read of `m[1]`; the decrypted block is `00` when
`D ≠ 0` or `N = 1`, and `01` when `D = 0` and `N ≥ 2`. -/
theorem C18_totality (priv : PrivateKey) :
    ((∀ c p, DecryptRSA priv c ≠ .panic p) ↔ 2 ≤ keyLen priv.N) ∧
    (256 ≤ priv.N → 2 ≤ keyLen priv.N ∧
      ∀ c, (∃ m, DecryptRSA priv c = .ok m) ∨ (∃ e, DecryptRSA priv c = .error e)) ∧
    (1 ≤ priv.N → priv.N < 256 →
      ([0x00] : List Byte).length = keyLen priv.N ∧
      DecryptRSA priv [0x00] = .panic .indexOutOfRange ∧
      (priv.D ≠ 0 ∨ priv.N = 1 →
        leftPad (keyLen priv.N) (big.Bytes (decrypt priv (big.SetBytes [0x00]) : Int))
          = [0x00]) ∧
      (priv.D = 0 → 2 ≤ priv.N →
        leftPad (keyLen priv.N) (big.Bytes (decrypt priv (big.SetBytes [0x00]) : Int))
          = [0x01])) := by
  refine ⟨⟨?_, fun hk c p => DecryptRSA_no_panic priv hk c p⟩, ?_, ?_⟩
  · intro h
    by_contra hk
    obtain ⟨p, hp⟩ := DecryptRSA_panics priv (by omega)
      (List.replicate (keyLen priv.N) 0) (by simp)
    exact h _ p hp
  · intro hN
    have hk := two_le_keyLen_of_ge hN
    refine ⟨hk, fun c => ?_⟩
    cases hr : DecryptRSA priv c with
    | ok m => exact Or.inl ⟨m, rfl⟩
    | error e => exact Or.inr ⟨e, rfl⟩
    | panic p => exact absurd hr (DecryptRSA_no_panic priv hk c p)
  · intro h1 h2
    have hk := keyLen_eq_one_of_lt h1 h2
    have hN : priv.N ≠ 0 := by omega
    have hc : ([0x00] : List Byte).length = keyLen priv.N := by rw [hk]; rfl
    have hs : SetBytes [(0x00 : Byte)] = 0 := by decide
    refine ⟨hc, ?_, ?_, ?_⟩
    · rw [DecryptRSA_eq_unpad priv _ hN hc]
      exact unpad_short _ (by rw [length_decrypted_block priv _ hN, hk]; decide)
    · intro hD
      have hx : decrypt priv (SetBytes [0x00]) = 0 := by
        rw [hs]
        unfold decrypt Exp
        by_cases hneg : priv.D < 0
        · rw [if_pos hneg, if_neg hN]
          cases hinv : ModInverse 0 priv.N with
          | none => rfl
          | some inv =>
            have hg := ModInverse_gcd hinv
            rw [Nat.gcd_zero_left] at hg
            have hlt := ModInverse_lt hinv hN
            have : inv = 0 := by omega
            subst this
            simp only [Option.getD_some]
            rw [powMod_eq, hg, Nat.mod_one]
        · rw [if_neg hneg, if_neg hN]
          simp only [Option.getD_some]
          rw [powMod_eq]
          by_cases hD0 : priv.D = 0
          · have hN1 : priv.N.natAbs = 1 := by omega
            rw [hN1, Nat.mod_one]
          · rw [zero_pow (by omega), Nat.zero_mod]
      rw [hx, hk]
      decide
    · intro hD hN2
      have hx : decrypt priv (SetBytes [0x00]) = 1 := by
        rw [hs]
        unfold decrypt Exp
        rw [if_neg (by omega), if_neg hN]
        simp only [Option.getD_some]
        rw [powMod_eq, hD]
        simp only [Int.toNat_zero, pow_zero]
        exact Nat.mod_eq_of_lt (by omega)
      rw [hx, hk]
      decide

/-- Instance of C18 (amended): under the key `N = 77, D = 37` the ciphertext `00` decrypts to the
block `00` and makes `DecryptRSA` panic. -/
theorem C18_witness :
    (1 : Int) ≤ 77 ∧ (77 : Int) < 256 ∧
    DecryptRSA ⟨77, 37⟩ [0x00] = .panic .indexOutOfRange ∧
    ((37 : Int) ≠ 0 ∨ (77 : Int) = 1) ∧
    leftPad (keyLen 77) (big.Bytes (decrypt ⟨77, 37⟩ (big.SetBytes [0x00]) : Int)) = [0x00] :=
  ⟨by decide, by decide, ((C18_totality ⟨77, 37⟩).2.2 (by decide) (by decide)).2.1,
    by decide, ((C18_totality ⟨77, 37⟩).2.2 (by decide) (by decide)).2.2.1 (by decide)⟩

/-- C19: `DecryptRSA` does not enforce a minimum of 8 padding bytes. Under the key pair of the
primes `P64`, `Q64` the ciphertext of the block `00 02 || 00 || M` (empty padding string,
13-byte `M`) is accepted and `M` is returned; under every key pair of two distinct primes the
same holds for every zero-free padding string of any length. `EncryptRSA` never builds such a
block: the zero-free padding string of its blocks has at least 8 bytes. -/
theorem C19_no_minimum_padding :
    (Nat.Prime P64 ∧ Nat.Prime Q64 ∧ P64 ≠ Q64 ∧
      236888493308546660101927446133625257985 * 65537 % ((P64 - 1) * (Q64 - 1)) = 1 ∧
      leftPad (keyLen ((P64 : Int) * (Q64 : Int)))
        (big.Bytes (decrypt ⟨(P64 : Int) * (Q64 : Int), 236888493308546660101927446133625257985⟩
          (big.SetBytes [153, 52, 248, 176, 87, 144, 20, 60, 246, 127, 165, 254, 243, 140,
            48, 102]) : Int))
        = pkcs1Block [] [97, 98, 99, 100, 101, 102, 103, 104, 105, 106, 107, 108, 109] ∧
      DecryptRSA ⟨(P64 : Int) * (Q64 : Int), 236888493308546660101927446133625257985⟩
        [153, 52, 248, 176, 87, 144, 20, 60, 246, 127, 165, 254, 243, 140, 48, 102]
        = .ok [97, 98, 99, 100, 101, 102, 103, 104, 105, 106, 107, 108, 109]) ∧
    (∀ (p q : Nat), p.Prime → q.Prime → p ≠ q → ∀ (E D : Nat),
      D * E % ((p - 1) * (q - 1)) = 1 → ∀ (PS M : List Byte), (∀ b ∈ PS, b ≠ 0) →
      (pkcs1Block PS M).length = keyLen ((p : Int) * (q : Int)) →
      DecryptRSA ⟨(p : Int) * (q : Int), (D : Int)⟩
        (pkcs1Encrypt (p * q) E (keyLen ((p : Int) * (q : Int))) PS M) = .ok M) ∧
    (∀ (pub : PublicKey) (m : List Byte) (rnd : Nat → Draw Byte) (fuel : Nat) (eb : List Byte)
      (pos : Nat), m.length + 11 ≤ keyLen pub.N →
      encodingBlock (keyLen pub.N) m rnd fuel = some (.ok eb, pos) →
      ∀ (PS M : List Byte), (∀ b ∈ PS, b ≠ 0) → eb = pkcs1Block PS M → 8 ≤ PS.length) := by
  refine ⟨⟨P64_prime, Q64_prime, by decide, by decide, by decide, by decide⟩, ?_, ?_⟩
  · intro p q hp hq hpq E D hED PS M hPS hlen
    have hN : (p : Int) * (q : Int) ≠ 0 := by
      have := hp.pos
      have := hq.pos
      positivity
    have habsN : ((p : Int) * (q : Int)).natAbs = p * q := by
      rw [Int.natAbs_mul, Int.natAbs_ofNat, Int.natAbs_ofNat]
    have hED' : D * E % ((p - 1) * (q - 1)) = 1 % ((p - 1) * (q - 1)) := by
      rw [hED]
      by_cases h1 : (p - 1) * (q - 1) = 1
      · rw [h1, Nat.mod_one] at hED
        omega
      · by_cases h0 : (p - 1) * (q - 1) = 0
        · rw [h0]
        · rw [Nat.mod_eq_of_lt (by omega)]
    have henc : encrypt ⟨(p : Int) * (q : Int), (E : Int)⟩ (SetBytes (pkcs1Block PS M))
        = SetBytes (pkcs1Block PS M) ^ E % (p * q) := by
      rw [encrypt_eq_pow _ _ hN (by simp)]
      simp only [habsN, Int.toNat_ofNat]
    have := DecryptRSA_leftPad_encrypt hp hq hpq E D hED' PS M hPS hlen
    rw [henc] at this
    exact this
  · intro pub m rnd fuel eb pos hlen h PS M hPS heb
    obtain ⟨_, _, hps, heb'⟩ := encodingBlock_ok hlen h
    rw [heb'] at heb
    have := length_eq_of_pkcs1Block_eq (nonzeroDraws_ne_zero rnd pos 0) hPS heb
    omega

/-- C20: for every private key with `N ≥ 256` and every two byte strings of length `keyLen`
whose big-endian values are congruent modulo `N`, `DecryptRSA` gives the same result; in
particular the `keyLen`-byte encoding of `value + N`, when it fits, is treated like the
ciphertext itself, although its value is not below `N`. -/
theorem C20_congruent_ciphertexts (priv : PrivateKey) (hN : 256 ≤ priv.N) (c1 c2 : List Byte)
    (h1 : c1.length = keyLen priv.N) (h2 : c2.length = keyLen priv.N)
    (hcong : (big.SetBytes c1 : Int) % priv.N = (big.SetBytes c2 : Int) % priv.N) :
    DecryptRSA priv c1 = DecryptRSA priv c2 ∧
    (big.SetBytes c1 + priv.N.natAbs < 256 ^ keyLen priv.N →
      (leftPad (keyLen priv.N)
        (big.Bytes ((big.SetBytes c1 + priv.N.natAbs : Nat) : Int))).length = keyLen priv.N ∧
      priv.N ≤ (big.SetBytes (leftPad (keyLen priv.N)
        (big.Bytes ((big.SetBytes c1 + priv.N.natAbs : Nat) : Int))) : Int) ∧
      DecryptRSA priv (leftPad (keyLen priv.N)
        (big.Bytes ((big.SetBytes c1 + priv.N.natAbs : Nat) : Int))) = DecryptRSA priv c1) := by
  have hN0 : priv.N ≠ 0 := by omega
  have habs : (priv.N.natAbs : Int) = priv.N := Int.natAbs_of_nonneg (by omega)
  have hn2 : 2 ≤ priv.N.natAbs := by omega
  have key : ∀ a b : List Byte, a.length = keyLen priv.N → b.length = keyLen priv.N →
      SetBytes a % priv.N.natAbs = SetBytes b % priv.N.natAbs →
      DecryptRSA priv a = DecryptRSA priv b := by
    intro a b ha hb hab
    rw [DecryptRSA_eq_unpad priv a hN0 ha, DecryptRSA_eq_unpad priv b hN0 hb,
      decrypt_congr priv hn2 _ _ hab]
  have hnat : SetBytes c1 % priv.N.natAbs = SetBytes c2 % priv.N.natAbs := by
    rw [← habs] at hcong
    exact_mod_cast hcong
  refine ⟨key c1 c2 h1 h2 hnat, fun hfit => ?_⟩
  have hlen : (leftPad (keyLen priv.N)
      (Bytes ((SetBytes c1 + priv.N.natAbs : Nat) : Int))).length = keyLen priv.N :=
    length_leftPad _ _ (length_Bytes_le _ _ hfit)
  refine ⟨hlen, ?_, key _ _ hlen h1 ?_⟩
  · rw [SetBytes_leftPad, SetBytes_Bytes, Nat.cast_add, habs]
    omega
  · rw [SetBytes_leftPad, SetBytes_Bytes, Nat.add_mod_right]

/-- Instance of C20: under the key pair of `P64`, `Q64` a ciphertext and the encoding of its
value plus `N` both decrypt to the message `61 00 62 63 64`. -/
theorem C20_witness :
    (256 : Int) ≤ 252303011164126931322302004581483143213 ∧
    (big.SetBytes [46, 35, 173, 104, 74, 246, 156, 17, 57, 132, 203, 227, 40, 152, 162, 163] : Int)
        % 252303011164126931322302004581483143213
      = (big.SetBytes [235, 243, 120, 68, 185, 58, 129, 56, 18, 123, 17, 166, 10, 24, 130, 208] :
          Int) % 252303011164126931322302004581483143213 ∧
    (252303011164126931322302004581483143213 : Int)
      ≤ big.SetBytes [235, 243, 120, 68, 185, 58, 129, 56, 18, 123, 17, 166, 10, 24, 130, 208] ∧
    DecryptRSA ⟨252303011164126931322302004581483143213,
        236888493308546660101927446133625257985⟩
        [235, 243, 120, 68, 185, 58, 129, 56, 18, 123, 17, 166, 10, 24, 130, 208]
      = .ok [0x61, 0x00, 0x62, 0x63, 0x64] ∧
    DecryptRSA ⟨252303011164126931322302004581483143213,
        236888493308546660101927446133625257985⟩
        [46, 35, 173, 104, 74, 246, 156, 17, 57, 132, 203, 227, 40, 152, 162, 163]
      = DecryptRSA ⟨252303011164126931322302004581483143213,
          236888493308546660101927446133625257985⟩
          [235, 243, 120, 68, 185, 58, 129, 56, 18, 123, 17, 166, 10, 24, 130, 208] :=
  ⟨by decide, by decide, by decide, by decide,
    (C20_congruent_ciphertexts ⟨252303011164126931322302004581483143213,
        236888493308546660101927446133625257985⟩ (by decide)
      [46, 35, 173, 104, 74, 246, 156, 17, 57, 132, 203, 227, 40, 152, 162, 163]
      [235, 243, 120, 68, 185, 58, 129, 56, 18, 123, 17, 166, 10, 24, 130, 208]
      (by decide) (by decide) (by decide)).1⟩

end alexrsa
